import Mathlib

/-!
Shallow embedding, in Lean 4, of the TSP metaheuristics repository
(`src/utils/tsp.py`, `src/utils/neighborhoods.py`, `src/algorithms/*.py`),
together with proofs settling the specification claims.

Conventions of the embedding:
* Python floats are embedded as exact rationals `ℚ`; the claims' floating
  point tolerances are subsumed by exact equality / explicit inequalities.
* Python's `random` draws become explicit oracle parameters (streams indexed
  by the loop counters at which the code draws them); hypotheses on the
  oracles state exactly what the corresponding `random` call guarantees
  (e.g. `random.sample(range(n), 2)` yields two distinct indices `< n`,
  `random.shuffle` yields a permutation of `range(n)`).
* `float("inf")`-initialised "best so far" trackers are embedded as
  `Option (List ℕ × ℚ)`, `none` playing the role of `(None, inf)`.
* Fallible Python code (`ZeroDivisionError` from `q / dist`,
  `ValueError` from `random.sample(range(n), k)` with `k > n`) is embedded
  in `Except String`.
* Python's `(a - 1) % n` on `0 ≤ a < n` is written `(a + n - 1) % n`, and a
  negative index `route[-1]` (resp. `route[-2]`) as `route.getD (n-1)`
  (resp. `route.getD (n-2)`); both agree with Python for indices in range.
-/

namespace Tsp

/-- Distance model (`class TSP` of `src/utils/tsp.py`): a city count and a
distance matrix, the matrix embedded as a total lookup function
(`self.dist_matrix[i][j]`). -/
structure TSP where
  n : ℕ
  dm : ℕ → ℕ → ℚ

/-- The matrix is symmetric (spec data model: "symmetric in practice"). -/
def Symm (t : TSP) : Prop := ∀ i j, t.dm i j = t.dm j i

/-- The matrix has non-negative entries. -/
def Nonneg (t : TSP) : Prop := ∀ i j, 0 ≤ t.dm i j

/-- The matrix has zero diagonal. -/
def ZeroDiag (t : TSP) : Prop := ∀ i, t.dm i i = 0

/-- A tour over `n` cities: a permutation of `[0, n)` as a list. -/
def IsTour (n : ℕ) (r : List ℕ) : Prop := r.Perm (List.range n)

/-- `TSP.route_length` (`src/utils/tsp.py` lines 57-73): sum of
`dist_matrix[route[i]][route[(i+1) % len(route)]]` over `i < len(route)`. -/
def route_length (t : TSP) (route : List ℕ) : ℚ :=
  ∑ i ∈ Finset.range route.length,
    t.dm (route.getD i 0) (route.getD ((i + 1) % route.length) 0)

/-! ## Neighborhood operators (`src/utils/neighborhoods.py`)

Each full-evaluation operator takes the pair of positions that
`random.sample(range(n), 2)` drew as explicit arguments `a0 b0`. -/

/-- `swap` (lines 13-24): exchange the cities at two positions. -/
def swap (route : List ℕ) (a0 b0 : ℕ) : List ℕ :=
  if route.length < 2 then route
  else (route.set a0 (route.getD b0 0)).set b0 (route.getD a0 0)

/-- `insert` (lines 27-39): pop the city at position `a0`, re-insert at `b0`. -/
def insert (route : List ℕ) (a0 b0 : ℕ) : List ℕ :=
  if route.length < 2 then route
  else (route.eraseIdx a0).insertIdx b0 (route.getD a0 0)

/-- `two_opt` (lines 42-54): sort the drawn pair, widen a degenerate segment
to length 2, reverse the slice `route[a:b]`. -/
def two_opt (route : List ℕ) (a0 b0 : ℕ) : List ℕ :=
  if route.length < 3 then route
  else
    let a := if a0 ≤ b0 then a0 else b0
    let b := if a0 ≤ b0 then b0 else a0
    let b := if b - a < 2 then min (a + 2) route.length else b
    route.take a ++ ((route.drop a).take (b - a)).reverse ++ route.drop b

/-- `swap_delta` (lines 59-102): swap plus an incrementally computed cost
change, with special cases for adjacent positions and for the pair `(0, n-1)`. -/
def swap_delta (t : TSP) (route : List ℕ) (a0 b0 : ℕ) : List ℕ × ℚ :=
  let n := route.length
  if n < 2 then (route, 0)
  else
    let a := if a0 > b0 then b0 else a0
    let b := if a0 > b0 then a0 else b0
    let dm := t.dm
    let a_prev := route.getD ((a + n - 1) % n) 0
    let a_next := route.getD ((a + 1) % n) 0
    let b_prev := route.getD ((b + n - 1) % n) 0
    let b_next := route.getD ((b + 1) % n) 0
    let city_a := route.getD a 0
    let city_b := route.getD b 0
    let old_cost :=
      if b = a + 1 then
        dm a_prev city_a + dm city_a city_b + dm city_b b_next
      else if a = 0 ∧ b = n - 1 then
        dm (route.getD (n - 2) 0) city_b + dm city_b city_a
          + dm city_a (route.getD 1 0)
      else
        dm a_prev city_a + dm city_a a_next + dm b_prev city_b + dm city_b b_next
    let new_cost :=
      if b = a + 1 then
        dm a_prev city_b + dm city_b city_a + dm city_a b_next
      else if a = 0 ∧ b = n - 1 then
        dm (route.getD (n - 2) 0) city_a + dm city_a city_b
          + dm city_b (route.getD 1 0)
      else
        dm a_prev city_b + dm city_b a_next + dm b_prev city_a + dm city_a b_next
    let new_route := (route.set a city_b).set b city_a
    (new_route, new_cost - old_cost)

/-- `insert_delta` (lines 105-124): generates the moved route via `insert` and
computes the delta by two full route-length evaluations. -/
def insert_delta (t : TSP) (route : List ℕ) (a0 b0 : ℕ) : List ℕ × ℚ :=
  if route.length < 2 then (route, 0)
  else
    let new_route := insert route a0 b0
    (new_route, route_length t new_route - route_length t route)

/-- `two_opt_delta` (lines 127-157): reverse `route[a:b]` and evaluate the
cost change from the two replaced boundary edges. -/
def two_opt_delta (t : TSP) (route : List ℕ) (a0 b0 : ℕ) : List ℕ × ℚ :=
  let n := route.length
  if n < 3 then (route, 0)
  else
    let a := if a0 ≤ b0 then a0 else b0
    let b := if a0 ≤ b0 then b0 else a0
    if b - a < 2 then (route, 0)
    else
      let dm := t.dm
      let A := route.getD ((a + n - 1) % n) 0
      let B := route.getD a 0
      let C := route.getD (b - 1) 0
      let D := route.getD (b % n) 0
      let new_route := route.take a ++ ((route.drop a).take (b - a)).reverse ++ route.drop b
      (new_route, (dm A C + dm B D) - (dm A B + dm C D))

/-- `NEIGHBORHOODS` lookup with the callers' fallback to `"two_opt"`
(string-keyed dispatch used by every algorithm). -/
def NEIGHBORHOODS (name : String) : List ℕ → ℕ → ℕ → List ℕ :=
  if name = "swap" then swap
  else if name = "insert" then insert
  else two_opt

/-- `NEIGHBORHOODS_DELTA` lookup with the callers' fallback to `"two_opt"`. -/
def NEIGHBORHOODS_DELTA (name : String) : TSP → List ℕ → ℕ → ℕ → List ℕ × ℚ :=
  if name = "swap" then swap_delta
  else if name = "insert" then insert_delta
  else two_opt_delta

/-- What `random.sample(range(n), 2)` guarantees about the drawn pair
(vacuous when `n < 2`, where the operators return before sampling). -/
def PairOk (n : ℕ) (p : ℕ × ℕ) : Prop :=
  n < 2 ∨ (p.1 < n ∧ p.2 < n ∧ p.1 ≠ p.2)

/-! ## Open-path segment cost

`segCost t l` is the cost of the open path `l` (consecutive edges, no closing
edge); `route_length` decomposes as `segCost` plus the closing edge, which is
the workhorse for the delta-correctness proofs. -/

def segCost (t : TSP) : List ℕ → ℚ
  | [] => 0
  | [_] => 0
  | a :: b :: rest => t.dm a b + segCost t (b :: rest)

@[simp] theorem segCost_nil (t : TSP) : segCost t [] = 0 := rfl

@[simp] theorem segCost_single (t : TSP) (x : ℕ) : segCost t [x] = 0 := rfl

theorem segCost_cons_cons (t : TSP) (x y : ℕ) (l : List ℕ) :
    segCost t (x :: y :: l) = t.dm x y + segCost t (y :: l) := rfl

theorem segCost_append (t : TSP) :
    ∀ (xs ys : List ℕ) (hx : xs ≠ []) (hy : ys ≠ []),
      segCost t (xs ++ ys)
        = segCost t xs + t.dm (xs.getLast hx) (ys.head hy) + segCost t ys
  | [], _, hx, _ => absurd rfl hx
  | [_], [], _, hy => absurd rfl hy
  | [x], y :: ys, _, _ => by
      simp [segCost_cons_cons]
  | x1 :: x2 :: xs, ys, _, hy => by
      have ih := segCost_append t (x2 :: xs) ys (by simp) hy
      simp only [List.cons_append] at ih ⊢
      rw [segCost_cons_cons, segCost_cons_cons, ih,
        List.getLast_cons (by simp : x2 :: xs ≠ [])]
      ring

theorem segCost_reverse (t : TSP) (ht : Symm t) :
    ∀ l : List ℕ, segCost t l.reverse = segCost t l
  | [] => rfl
  | [_] => rfl
  | x :: y :: l => by
      have ih := segCost_reverse t ht (y :: l)
      rw [List.reverse_cons,
        segCost_append t ((y :: l).reverse) [x] (by simp) (by simp),
        List.getLast_reverse, segCost_cons_cons, ih]
      simp [ht y x]
      ring

theorem segCost_eq_sum (t : TSP) :
    ∀ r : List ℕ,
      segCost t r
        = ∑ i ∈ Finset.range (r.length - 1), t.dm (r.getD i 0) (r.getD (i + 1) 0)
  | [] => by simp
  | [_] => by simp
  | x :: y :: r => by
      have ih := segCost_eq_sum t (y :: r)
      rw [segCost_cons_cons, ih,
        show (x :: y :: r).length - 1 = ((y :: r).length - 1) + 1 from by simp,
        Finset.sum_range_succ']
      simp only [List.getD_cons_succ, List.getD_cons_zero]
      ring

/-- `route_length` is the open-path cost plus the closing edge. -/
theorem route_length_eq (t : TSP) (r : List ℕ) (h : r ≠ []) :
    route_length t r = segCost t r + t.dm (r.getLast h) (r.head h) := by
  obtain ⟨m, hm⟩ : ∃ m, r.length = m + 1 := by
    cases r with
    | nil => exact absurd rfl h
    | cons a l => exact ⟨l.length, rfl⟩
  rw [route_length, hm, Finset.sum_range_succ]
  have hlast : r.getD ((m + 1) % (m + 1)) 0 = r.head h := by
    rw [Nat.mod_self, List.getD_eq_getElem r 0 (by omega), List.head_eq_getElem]
  have hm' : r.getD m 0 = r.getLast h := by
    rw [List.getD_eq_getElem r 0 (by omega), List.getLast_eq_getElem]
    simp [hm]
  rw [hlast, hm', segCost_eq_sum, hm]
  have : ∀ i ∈ Finset.range m,
      t.dm (r.getD i 0) (r.getD ((i + 1) % (m + 1)) 0)
        = t.dm (r.getD i 0) (r.getD (i + 1) 0) := by
    intro i hi
    rw [Finset.mem_range] at hi
    rw [Nat.mod_eq_of_lt (by omega)]
  rw [Finset.sum_congr rfl this]
  simp

theorem route_length_nil (t : TSP) : route_length t [] = 0 := by
  simp [route_length]

/-! ### Default-valued head/last helpers and list surgery lemmas -/

theorem headD_eq_head (l : List ℕ) (h : l ≠ []) : l.headD 0 = l.head h := by
  cases l with
  | nil => exact absurd rfl h
  | cons a l => simp

theorem getLastD_eq_getLast (l : List ℕ) (h : l ≠ []) : l.getLastD 0 = l.getLast h := by
  cases l with
  | nil => exact absurd rfl h
  | cons a l => rw [List.getLastD_cons, List.getLast_eq_getLastD]

theorem headD_append (xs ys : List ℕ) (hx : xs ≠ []) :
    (xs ++ ys).headD 0 = xs.headD 0 := by
  cases xs with
  | nil => exact absurd rfl hx
  | cons a l => simp

theorem getLastD_append (xs ys : List ℕ) (hy : ys ≠ []) :
    (xs ++ ys).getLastD 0 = ys.getLastD 0 := by
  rw [getLastD_eq_getLast (xs ++ ys) (by simp [hy]),
    List.getLast_append_of_ne_nil hy, getLastD_eq_getLast ys hy]

theorem getLastD_cons_ne (x : ℕ) (l : List ℕ) (h : l ≠ []) :
    (x :: l).getLastD 0 = l.getLastD 0 := by
  have : x :: l = [x] ++ l := rfl
  rw [this, getLastD_append [x] l h]

theorem seg_cons (t : TSP) (x : ℕ) (l : List ℕ) (h : l ≠ []) :
    segCost t (x :: l) = t.dm x (l.headD 0) + segCost t l := by
  cases l with
  | nil => exact absurd rfl h
  | cons b l => rw [segCost_cons_cons]; simp

theorem seg_append (t : TSP) (xs ys : List ℕ) (hx : xs ≠ []) (hy : ys ≠ []) :
    segCost t (xs ++ ys)
      = segCost t xs + t.dm (xs.getLastD 0) (ys.headD 0) + segCost t ys := by
  rw [segCost_append t xs ys hx hy, getLastD_eq_getLast xs hx, headD_eq_head ys hy]

theorem rl_decomp (t : TSP) (r : List ℕ) (h : r ≠ []) :
    route_length t r = segCost t r + t.dm (r.getLastD 0) (r.headD 0) := by
  rw [route_length_eq t r h, getLastD_eq_getLast r h, headD_eq_head r h]

theorem getD_append_len (A l : List ℕ) : (A ++ l).getD A.length 0 = l.getD 0 0 := by
  rw [List.getD_append_right _ _ _ _ (le_refl _), Nat.sub_self]

theorem getD_append_add (A l : List ℕ) (j : ℕ) :
    (A ++ l).getD (A.length + j) 0 = l.getD j 0 := by
  rw [List.getD_append_right _ _ _ _ (Nat.le_add_right _ _), Nat.add_sub_cancel_left]

theorem getD_last (A : List ℕ) (h : A ≠ []) :
    A.getD (A.length - 1) 0 = A.getLastD 0 := by
  rw [List.getD_eq_getElem A 0 (by cases A with
    | nil => exact absurd rfl h
    | cons a l => simp), getLastD_eq_getLast A h, List.getLast_eq_getElem]

theorem getD_zero_headD (l : List ℕ) : l.getD 0 0 = l.headD 0 := by
  cases l <;> simp

theorem set_append_len (A : List ℕ) (x y : ℕ) (l : List ℕ) :
    (A ++ x :: l).set A.length y = A ++ y :: l := by
  rw [List.set_append_right _ _ (le_refl _)]
  simp

theorem set_append_add (A l : List ℕ) (j y : ℕ) :
    (A ++ l).set (A.length + j) y = A ++ l.set j y := by
  rw [List.set_append_right _ _ (Nat.le_add_right _ _), Nat.add_sub_cancel_left]

theorem mod_shift_sub_one (a n : ℕ) (h1 : 1 ≤ a) (h2 : a ≤ n) :
    (a + n - 1) % n = a - 1 := by
  have : a + n - 1 = (a - 1) + n := by omega
  rw [this, Nat.add_mod_right, Nat.mod_eq_of_lt (by omega)]

theorem mod_zero_shift (n : ℕ) (h : 1 ≤ n) : (0 + n - 1) % n = n - 1 := by
  rw [Nat.zero_add, Nat.mod_eq_of_lt (by omega)]

/-! ### Route-length expansions over decomposed tours

One lemma per decomposition shape that the delta operators' case analysis
produces; `hd`/`lst` below are `headD 0` / `getLastD 0`. -/

theorem rl_AxMyB (t : TSP) (A M B : List ℕ) (x y : ℕ)
    (hA : A ≠ []) (hM : M ≠ []) (hB : B ≠ []) :
    route_length t (A ++ (x :: (M ++ (y :: B))))
      = segCost t A + segCost t M + segCost t B
        + t.dm (A.getLastD 0) x + t.dm x (M.headD 0) + t.dm (M.getLastD 0) y
        + t.dm y (B.headD 0) + t.dm (B.getLastD 0) (A.headD 0) := by
  rw [rl_decomp t _ (by simp [hA]),
    seg_append t A (x :: (M ++ (y :: B))) hA (by simp),
    seg_cons t x (M ++ (y :: B)) (by simp),
    seg_append t M (y :: B) hM (by simp),
    seg_cons t y B hB,
    headD_append A _ hA,
    getLastD_append A _ (by simp),
    getLastD_cons_ne x _ (by simp),
    getLastD_append M _ (by simp),
    getLastD_cons_ne y B hB,
    headD_append M (y :: B) hM]
  simp only [List.headD_cons]
  ring

theorem rl_xMyB (t : TSP) (M B : List ℕ) (x y : ℕ) (hM : M ≠ []) (hB : B ≠ []) :
    route_length t (x :: (M ++ (y :: B)))
      = segCost t M + segCost t B
        + t.dm x (M.headD 0) + t.dm (M.getLastD 0) y + t.dm y (B.headD 0)
        + t.dm (B.getLastD 0) x := by
  rw [rl_decomp t _ (by simp),
    seg_cons t x (M ++ (y :: B)) (by simp),
    seg_append t M (y :: B) hM (by simp),
    seg_cons t y B hB,
    getLastD_cons_ne x _ (by simp),
    getLastD_append M _ (by simp),
    getLastD_cons_ne y B hB,
    headD_append M (y :: B) hM]
  simp only [List.headD_cons]
  ring

theorem rl_AxMy (t : TSP) (A M : List ℕ) (x y : ℕ) (hA : A ≠ []) (hM : M ≠ []) :
    route_length t (A ++ (x :: (M ++ [y])))
      = segCost t A + segCost t M
        + t.dm (A.getLastD 0) x + t.dm x (M.headD 0) + t.dm (M.getLastD 0) y
        + t.dm y (A.headD 0) := by
  rw [rl_decomp t _ (by simp [hA]),
    seg_append t A (x :: (M ++ [y])) hA (by simp),
    seg_cons t x (M ++ [y]) (by simp),
    seg_append t M [y] hM (by simp),
    headD_append A _ hA,
    getLastD_append A _ (by simp),
    getLastD_cons_ne x _ (by simp),
    getLastD_append M [y] (by simp),
    headD_append M [y] hM]
  simp only [List.headD_cons, List.getLastD_cons, segCost_single, List.getLastD_nil]
  ring

theorem rl_xMy (t : TSP) (M : List ℕ) (x y : ℕ) (hM : M ≠ []) :
    route_length t (x :: (M ++ [y]))
      = segCost t M + t.dm x (M.headD 0) + t.dm (M.getLastD 0) y + t.dm y x := by
  rw [rl_decomp t _ (by simp),
    seg_cons t x (M ++ [y]) (by simp),
    seg_append t M [y] hM (by simp),
    getLastD_cons_ne x _ (by simp),
    getLastD_append M [y] (by simp),
    headD_append M [y] hM]
  simp only [List.headD_cons, List.getLastD_cons, segCost_single, List.getLastD_nil]
  ring

theorem rl_AxyB (t : TSP) (A B : List ℕ) (x y : ℕ) (hA : A ≠ []) (hB : B ≠ []) :
    route_length t (A ++ (x :: (y :: B)))
      = segCost t A + segCost t B
        + t.dm (A.getLastD 0) x + t.dm x y + t.dm y (B.headD 0)
        + t.dm (B.getLastD 0) (A.headD 0) := by
  rw [rl_decomp t _ (by simp [hA]),
    seg_append t A (x :: (y :: B)) hA (by simp),
    seg_cons t x (y :: B) (by simp),
    seg_cons t y B hB,
    headD_append A _ hA,
    getLastD_append A _ (by simp),
    getLastD_cons_ne x _ (by simp),
    getLastD_cons_ne y B hB]
  simp only [List.headD_cons]
  ring

theorem rl_xyB (t : TSP) (B : List ℕ) (x y : ℕ) (hB : B ≠ []) :
    route_length t (x :: y :: B)
      = segCost t B + t.dm x y + t.dm y (B.headD 0) + t.dm (B.getLastD 0) x := by
  rw [rl_decomp t _ (by simp),
    seg_cons t x (y :: B) (by simp),
    seg_cons t y B hB,
    getLastD_cons_ne x _ (by simp),
    getLastD_cons_ne y B hB]
  simp only [List.headD_cons]
  ring

theorem rl_Axy (t : TSP) (A : List ℕ) (x y : ℕ) (hA : A ≠ []) :
    route_length t (A ++ [x, y])
      = segCost t A + t.dm (A.getLastD 0) x + t.dm x y + t.dm y (A.headD 0) := by
  rw [rl_decomp t _ (by simp [hA]),
    seg_append t A [x, y] hA (by simp),
    headD_append A _ hA,
    getLastD_append A _ (by simp)]
  simp only [List.headD_cons, List.getLastD_cons, segCost_cons_cons, segCost_single,
    List.getLastD_nil]
  ring

theorem rl_xy (t : TSP) (x y : ℕ) :
    route_length t [x, y] = t.dm x y + t.dm y x := by
  rw [rl_decomp t _ (by simp)]
  simp [segCost_cons_cons, List.getLastD_cons]

theorem rl_ASB (t : TSP) (A S B : List ℕ) (hA : A ≠ []) (hS : S ≠ []) (hB : B ≠ []) :
    route_length t (A ++ (S ++ B))
      = segCost t A + segCost t S + segCost t B
        + t.dm (A.getLastD 0) (S.headD 0) + t.dm (S.getLastD 0) (B.headD 0)
        + t.dm (B.getLastD 0) (A.headD 0) := by
  rw [rl_decomp t _ (by simp [hA]),
    seg_append t A (S ++ B) hA (by simp [hS]),
    seg_append t S B hS hB,
    headD_append A _ hA,
    getLastD_append A _ (by simp [hS]),
    getLastD_append S B hB,
    headD_append S B hS]
  ring

theorem rl_SB (t : TSP) (S B : List ℕ) (hS : S ≠ []) (hB : B ≠ []) :
    route_length t (S ++ B)
      = segCost t S + segCost t B
        + t.dm (S.getLastD 0) (B.headD 0) + t.dm (B.getLastD 0) (S.headD 0) := by
  rw [rl_decomp t _ (by simp [hS]),
    seg_append t S B hS hB,
    headD_append S B hS,
    getLastD_append S B hB]
  ring

/-! ### Decomposing a list around two positions -/

theorem length_take_of_le (r : List ℕ) (a : ℕ) (h : a ≤ r.length) :
    (r.take a).length = a := by
  rw [List.length_take]; omega

theorem decomp_two (r : List ℕ) (a b : ℕ) (hab : a < b) (hb : b < r.length) :
    r = r.take a
        ++ (r.getD a 0 :: ((r.drop (a + 1)).take (b - (a + 1))
            ++ (r.getD b 0 :: r.drop (b + 1)))) := by
  conv_lhs => rw [← List.take_append_drop a r]
  congr 1
  rw [List.drop_eq_getElem_cons (show a < r.length from lt_trans hab hb),
    List.getD_eq_getElem r 0 (lt_trans hab hb)]
  congr 1
  conv_lhs => rw [← List.take_append_drop (b - (a + 1)) (r.drop (a + 1))]
  congr 1
  rw [List.drop_drop, show a + 1 + (b - (a + 1)) = b from by omega,
    List.drop_eq_getElem_cons hb, List.getD_eq_getElem r 0 hb]

theorem swap_set_shape (A M B : List ℕ) (ca cb : ℕ) :
    ((A ++ (ca :: (M ++ (cb :: B)))).set A.length cb).set
        (A.length + (M.length + 1)) ca
      = A ++ (cb :: (M ++ (ca :: B))) := by
  rw [set_append_len, set_append_add, List.set_cons_succ, set_append_len]

theorem decomp_two' (r : List ℕ) (a b : ℕ) (hab : a < b) (hb : b < r.length) :
    ∃ A ca M cb B, r = A ++ (ca :: (M ++ (cb :: B)))
      ∧ A.length = a ∧ M.length = b - (a + 1)
      ∧ r.getD a 0 = ca ∧ r.getD b 0 = cb :=
  ⟨r.take a, r.getD a 0, (r.drop (a + 1)).take (b - (a + 1)), r.getD b 0,
    r.drop (b + 1), decomp_two r a b hab hb,
    length_take_of_le r a (by omega),
    by rw [List.length_take, List.length_drop]; omega, rfl, rfl⟩

/-! ### Correctness of `swap_delta` (every case except `n = 2`) -/

theorem swap_delta_correct_lt (t : TSP) (r : List ℕ) (a0 b0 : ℕ)
    (hlt : a0 < b0) (hb : b0 < r.length) (hn : r.length ≠ 2) :
    route_length t (swap_delta t r a0 b0).1
      = route_length t r + (swap_delta t r a0 b0).2 := by
  have ha : a0 < r.length := lt_trans hlt hb
  have hn3 : 3 ≤ r.length := by omega
  obtain ⟨A, ca, M, cb, B, hr, hA, hM, hca, hcb⟩ := decomp_two' r a0 b0 hlt hb
  have hlen : r.length = A.length + M.length + B.length + 2 := by
    conv_lhs => rw [hr]
    simp [List.length_append]
    omega
  have hgt : ¬ a0 > b0 := by omega
  simp only [swap_delta]
  rw [if_neg (show ¬ r.length < 2 from by omega)]
  rw [if_neg hgt, if_neg hgt]
  rw [hca, hcb]
  dsimp only
  have hset : (r.set a0 cb).set b0 ca = A ++ (cb :: (M ++ (ca :: B))) := by
    conv_lhs => rw [hr]
    rw [← hA, show b0 = A.length + (M.length + 1) from by omega]
    exact swap_set_shape A M B ca cb
  rw [hset]
  by_cases hadj : b0 = a0 + 1
  · -- adjacent positions: the first branch of the Python code
    rw [if_pos hadj, if_pos hadj]
    have hMnil : M = [] := List.length_eq_zero.mp (by omega)
    subst hMnil
    rw [List.nil_append] at hr hset ⊢
    simp only [List.length_nil] at hlen
    by_cases hA0 : A = []
    · -- a0 = 0, b0 = 1; B nonempty since n ≥ 3
      subst hA0
      rw [List.nil_append] at hr hset ⊢
      have hBne : B ≠ [] := by
        intro h; rw [h] at hlen; simp at hlen; omega
      have ha0 : a0 = 0 := by simpa using hA.symm
      have hap : r.getD ((a0 + r.length - 1) % r.length) 0 = B.getLastD 0 := by
        rw [ha0, mod_zero_shift r.length (by omega),
          show r.length - 1 = r.length - 1 from rfl,
          show r.getD (r.length - 1) 0 = r.getLastD 0 from by
            rw [show r.length - 1 = r.length - 1 from rfl]
            exact getD_last r (by rw [hr]; simp)]
        rw [hr, getLastD_cons_ne _ _ (by simp [hBne]), getLastD_cons_ne _ _ hBne]
      have hbn : r.getD ((b0 + 1) % r.length) 0 = B.headD 0 := by
        rw [hadj, ha0, Nat.mod_eq_of_lt (by omega), hr]
        simp only [List.getD_cons_succ]
        exact getD_zero_headD B
      rw [hap, hbn, hr]
      rw [rl_xyB t B cb ca hBne, rl_xyB t B ca cb hBne]
      ring
    · by_cases hB0 : B = []
      · -- b0 = n-1 with A nonempty
        subst hB0
        rw [show (cb :: (ca :: ([] : List ℕ))) = [cb, ca] from rfl] at hset ⊢
        rw [show (ca :: (cb :: ([] : List ℕ))) = [ca, cb] from rfl] at hr
        have ha1 : 1 ≤ a0 := by
          rcases Nat.eq_zero_or_pos a0 with h | h
          · exact absurd (by rw [← hA] at h; exact List.length_eq_zero.mp h) hA0
          · exact h
        have hap : r.getD ((a0 + r.length - 1) % r.length) 0 = A.getLastD 0 := by
          rw [mod_shift_sub_one a0 r.length ha1 (le_of_lt ha), hr,
            List.getD_append _ _ _ _ (by omega),
            show a0 - 1 = A.length - 1 from by omega, getD_last A hA0]
        have hbn : r.getD ((b0 + 1) % r.length) 0 = A.headD 0 := by
          rw [show (b0 + 1) % r.length = 0 from by
              rw [show b0 + 1 = r.length from by omega, Nat.mod_self],
            hr, getD_zero_headD, headD_append A _ hA0]
        rw [hap, hbn, hr]
        rw [rl_Axy t A cb ca hA0, rl_Axy t A ca cb hA0]
        ring
      · -- interior adjacent pair
        have ha1 : 1 ≤ a0 := by
          rcases Nat.eq_zero_or_pos a0 with h | h
          · exact absurd (by rw [← hA] at h; exact List.length_eq_zero.mp h) hA0
          · exact h
        have hap : r.getD ((a0 + r.length - 1) % r.length) 0 = A.getLastD 0 := by
          rw [mod_shift_sub_one a0 r.length ha1 (le_of_lt ha), hr,
            List.getD_append _ _ _ _ (by omega),
            show a0 - 1 = A.length - 1 from by omega, getD_last A hA0]
        have hbn : r.getD ((b0 + 1) % r.length) 0 = B.headD 0 := by
          have hBpos := List.length_pos.mpr hB0
          rw [show (b0 + 1) % r.length = b0 + 1 from Nat.mod_eq_of_lt (by omega),
            hr, show b0 + 1 = A.length + 2 from by omega,
            getD_append_add A _ 2]
          simp only [List.getD_cons_succ]
          exact getD_zero_headD B
        rw [hap, hbn, hr]
        rw [rl_AxyB t A B cb ca hA0 hB0, rl_AxyB t A B ca cb hA0 hB0]
        ring
  · rw [if_neg hadj, if_neg hadj]
    have hMne : M ≠ [] := by
      intro h; rw [h] at hM; simp at hM; omega
    by_cases hw : a0 = 0 ∧ b0 = r.length - 1
    · -- wraparound pair (0, n-1): second branch of the Python code
      rw [if_pos hw, if_pos hw]
      have hAnil : A = [] := List.length_eq_zero.mp (by omega)
      have hBnil : B = [] := List.length_eq_zero.mp (by omega)
      subst hAnil; subst hBnil
      rw [List.nil_append] at hr hset ⊢
      rw [show (cb :: ([] : List ℕ)) = [cb] from rfl] at hr
      rw [show (ca :: ([] : List ℕ)) = [ca] from rfl] at hset ⊢
      have h2 : r.getD (r.length - 2) 0 = M.getLastD 0 := by
        have hMpos := List.length_pos.mpr hMne
        rw [show r.length - 2 = (M.length - 1) + 1 from by
            simp at hlen; omega, hr]
        simp only [List.getD_cons_succ]
        rw [List.getD_append _ _ _ _ (by
          have := List.length_pos.mpr hMne; omega), getD_last M hMne]
      have h1 : r.getD 1 0 = M.headD 0 := by
        rw [hr]
        simp only [List.getD_cons_succ]
        rw [getD_zero_headD, headD_append M _ hMne]
      rw [h2, h1, hr]
      rw [rl_xMy t M cb ca hMne, rl_xMy t M ca cb hMne]
      ring
    · -- general non-adjacent, non-wraparound case
      rw [if_neg hw, if_neg hw]
      have hanx : r.getD ((a0 + 1) % r.length) 0 = M.headD 0 := by
        rw [show (a0 + 1) % r.length = a0 + 1 from Nat.mod_eq_of_lt (by omega),
          hr, show a0 + 1 = A.length + 1 from by omega, getD_append_add A _ 1]
        simp only [List.getD_cons_succ]
        rw [getD_zero_headD, headD_append M _ hMne]
      have hbp : r.getD ((b0 + r.length - 1) % r.length) 0 = M.getLastD 0 := by
        rw [mod_shift_sub_one b0 r.length (by omega) (le_of_lt hb),
          hr, show b0 - 1 = A.length + (M.length - 1 + 1) from by
            have := List.length_pos.mpr hMne; omega,
          getD_append_add A _ _]
        simp only [List.getD_cons_succ]
        rw [List.getD_append _ _ _ _ (by
          have := List.length_pos.mpr hMne; omega), getD_last M hMne]
      by_cases hA0 : A = []
      · -- a0 = 0 but b0 < n-1, so B is nonempty
        subst hA0
        rw [List.nil_append] at hr hset ⊢
        have ha0 : a0 = 0 := by simpa using hA.symm
        have hBne : B ≠ [] := by
          intro h
          exact hw ⟨ha0, by rw [h] at hlen; simp at hlen hM ⊢; omega⟩
        have hap : r.getD ((a0 + r.length - 1) % r.length) 0 = B.getLastD 0 := by
          rw [ha0, mod_zero_shift r.length (by omega),
            show r.getD (r.length - 1) 0 = r.getLastD 0 from
              getD_last r (by rw [hr]; simp), hr,
            getLastD_cons_ne _ _ (by simp [hBne]),
            getLastD_append M _ (by simp), getLastD_cons_ne _ _ hBne]
        have hbn : r.getD ((b0 + 1) % r.length) 0 = B.headD 0 := by
          rw [show (b0 + 1) % r.length = b0 + 1 from Nat.mod_eq_of_lt (by
              have := List.length_pos.mpr hBne; omega), hr,
            show b0 + 1 = M.length + 2 from by omega]
          simp only [List.getD_cons_succ]
          rw [show M.length + 1 = M.length + 1 from rfl,
            getD_append_add M _ 1]
          simp only [List.getD_cons_succ]
          exact getD_zero_headD B
        rw [hap, hanx, hbp, hbn, hr]
        rw [rl_xMyB t M B cb ca hMne hBne, rl_xMyB t M B ca cb hMne hBne]
        ring
      · by_cases hB0 : B = []
        · -- b0 = n-1 but a0 > 0, so A is nonempty
          subst hB0
          rw [show (cb :: ([] : List ℕ)) = [cb] from rfl] at hr
          rw [show (ca :: ([] : List ℕ)) = [ca] from rfl] at hset ⊢
          have ha1 : 1 ≤ a0 := by
            rcases Nat.eq_zero_or_pos a0 with h | h
            · exact absurd (by rw [← hA] at h; exact List.length_eq_zero.mp h) hA0
            · exact h
          have hap : r.getD ((a0 + r.length - 1) % r.length) 0 = A.getLastD 0 := by
            rw [mod_shift_sub_one a0 r.length ha1 (le_of_lt ha), hr,
              List.getD_append _ _ _ _ (by omega),
              show a0 - 1 = A.length - 1 from by omega, getD_last A hA0]
          have hbn : r.getD ((b0 + 1) % r.length) 0 = A.headD 0 := by
            rw [show (b0 + 1) % r.length = 0 from by
                rw [show b0 + 1 = r.length from by simp at hlen; omega,
                  Nat.mod_self],
              hr, getD_zero_headD, headD_append A _ hA0]
          rw [hap, hanx, hbp, hbn, hr]
          rw [rl_AxMy t A M cb ca hA0 hMne, rl_AxMy t A M ca cb hA0 hMne]
          ring
        · -- interior positions
          have ha1 : 1 ≤ a0 := by
            rcases Nat.eq_zero_or_pos a0 with h | h
            · exact absurd (by rw [← hA] at h; exact List.length_eq_zero.mp h) hA0
            · exact h
          have hap : r.getD ((a0 + r.length - 1) % r.length) 0 = A.getLastD 0 := by
            rw [mod_shift_sub_one a0 r.length ha1 (le_of_lt ha), hr,
              List.getD_append _ _ _ _ (by omega),
              show a0 - 1 = A.length - 1 from by omega, getD_last A hA0]
          have hbn : r.getD ((b0 + 1) % r.length) 0 = B.headD 0 := by
            rw [show (b0 + 1) % r.length = b0 + 1 from Nat.mod_eq_of_lt (by
                have := List.length_pos.mpr hB0; omega), hr,
              show b0 + 1 = A.length + (M.length + 2) from by omega,
              getD_append_add A _ _]
            simp only [List.getD_cons_succ]
            rw [getD_append_add M _ 1]
            simp only [List.getD_cons_succ]
            exact getD_zero_headD B
          rw [hap, hanx, hbp, hbn, hr]
          rw [rl_AxMyB t A M B cb ca hA0 hMne hB0,
            rl_AxMyB t A M B ca cb hA0 hMne hB0]
          ring

/-- With a non-negative matrix every route length is non-negative. -/
theorem route_length_nonneg (t : TSP) (hnn : Nonneg t) (r : List ℕ) :
    0 ≤ route_length t r := by
  rw [route_length]
  exact Finset.sum_nonneg fun i _ => hnn _ _

theorem swap_delta_comm (t : TSP) (r : List ℕ) (a0 b0 : ℕ) :
    swap_delta t r a0 b0 = swap_delta t r b0 a0 := by
  rcases Nat.lt_trichotomy a0 b0 with h | h | h
  · simp only [swap_delta]
    rw [if_neg (show ¬ a0 > b0 from by omega), if_neg (show ¬ a0 > b0 from by omega),
      if_pos (show b0 > a0 from h), if_pos (show b0 > a0 from h)]
  · subst h; rfl
  · simp only [swap_delta]
    rw [if_pos (show a0 > b0 from h), if_pos (show a0 > b0 from h),
      if_neg (show ¬ b0 > a0 from by omega), if_neg (show ¬ b0 > a0 from by omega)]

/-- `swap_delta` reports the exact cost change for every drawn pair of
positions on every route whose length is not 2. -/
theorem swap_delta_correct (t : TSP) (r : List ℕ) (a0 b0 : ℕ)
    (ha : a0 < r.length) (hb : b0 < r.length) (hab : a0 ≠ b0)
    (hn : r.length ≠ 2) :
    route_length t (swap_delta t r a0 b0).1
      = route_length t r + (swap_delta t r a0 b0).2 := by
  rcases Nat.lt_or_ge a0 b0 with h | h
  · exact swap_delta_correct_lt t r a0 b0 h hb hn
  · have h' : b0 < a0 := by omega
    rw [swap_delta_comm]
    exact swap_delta_correct_lt t r b0 a0 h' ha hn

/-- `insert_delta` is exact by construction: it evaluates both routes. -/
theorem insert_delta_correct (t : TSP) (r : List ℕ) (a0 b0 : ℕ) :
    route_length t (insert_delta t r a0 b0).1
      = route_length t r + (insert_delta t r a0 b0).2 := by
  by_cases h : r.length < 2 <;> simp [insert_delta, h]

/-! ### Correctness of `two_opt_delta` (symmetric matrices) -/

theorem headD_reverse (l : List ℕ) : l.reverse.headD 0 = l.getLastD 0 := by
  cases l with
  | nil => rfl
  | cons a l =>
    rw [headD_eq_head _ (by simp), List.head_reverse,
      getLastD_eq_getLast _ (by simp)]

theorem getLastD_reverse (l : List ℕ) : l.reverse.getLastD 0 = l.headD 0 := by
  cases l with
  | nil => rfl
  | cons a l =>
    rw [getLastD_eq_getLast _ (by simp), List.getLast_reverse,
      headD_eq_head _ (by simp)]

theorem decomp_seg (r : List ℕ) (a b : ℕ) (hab : a ≤ b) (hb : b ≤ r.length) :
    r = r.take a ++ ((r.drop a).take (b - a) ++ r.drop b)
      ∧ (r.take a).length = a ∧ ((r.drop a).take (b - a)).length = b - a := by
  refine ⟨?_, length_take_of_le r a (by omega), ?_⟩
  · conv_lhs => rw [← List.take_append_drop a r]
    congr 1
    conv_lhs => rw [← List.take_append_drop (b - a) (r.drop a)]
    congr 1
    rw [List.drop_drop, show a + (b - a) = b from by omega]
  · rw [List.length_take, List.length_drop]; omega

theorem two_opt_delta_comm (t : TSP) (r : List ℕ) (a0 b0 : ℕ) :
    two_opt_delta t r a0 b0 = two_opt_delta t r b0 a0 := by
  rcases Nat.lt_trichotomy a0 b0 with h | h | h
  · simp only [two_opt_delta]
    rw [if_pos (show a0 ≤ b0 from by omega), if_pos (show a0 ≤ b0 from by omega),
      if_neg (show ¬ b0 ≤ a0 from by omega), if_neg (show ¬ b0 ≤ a0 from by omega)]
  · subst h; rfl
  · simp only [two_opt_delta]
    rw [if_neg (show ¬ a0 ≤ b0 from by omega), if_neg (show ¬ a0 ≤ b0 from by omega),
      if_pos (show b0 ≤ a0 from by omega), if_pos (show b0 ≤ a0 from by omega)]

theorem two_opt_delta_correct_le (t : TSP) (ht : Symm t) (r : List ℕ)
    (a0 b0 : ℕ) (hle : a0 ≤ b0) (hb : b0 < r.length) :
    route_length t (two_opt_delta t r a0 b0).1
      = route_length t r + (two_opt_delta t r a0 b0).2 := by
  by_cases h3 : r.length < 3
  · simp [two_opt_delta, h3]
  simp only [two_opt_delta]
  rw [if_neg h3, if_pos hle, if_pos hle]
  by_cases hd : b0 - a0 < 2
  · rw [if_pos hd]; simp
  rw [if_neg hd]
  dsimp only
  obtain ⟨hr, hA, hS⟩ := decomp_seg r a0 b0 (by omega) (le_of_lt hb)
  set A := r.take a0 with hAdef
  set S := (r.drop a0).take (b0 - a0) with hSdef
  set B := r.drop b0 with hBdef
  have hSne : S ≠ [] := by
    intro h; rw [h] at hS; simp at hS; omega
  have hBne : B ≠ [] := by
    intro h; rw [hBdef] at h
    have := congrArg List.length h
    simp [List.length_drop] at this
    omega
  have hlen : r.length = A.length + S.length + B.length := by
    conv_lhs => rw [hr]
    simp [List.length_append]
    omega
  have hBcode : r.getD a0 0 = S.headD 0 := by
    conv_lhs => rw [hr, show a0 = A.length from hA.symm]
    rw [getD_append_len, getD_zero_headD, headD_append S B hSne]
  have hCcode : r.getD (b0 - 1) 0 = S.getLastD 0 := by
    have hSpos := List.length_pos.mpr hSne
    conv_lhs => rw [hr, show b0 - 1 = A.length + (S.length - 1) from by omega]
    rw [getD_append_add, List.getD_append _ _ _ _ (by omega), getD_last S hSne]
  have hDcode : r.getD (b0 % r.length) 0 = B.headD 0 := by
    rw [Nat.mod_eq_of_lt hb]
    conv_lhs => rw [hr, show b0 = A.length + S.length from by omega]
    rw [getD_append_add, getD_append_len, getD_zero_headD]
  by_cases hA0 : A = []
  · have ha00 : a0 = 0 := by rw [← hA, hA0]; rfl
    have hAcode : r.getD ((a0 + r.length - 1) % r.length) 0 = B.getLastD 0 := by
      rw [ha00, mod_zero_shift r.length (by omega),
        show r.getD (r.length - 1) 0 = r.getLastD 0 from
          getD_last r (by rw [hr]; simp [hSne]), hr, hA0, List.nil_append,
        getLastD_append S B hBne]
    rw [hAcode, hBcode, hCcode, hDcode]
    conv_lhs => rw [hA0, List.nil_append]
    conv_rhs => rw [hr, hA0, List.nil_append]
    rw [rl_SB t S.reverse B (by simp [hSne]) hBne, rl_SB t S B hSne hBne,
      segCost_reverse t ht S, headD_reverse, getLastD_reverse]
    ring
  · have ha1 : 1 ≤ a0 := by
      rcases Nat.eq_zero_or_pos a0 with h | h
      · exact absurd (by rw [← hA] at h; exact List.length_eq_zero.mp h) hA0
      · exact h
    have hAcode : r.getD ((a0 + r.length - 1) % r.length) 0 = A.getLastD 0 := by
      rw [mod_shift_sub_one a0 r.length ha1 (by omega), hr,
        List.getD_append _ _ _ _ (by omega),
        show a0 - 1 = A.length - 1 from by omega, getD_last A hA0]
    rw [hAcode, hBcode, hCcode, hDcode]
    conv_rhs => rw [hr]
    rw [List.append_assoc A S.reverse B,
      rl_ASB t A S.reverse B hA0 (by simp [hSne]) hBne,
      rl_ASB t A S B hA0 hSne hBne,
      segCost_reverse t ht S, headD_reverse, getLastD_reverse]
    ring

/-- `two_opt_delta` reports the exact cost change for every drawn pair of
positions, on every symmetric instance. -/
theorem two_opt_delta_correct (t : TSP) (ht : Symm t) (r : List ℕ)
    (a0 b0 : ℕ) (ha : a0 < r.length) (hb : b0 < r.length) :
    route_length t (two_opt_delta t r a0 b0).1
      = route_length t r + (two_opt_delta t r a0 b0).2 := by
  rcases le_or_lt a0 b0 with h | h
  · exact two_opt_delta_correct_le t ht r a0 b0 h hb
  · rw [two_opt_delta_comm]
    exact two_opt_delta_correct_le t ht r b0 a0 (le_of_lt h) ha

/-! ### The move operators produce permutations of their input -/

theorem swap_perm_lt (r : List ℕ) (a b : ℕ) (hab : a < b) (hb : b < r.length) :
    ((r.set a (r.getD b 0)).set b (r.getD a 0)).Perm r := by
  obtain ⟨A, ca, M, cb, B, hr, hA, hM, hca, hcb⟩ := decomp_two' r a b hab hb
  rw [hca, hcb]
  have hset : (r.set a cb).set b ca = A ++ (cb :: (M ++ (ca :: B))) := by
    conv_lhs => rw [hr]
    rw [← hA, show b = A.length + (M.length + 1) from by omega]
    exact swap_set_shape A M B ca cb
  rw [hset]
  conv_rhs => rw [hr]
  refine List.Perm.append_left A ?_
  have h1 : (cb :: (M ++ (ca :: B))).Perm (cb :: ca :: (M ++ B)) :=
    List.Perm.cons cb List.perm_middle
  have h2 : (ca :: (M ++ (cb :: B))).Perm (ca :: cb :: (M ++ B)) :=
    List.Perm.cons ca List.perm_middle
  exact (h1.trans (List.Perm.swap ca cb _)).trans h2.symm

theorem set_self_eq (r : List ℕ) (a : ℕ) (ha : a < r.length) :
    r.set a r[a] = r := by
  apply List.ext_getElem
  · simp
  · intro i h1 h2
    rw [List.getElem_set]
    by_cases h : a = i
    · subst h; rw [if_pos rfl]
    · rw [if_neg h]

/-- `swap` returns a permutation of its input route. -/
theorem swap_perm (r : List ℕ) (a b : ℕ) (ha : a < r.length) (hb : b < r.length) :
    (swap r a b).Perm r := by
  rw [swap]
  by_cases h2 : r.length < 2
  · rw [if_pos h2]
  rw [if_neg h2]
  rcases Nat.lt_trichotomy a b with h | h | h
  · exact swap_perm_lt r a b h hb
  · subst h
    rw [List.set_set, List.getD_eq_getElem r 0 ha, set_self_eq r a ha]
  · rw [List.set_comm _ _ r (Nat.ne_of_gt h)]
    exact swap_perm_lt r b a h ha

theorem decomp_one (r : List ℕ) (a : ℕ) (ha : a < r.length) :
    r = r.take a ++ (r.getD a 0 :: r.drop (a + 1)) := by
  conv_lhs => rw [← List.take_append_drop a r]
  congr 1
  rw [List.drop_eq_getElem_cons ha, List.getD_eq_getElem r 0 ha]

/-- `insert` returns a permutation of its input route. -/
theorem insert_perm (r : List ℕ) (a b : ℕ) (ha : a < r.length) (hb : b < r.length) :
    (insert r a b).Perm r := by
  rw [Tsp.insert]
  by_cases h2 : r.length < 2
  · rw [if_pos h2]
  rw [if_neg h2, List.eraseIdx_eq_take_drop_succ]
  have hlA : (r.take a).length = a := length_take_of_le r a (le_of_lt ha)
  have hlR : (r.drop (a + 1)).length = r.length - (a + 1) := List.length_drop _ _
  have h1 : (List.insertIdx b (r.getD a 0) (r.take a ++ r.drop (a + 1))).Perm
      (r.getD a 0 :: (r.take a ++ r.drop (a + 1))) := by
    refine List.perm_insertIdx _ _ ?_
    rw [List.length_append, hlA, hlR]
    omega
  refine h1.trans ?_
  conv_rhs => rw [decomp_one r a ha]
  exact List.perm_middle.symm

theorem two_opt_slice_perm (r : List ℕ) (a b : ℕ) (hab : a ≤ b) (hb : b ≤ r.length) :
    (r.take a ++ ((r.drop a).take (b - a)).reverse ++ r.drop b).Perm r := by
  obtain ⟨hr, hA, hS⟩ := decomp_seg r a b hab hb
  conv_rhs => rw [hr]
  rw [List.append_assoc]
  exact List.Perm.append_left _ (List.Perm.append ((r.drop a).take (b - a)).reverse_perm (List.Perm.refl _))

/-- `two_opt` returns a permutation of its input route. -/
theorem two_opt_perm (r : List ℕ) (a b : ℕ) (ha : a < r.length) (hb : b < r.length) :
    (two_opt r a b).Perm r := by
  rw [two_opt]
  by_cases h3 : r.length < 3
  · rw [if_pos h3]
  rw [if_neg h3]
  dsimp only
  by_cases hle : a ≤ b
  · rw [if_pos hle, if_pos hle]
    by_cases hd : b - a < 2
    · rw [if_pos hd]
      exact two_opt_slice_perm r a _ (by omega) (by omega)
    · rw [if_neg hd]
      exact two_opt_slice_perm r a b (by omega) (by omega)
  · rw [if_neg hle, if_neg hle]
    by_cases hd : a - b < 2
    · rw [if_pos hd]
      exact two_opt_slice_perm r b _ (by omega) (by omega)
    · rw [if_neg hd]
      exact two_opt_slice_perm r b a (by omega) (by omega)

/-- Every full-evaluation neighborhood move returns a permutation of its
input, whatever the configured name resolves to. -/
theorem NEIGHBORHOODS_perm (name : String) (r : List ℕ) (a b : ℕ)
    (ha : a < r.length) (hb : b < r.length) :
    (NEIGHBORHOODS name r a b).Perm r := by
  rw [NEIGHBORHOODS]
  split_ifs
  · exact swap_perm r a b ha hb
  · exact insert_perm r a b ha hb
  · exact two_opt_perm r a b ha hb

theorem swap_delta_fst_perm (t : TSP) (r : List ℕ) (a b : ℕ)
    (ha : a < r.length) (hb : b < r.length) :
    (swap_delta t r a b).1.Perm r := by
  rw [swap_delta]
  by_cases h2 : r.length < 2
  · rw [if_pos h2]
  rw [if_neg h2]
  dsimp only
  by_cases hgt : a > b
  · rw [if_pos hgt, if_pos hgt]
    rcases Nat.lt_trichotomy b a with h | h | h
    · exact swap_perm_lt r b a h ha
    · omega
    · omega
  · rw [if_neg hgt, if_neg hgt]
    rcases Nat.lt_trichotomy a b with h | h | h
    · exact swap_perm_lt r a b h hb
    · subst h
      rw [List.set_set, List.getD_eq_getElem r 0 ha, set_self_eq r a ha]
    · omega

theorem insert_delta_fst_perm (t : TSP) (r : List ℕ) (a b : ℕ)
    (ha : a < r.length) (hb : b < r.length) :
    (insert_delta t r a b).1.Perm r := by
  rw [insert_delta]
  by_cases h2 : r.length < 2
  · rw [if_pos h2]
  · rw [if_neg h2]
    exact insert_perm r a b ha hb

theorem two_opt_delta_fst_perm (t : TSP) (r : List ℕ) (a b : ℕ)
    (ha : a < r.length) (hb : b < r.length) :
    (two_opt_delta t r a b).1.Perm r := by
  rw [two_opt_delta]
  by_cases h3 : r.length < 3
  · rw [if_pos h3]
  rw [if_neg h3]
  dsimp only
  by_cases hle : a ≤ b
  · rw [if_pos hle, if_pos hle]
    by_cases hd : b - a < 2
    · rw [if_pos hd]
    · rw [if_neg hd]
      exact two_opt_slice_perm r a b (by omega) (by omega)
  · rw [if_neg hle, if_neg hle]
    by_cases hd : a - b < 2
    · rw [if_pos hd]
    · rw [if_neg hd]
      exact two_opt_slice_perm r b a (by omega) (by omega)

/-- Every delta-evaluation neighborhood move returns a permutation of its
input, whatever the configured name resolves to. -/
theorem NEIGHBORHOODS_DELTA_fst_perm (name : String) (t : TSP) (r : List ℕ)
    (a b : ℕ) (ha : a < r.length) (hb : b < r.length) :
    (NEIGHBORHOODS_DELTA name t r a b).1.Perm r := by
  rw [NEIGHBORHOODS_DELTA]
  split_ifs
  · exact swap_delta_fst_perm t r a b ha hb
  · exact insert_delta_fst_perm t r a b ha hb
  · exact two_opt_delta_fst_perm t r a b ha hb

/-- Dispatcher-level delta correctness: every configured delta move reports
the exact cost change, except `swap` on routes of length 2. -/
theorem NEIGHBORHOODS_DELTA_correct (name : String) (t : TSP) (ht : Symm t)
    (r : List ℕ) (a b : ℕ) (ha : a < r.length) (hb : b < r.length)
    (hab : a ≠ b) (hn : r.length ≠ 2 ∨ name ≠ "swap") :
    route_length t (NEIGHBORHOODS_DELTA name t r a b).1
      = route_length t r + (NEIGHBORHOODS_DELTA name t r a b).2 := by
  rw [NEIGHBORHOODS_DELTA]
  split_ifs with h1 h2
  · exact swap_delta_correct t r a b ha hb hab (hn.resolve_right (by simp [h1]))
  · exact insert_delta_correct t r a b
  · exact two_opt_delta_correct t ht r a b ha hb

/-! ## Nearest Neighbor (`src/algorithms/nn.py`)

The inner argmin scan over `range(n)` carries its `(best_city, best_dist)`
pair as an `Option` (standing for the `(-1, float("inf"))` initialisation). -/

def nn_scan (t : TSP) (visited : List Bool) (current : ℕ) : Option (ℕ × ℚ) :=
  (List.range t.n).foldl
    (fun best city =>
      if visited.getD city true = false then
        match best with
        | none => some (city, t.dm current city)
        | some (_, bd) =>
          if t.dm current city < bd then some (city, t.dm current city) else best
      else best)
    none

structure NNState where
  visited : List Bool
  route : List ℕ
  total : ℚ
  current : ℕ

/-- One iteration of the `for _ in range(n - 1)` loop of `nearest_neighbor`
(the `none` fallback is unreachable while unvisited cities remain, as proved
in `nn_invariant`). -/
def nn_step (t : TSP) (st : NNState) : NNState :=
  match nn_scan t st.visited st.current with
  | some (bc, bd) =>
    ⟨st.visited.set bc true, st.route ++ [bc], st.total + bd, bc⟩
  | none => st

/-- `nearest_neighbor` (`src/algorithms/nn.py` lines 14-56). -/
def nearest_neighbor (t : TSP) (start : ℕ) : List ℕ × ℚ :=
  let st0 : NNState := ⟨(List.replicate t.n false).set start true, [start], 0, start⟩
  let fin := (List.range (t.n - 1)).foldl (fun st _ => nn_step t st) st0
  (fin.route, fin.total + t.dm fin.current start)

theorem nn_scan_sound (t : TSP) (visited : List Bool) (current : ℕ)
    (c : ℕ) (d : ℚ) (h : nn_scan t visited current = some (c, d)) :
    c < t.n ∧ visited.getD c true = false ∧ d = t.dm current c := by
  rw [nn_scan] at h
  have key : ∀ (L : List ℕ) (init : Option (ℕ × ℚ)),
      (∀ x ∈ L, x < t.n) →
      (∀ cd : ℕ × ℚ, init = some cd →
        cd.1 < t.n ∧ visited.getD cd.1 true = false ∧ cd.2 = t.dm current cd.1) →
      ∀ cd : ℕ × ℚ,
        L.foldl (fun best city =>
          if visited.getD city true = false then
            match best with
            | none => some (city, t.dm current city)
            | some (_, bd) =>
              if t.dm current city < bd then some (city, t.dm current city) else best
          else best) init = some cd →
        cd.1 < t.n ∧ visited.getD cd.1 true = false ∧ cd.2 = t.dm current cd.1 := by
    intro L
    induction L with
    | nil => intro init _ hinit cd h; exact hinit cd h
    | cons x L ih =>
      intro init hL hinit cd h
      rw [List.foldl_cons] at h
      refine ih _ (fun y hy => hL y (List.mem_cons_of_mem x hy)) ?_ cd h
      intro cd' hcd'
      by_cases hv : visited.getD x true = false
      · rw [if_pos hv] at hcd'
        cases init with
        | none =>
          cases hcd'
          exact ⟨hL x (List.mem_cons_self x L), hv, rfl⟩
        | some p =>
          obtain ⟨p1, p2⟩ := p
          dsimp only at hcd'
          by_cases hlt : t.dm current x < p2
          · rw [if_pos hlt] at hcd'
            cases hcd'
            exact ⟨hL x (List.mem_cons_self x L), hv, rfl⟩
          · rw [if_neg hlt] at hcd'
            exact hinit cd' hcd'
      · rw [if_neg hv] at hcd'
        exact hinit cd' hcd'
  exact key (List.range t.n) none (fun x hx => List.mem_range.mp hx)
    (fun cd h => by cases h) (c, d) h

theorem nn_scan_some (t : TSP) (visited : List Bool) (current : ℕ)
    (c : ℕ) (hc : c < t.n) (hv : visited.getD c true = false) :
    ∃ p, nn_scan t visited current = some p := by
  rw [nn_scan]
  have hsome : ∀ (L : List ℕ) (init : Option (ℕ × ℚ)),
      ((∃ x ∈ L, visited.getD x true = false) ∨ init ≠ none) →
      ∃ p, L.foldl (fun best city =>
          if visited.getD city true = false then
            match best with
            | none => some (city, t.dm current city)
            | some (_, bd) =>
              if t.dm current city < bd then some (city, t.dm current city) else best
          else best) init = some p := by
    intro L
    induction L with
    | nil =>
      intro init h
      rcases h with ⟨x, hx, _⟩ | h
      · exact absurd hx (List.not_mem_nil x)
      · cases init with
        | none => exact absurd rfl h
        | some p => exact ⟨p, rfl⟩
    | cons x L ih =>
      intro init h
      rw [List.foldl_cons]
      by_cases hv' : visited.getD x true = false
      · refine ih _ (Or.inr ?_)
        rw [if_pos hv']
        cases init with
        | none => simp
        | some p =>
          by_cases hlt : t.dm current x < p.2 <;> simp [hlt]
      · rw [if_neg hv']
        refine ih _ ?_
        rcases h with ⟨y, hy, hyv⟩ | h
        · rcases List.mem_cons.mp hy with rfl | hy'
          · exact absurd hyv hv'
          · exact Or.inl ⟨y, hy', hyv⟩
        · exact Or.inr h
  exact hsome (List.range t.n) none (Or.inl ⟨c, List.mem_range.mpr hc, hv⟩)

theorem foldl_const {a b : Type} (g : a → a) (l : List b) :
    ∀ init : a, l.foldl (fun st _ => g st) init = g^[l.length] init := by
  induction l with
  | nil => intro init; rfl
  | cons x l ih =>
    intro init
    rw [List.foldl_cons, ih (g init), List.length_cons,
      Function.iterate_succ_apply]

/-- Loop invariant of `nearest_neighbor`: after `k` steps the partial route
is a duplicate-free list of `k + 1` cities below `n`, mirrored exactly by the
`visited` flags, starting at `start`, ending at `current`, with `total` the
cost of the open path walked so far. -/
def NNInv (t : TSP) (start : ℕ) (k : ℕ) (st : NNState) : Prop :=
  st.visited.length = t.n
  ∧ st.route.Nodup
  ∧ (∀ c ∈ st.route, c < t.n)
  ∧ (∀ c, c < t.n → (st.visited.getD c true = true ↔ c ∈ st.route))
  ∧ st.route.length = k + 1
  ∧ st.route ≠ []
  ∧ st.route.headD 0 = start
  ∧ st.route.getLastD 0 = st.current
  ∧ st.total = segCost t st.route

theorem nn_inv_base (t : TSP) (start : ℕ) (hs : start < t.n) :
    NNInv t start 0
      ⟨(List.replicate t.n false).set start true, [start], 0, start⟩ := by
  refine ⟨by simp, by simp, ?_, ?_, by simp, by simp, rfl, rfl, by simp⟩
  · intro c hc
    simp at hc
    subst hc
    exact hs
  · intro c hc
    have hlen : c < ((List.replicate t.n false).set start true).length := by simp [hc]
    rw [List.getD_eq_getElem _ true hlen, List.getElem_set]
    by_cases h : start = c
    · subst h; simp
    · simp [h, Ne.symm h]

theorem nn_inv_step (t : TSP) (start : ℕ) (k : ℕ) (st : NNState)
    (hinv : NNInv t start k st) (hk : k + 1 < t.n) :
    NNInv t start (k + 1) (nn_step t st) := by
  obtain ⟨hvlen, hnd, hlt, hiff, hlen, hne, hhead, hlast, htot⟩ := hinv
  have hex : ∃ c, c < t.n ∧ st.visited.getD c true = false := by
    by_contra hall
    push_neg at hall
    have hsub : ∀ c < t.n, c ∈ st.route := by
      intro c hc
      rcases Bool.eq_false_or_eq_true (st.visited.getD c true) with h | h
      · exact (hiff c hc).mp h
      · exact absurd h (hall c hc)
    have hsubf : (List.range t.n).toFinset ⊆ st.route.toFinset := by
      intro c hc
      rw [List.mem_toFinset] at hc ⊢
      exact hsub c (List.mem_range.mp hc)
    have hcard := Finset.card_le_card hsubf
    rw [List.toFinset_card_of_nodup (List.nodup_range t.n), List.length_range,
      List.toFinset_card_of_nodup hnd, hlen] at hcard
    omega
  obtain ⟨c, hc, hcv⟩ := hex
  obtain ⟨⟨bc, bd⟩, hp⟩ := nn_scan_some t st.visited st.current c hc hcv
  obtain ⟨hbcn, hbcv, hbd⟩ := nn_scan_sound t st.visited st.current bc bd hp
  have hbcmem : bc ∉ st.route := by
    intro hmem
    rw [← hiff bc hbcn] at hmem
    rw [hmem] at hbcv
    cases hbcv
  rw [nn_step, hp]
  dsimp only
  refine ⟨by simp [hvlen], ?_, ?_, ?_, by simp [hlen], by simp, ?_, ?_, ?_⟩
  · rw [List.nodup_append]
    refine ⟨hnd, List.nodup_singleton bc, fun x hx hx' => ?_⟩
    have hxbc : x = bc := by simpa using hx'
    subst hxbc
    exact hbcmem hx
  · intro x hx
    rcases List.mem_append.mp hx with h | h
    · exact hlt x h
    · simp at h; subst h; exact hbcn
  · intro x hx
    have hxlen : x < (st.visited.set bc true).length := by simp [hvlen, hx]
    rw [List.getD_eq_getElem _ true hxlen, List.getElem_set]
    by_cases h : bc = x
    · subst h
      simp
    · rw [if_neg h, ← List.getD_eq_getElem _ true (by simp at hxlen; simpa [hvlen]),
        List.mem_append]
      rw [hiff x hx]
      simp [Ne.symm h]
  · rw [headD_append _ _ hne, hhead]
  · rw [getLastD_append _ _ (by simp)]
    simp
  · rw [seg_append t st.route [bc] hne (by simp), htot, hbd, hlast]
    simp

theorem nn_inv_iterate (t : TSP) (start : ℕ) (hs : start < t.n) :
    ∀ k, k + 1 ≤ t.n →
      NNInv t start k
        ((nn_step t)^[k] ⟨(List.replicate t.n false).set start true, [start], 0, start⟩) := by
  intro k
  induction k with
  | zero => intro _; exact nn_inv_base t start hs
  | succ k ih =>
    intro hk
    rw [Function.iterate_succ_apply']
    exact nn_inv_step t start k _ (ih (by omega)) (by omega)

/-- `nearest_neighbor` returns a permutation of `[0, n)` together with its
exact route length. -/
theorem nearest_neighbor_correct (t : TSP) (start : ℕ) (hs : start < t.n) :
    IsTour t.n (nearest_neighbor t start).1
      ∧ (nearest_neighbor t start).2
          = route_length t (nearest_neighbor t start).1 := by
  rw [nearest_neighbor]
  dsimp only
  rw [foldl_const (nn_step t), List.length_range]
  have hinv := nn_inv_iterate t start hs (t.n - 1) (by omega)
  set fin := (nn_step t)^[t.n - 1]
    (⟨(List.replicate t.n false).set start true, [start], 0, start⟩ : NNState)
  obtain ⟨hvlen, hnd, hlt, hiff, hlen, hne, hhead, hlast, htot⟩ := hinv
  have hlen' : fin.route.length = t.n := by omega
  constructor
  · refine List.perm_of_nodup_nodup_toFinset_eq hnd (List.nodup_range t.n) ?_
    refine Finset.eq_of_subset_of_card_le ?_ ?_
    · intro x hx
      rw [List.mem_toFinset] at hx ⊢
      exact List.mem_range.mpr (hlt x hx)
    · rw [List.toFinset_card_of_nodup (List.nodup_range t.n), List.length_range,
        List.toFinset_card_of_nodup hnd, hlen']
  · rw [rl_decomp t fin.route hne, htot, hlast, hhead]

/-! ## Shared "best so far" tracker

Every algorithm updates its global best through the same
`if cand < best: best = cand` pattern, with `best` initialised to
`(None, float("inf"))`; `updBest` is that update on the `Option` encoding. -/

def updBest (cand : List ℕ × ℚ) : Option (List ℕ × ℚ) → Option (List ℕ × ℚ)
  | none => some cand
  | some best => if cand.2 < best.2 then some cand else some best

/-- `b1` is at most `b2` in the `inf`-extended order on best trackers. -/
def bestLe (b1 b2 : Option (List ℕ × ℚ)) : Prop :=
  match b2 with
  | none => True
  | some p2 =>
    match b1 with
    | none => False
    | some p1 => p1.2 ≤ p2.2

theorem bestLe_refl (b : Option (List ℕ × ℚ)) : bestLe b b := by
  cases b with
  | none => trivial
  | some p => exact le_refl p.2

theorem bestLe_trans {b1 b2 b3 : Option (List ℕ × ℚ)}
    (h12 : bestLe b1 b2) (h23 : bestLe b2 b3) : bestLe b1 b3 := by
  cases b3 with
  | none => trivial
  | some p3 =>
    cases b2 with
    | none => exact absurd h23 (by simp [bestLe])
    | some p2 =>
      cases b1 with
      | none => exact absurd h12 (by simp [bestLe])
      | some p1 => exact le_trans (α := ℚ) h12 h23

/-- An `updBest` step never increases the tracked best. -/
theorem updBest_le (cand : List ℕ × ℚ) (b : Option (List ℕ × ℚ)) :
    bestLe (updBest cand b) b := by
  cases b with
  | none => trivial
  | some p =>
    rw [updBest]
    by_cases h : cand.2 < p.2
    · rw [if_pos h]; exact le_of_lt h
    · rw [if_neg h]; exact le_refl p.2

/-- `updBest` preserves any property holding of the candidate and of the
previous best. -/
theorem updBest_prop (P : List ℕ × ℚ → Prop) (cand : List ℕ × ℚ)
    (b : Option (List ℕ × ℚ)) (hc : P cand)
    (hb : ∀ p, b = some p → P p) :
    ∀ p, updBest cand b = some p → P p := by
  intro p hp
  cases b with
  | none => cases hp; exact hc
  | some q =>
    rw [updBest] at hp
    by_cases h : cand.2 < q.2
    · rw [if_pos h] at hp; cases hp; exact hc
    · rw [if_neg h] at hp
      injection hp with h2
      subst h2
      exact hb _ rfl

/-! ## Iterated Hill Climbing (`src/algorithms/ihc.py`)

Oracle parameters: `inits r` is the shuffled starting permutation of restart
`r`, `nn_start` the random start city used when `use_nn_start` seeds restart
0, and `picks r i` the pair drawn by the delta move at restart `r`,
iteration `i`. -/

structure IhcState where
  route : List ℕ
  cur : ℚ
  cnt : ℕ

/-- `if no_improve_limit and no_improve_count >= no_improve_limit` — note a
limit of `0` is falsy in Python and therefore never triggers the break. -/
def ihc_break (limit : Option ℕ) (cnt : ℕ) : Bool :=
  match limit with
  | none => false
  | some lim => if lim = 0 then false else if lim ≤ cnt then true else false

/-- The inner `for _ in range(iterations)` loop of a single restart. -/
def ihc_inner (delta_f : List ℕ → ℕ → ℕ → List ℕ × ℚ)
    (limit : Option ℕ) (pick : ℕ → ℕ × ℕ) : ℕ → ℕ → IhcState → IhcState
  | 0, _, st => st
  | k + 1, i, st =>
    let nd := delta_f st.route (pick i).1 (pick i).2
    let st' : IhcState :=
      if nd.2 < 0 then ⟨nd.1, st.cur + nd.2, 0⟩ else ⟨st.route, st.cur, st.cnt + 1⟩
    if ihc_break limit st'.cnt then st' else ihc_inner delta_f limit pick k (i + 1) st'

/-- `iterative_hill_climbing` (`src/algorithms/ihc.py` lines 16-88). -/
def iterative_hill_climbing (t : TSP) (iterations restarts : ℕ)
    (neighborhood : String) (no_improve_limit : Option ℕ) (use_nn_start : Bool)
    (inits : ℕ → List ℕ) (nn_start : ℕ) (picks : ℕ → ℕ → ℕ × ℕ) :
    Option (List ℕ × ℚ) :=
  (List.range restarts).foldl
    (fun best restart =>
      let start : List ℕ × ℚ :=
        if use_nn_start = true ∧ restart = 0 then nearest_neighbor t nn_start
        else
          let rte := inits restart
          (rte, route_length t rte)
      let fin := ihc_inner (NEIGHBORHOODS_DELTA neighborhood t) no_improve_limit
        (picks restart) iterations 0 ⟨start.1, start.2, 0⟩
      updBest (fin.route, fin.cur) best)
    none

/-- One intensification burst of `ihc_with_intensification`: an
accept-if-negative-delta loop over one delta operator (no break, no counter). -/
def ihc_intens_burst (delta_f : List ℕ → ℕ → ℕ → List ℕ × ℚ)
    (pick : ℕ → ℕ × ℕ) (iters : ℕ) (st0 : List ℕ × ℚ) : List ℕ × ℚ :=
  (List.range iters).foldl
    (fun st i =>
      let nd := delta_f st.1 (pick i).1 (pick i).2
      if nd.2 < 0 then (nd.1, st.2 + nd.2) else st)
    st0

/-- `ihc_with_intensification` (`src/algorithms/ihc.py` lines 91-153).
`ipicks r j i` is the pair drawn in burst `j ∈ {0,1,2}` (the `"swap"`,
`"insert"`, `"two_opt"` passes) of restart `r` at iteration `i`.  The
`improvement` ratio is embedded with total `ℚ` division; it only gates
whether the bursts run, which no proved property depends on. -/
def ihc_with_intensification (t : TSP) (iterations restarts : ℕ)
    (neighborhood : String) (intensification_threshold : ℚ)
    (inits : ℕ → List ℕ) (picks : ℕ → ℕ → ℕ × ℕ)
    (ipicks : ℕ → ℕ → ℕ → ℕ × ℕ) : Option (List ℕ × ℚ) :=
  (List.range restarts).foldl
    (fun best restart =>
      let rte := inits restart
      let st1 := ihc_intens_burst (fun r a b => NEIGHBORHOODS_DELTA neighborhood t r a b)
        (picks restart) iterations (rte, route_length t rte)
      match best with
      | none =>
        -- current_length < inf; improvement = 1.0
        let best1 := (st1.1, st1.2)
        if (1 : ℚ) > intensification_threshold then
          let st2 := ihc_intens_burst (fun r a b => swap_delta t r a b)
            (ipicks restart 0) (iterations / 3) st1
          let st3 := ihc_intens_burst (fun r a b => insert_delta t r a b)
            (ipicks restart 1) (iterations / 3) st2
          let st4 := ihc_intens_burst (fun r a b => two_opt_delta t r a b)
            (ipicks restart 2) (iterations / 3) st3
          if st4.2 < best1.2 then some st4 else some best1
        else some best1
      | some bp =>
        if st1.2 < bp.2 then
          let improvement := (bp.2 - st1.2) / bp.2
          let best1 := (st1.1, st1.2)
          if improvement > intensification_threshold then
            let st2 := ihc_intens_burst (fun r a b => swap_delta t r a b)
              (ipicks restart 0) (iterations / 3) st1
            let st3 := ihc_intens_burst (fun r a b => insert_delta t r a b)
              (ipicks restart 1) (iterations / 3) st2
            let st4 := ihc_intens_burst (fun r a b => two_opt_delta t r a b)
              (ipicks restart 2) (iterations / 3) st3
            if st4.2 < best1.2 then some st4 else some best1
          else some best1
        else some bp)
    none

/-- Routes shorter than 2 are returned unchanged with a zero delta by every
delta operator. -/
theorem NEIGHBORHOODS_DELTA_small (name : String) (t : TSP) (r : List ℕ)
    (a b : ℕ) (h : r.length < 2) :
    NEIGHBORHOODS_DELTA name t r a b = (r, 0) := by
  rw [NEIGHBORHOODS_DELTA]
  split_ifs
  · rw [swap_delta, if_pos h]
  · rw [insert_delta, if_pos h]
  · rw [two_opt_delta, if_pos (show r.length < 3 from by omega)]

/-- Invariant carried by every delta-evaluation local-search loop: the
working route is a tour and the accumulated length is its exact cost. -/
def RouteInv (t : TSP) (route : List ℕ) (cur : ℚ) : Prop :=
  IsTour t.n route ∧ cur = route_length t route

theorem route_inv_step (name : String) (t : TSP) (ht : Symm t)
    (hswap : t.n ≠ 2 ∨ name ≠ "swap") (route : List ℕ) (cur : ℚ)
    (hinv : RouteInv t route cur) (a b : ℕ) (hab : PairOk t.n (a, b)) :
    RouteInv t (NEIGHBORHOODS_DELTA name t route a b).1
      (cur + (NEIGHBORHOODS_DELTA name t route a b).2) := by
  obtain ⟨htour, hcur⟩ := hinv
  have hlen : route.length = t.n := by
    rw [htour.length_eq, List.length_range]
  rcases hab with h | ⟨h1, h2, h3⟩
  · rw [NEIGHBORHOODS_DELTA_small name t route a b (by omega)]
    exact ⟨htour, by simpa using hcur⟩
  · constructor
    · exact (NEIGHBORHOODS_DELTA_fst_perm name t route a b
        (by omega) (by omega)).trans htour
    · rw [NEIGHBORHOODS_DELTA_correct name t ht route a b (by omega) (by omega)
        h3 (by rw [hlen]; exact hswap), hcur]

theorem ihc_inner_inv (name : String) (t : TSP) (ht : Symm t)
    (hswap : t.n ≠ 2 ∨ name ≠ "swap") (limit : Option ℕ) (pick : ℕ → ℕ × ℕ)
    (hpick : ∀ i, PairOk t.n (pick i)) :
    ∀ (k i : ℕ) (st : IhcState), RouteInv t st.route st.cur →
      RouteInv t (ihc_inner (NEIGHBORHOODS_DELTA name t) limit pick k i st).route
        (ihc_inner (NEIGHBORHOODS_DELTA name t) limit pick k i st).cur := by
  intro k
  induction k with
  | zero => intro i st h; exact h
  | succ k ih =>
    intro i st h
    rw [ihc_inner]
    have hstep := route_inv_step name t ht hswap st.route st.cur h
      (pick i).1 (pick i).2 (hpick i)
    by_cases hd : (NEIGHBORHOODS_DELTA name t st.route (pick i).1 (pick i).2).2 < 0
    · rw [if_pos hd]
      dsimp only
      split_ifs
      · exact hstep
      · exact ih (i + 1) _ hstep
    · rw [if_neg hd]
      dsimp only
      split_ifs
      · exact h
      · exact ih (i + 1) _ h

/-- `iterative_hill_climbing` returns a tour of `[0, n)` whose reported
length is exactly its route length, provided the configured delta operator is
exact (that is, except for `swap` on two-city instances). -/
theorem iterative_hill_climbing_inv (t : TSP) (ht : Symm t)
    (iterations restarts : ℕ) (neighborhood : String)
    (hswap : t.n ≠ 2 ∨ neighborhood ≠ "swap") (no_improve_limit : Option ℕ)
    (use_nn_start : Bool) (inits : ℕ → List ℕ) (nn_start : ℕ)
    (picks : ℕ → ℕ → ℕ × ℕ)
    (hinits : ∀ r, (inits r).Perm (List.range t.n))
    (hnn : use_nn_start = true → nn_start < t.n)
    (hpicks : ∀ r i, PairOk t.n (picks r i)) :
    ∀ p, iterative_hill_climbing t iterations restarts neighborhood
        no_improve_limit use_nn_start inits nn_start picks = some p →
      IsTour t.n p.1 ∧ p.2 = route_length t p.1 := by
  rw [iterative_hill_climbing]
  have key : ∀ (L : List ℕ) (init : Option (List ℕ × ℚ)),
      (∀ p, init = some p → IsTour t.n p.1 ∧ p.2 = route_length t p.1) →
      ∀ p, L.foldl (fun best restart =>
          let start : List ℕ × ℚ :=
            if use_nn_start = true ∧ restart = 0 then nearest_neighbor t nn_start
            else
              let rte := inits restart
              (rte, route_length t rte)
          let fin := ihc_inner (NEIGHBORHOODS_DELTA neighborhood t) no_improve_limit
            (picks restart) iterations 0 ⟨start.1, start.2, 0⟩
          updBest (fin.route, fin.cur) best) init = some p →
        IsTour t.n p.1 ∧ p.2 = route_length t p.1 := by
    intro L
    induction L with
    | nil => intro init h p hp; exact h p hp
    | cons x L ih =>
      intro init h p hp
      rw [List.foldl_cons] at hp
      refine ih _ ?_ p hp
      intro q hq
      have hstart : RouteInv t
          (if use_nn_start = true ∧ x = 0 then nearest_neighbor t nn_start
           else (inits x, route_length t (inits x))).1
          (if use_nn_start = true ∧ x = 0 then nearest_neighbor t nn_start
           else (inits x, route_length t (inits x))).2 := by
        split_ifs with hcase
        · obtain ⟨h1, h2⟩ := nearest_neighbor_correct t nn_start (hnn hcase.1)
          exact ⟨h1, h2⟩
        · exact ⟨hinits x, rfl⟩
      have hfin := ihc_inner_inv neighborhood t ht hswap no_improve_limit
        (picks x) (hpicks x) iterations 0 ⟨_, _, 0⟩ hstart
      exact updBest_prop (fun p => IsTour t.n p.1 ∧ p.2 = route_length t p.1)
        _ _ ⟨hfin.1, hfin.2⟩ h q hq
  exact key (List.range restarts) none (fun p hp => by cases hp)

/-! ## Two-city instances

On `n = 2` every tour is `[0, 1]` or `[1, 0]` and every tour costs
`dist[0][1] + dist[1][0]` (`2 × dist[0][1]` when symmetric). -/

theorem tour_two_cases (r : List ℕ) (h : IsTour 2 r) :
    r = [0, 1] ∨ r = [1, 0] := by
  rw [IsTour, show List.range 2 = [0, 1] from rfl] at h
  match r, h with
  | [a, b], h =>
    have ha : a ∈ ([0, 1] : List ℕ) := h.mem_iff.mp (by simp)
    have hb : b ∈ ([0, 1] : List ℕ) := h.mem_iff.mp (by simp)
    simp at ha hb
    have hnd : ([a, b] : List ℕ).Nodup := h.nodup_iff.mpr (by simp)
    simp at hnd
    rcases ha with rfl | rfl <;> rcases hb with rfl | rfl <;> simp at hnd ⊢
  | [], h => exact absurd h.length_eq (by simp)
  | [a], h => exact absurd h.length_eq (by simp)
  | a :: b :: c :: l, h => exact absurd h.length_eq (by simp)

theorem rl_two (t : TSP) (ht : Symm t) (r : List ℕ) (h : IsTour 2 r) :
    route_length t r = 2 * t.dm 0 1 := by
  rcases tour_two_cases r h with rfl | rfl
  · rw [rl_xy, ht 1 0]; ring
  · rw [rl_xy, ht 1 0]; ring

/-- Full-evaluation moves leave routes shorter than 2 unchanged. -/
theorem NEIGHBORHOODS_small (name : String) (r : List ℕ) (a b : ℕ)
    (h : r.length < 2) : NEIGHBORHOODS name r a b = r := by
  rw [NEIGHBORHOODS]
  split_ifs
  · rw [swap, if_pos h]
  · rw [Tsp.insert, if_pos h]
  · rw [two_opt, if_pos (show r.length < 3 from by omega)]

/-- A full-evaluation move on a tour yields a tour, for every valid or
degenerate draw. -/
theorem NEIGHBORHOODS_tour (name : String) (t : TSP) (r : List ℕ)
    (htour : IsTour t.n r) (a b : ℕ) (hab : PairOk t.n (a, b)) :
    IsTour t.n (NEIGHBORHOODS name r a b) := by
  have hlen : r.length = t.n := by rw [htour.length_eq, List.length_range]
  rcases hab with h | ⟨h1, h2, _⟩
  · rw [NEIGHBORHOODS_small name r a b (by omega)]
    exact htour
  · exact (NEIGHBORHOODS_perm name r a b (by omega) (by omega)).trans htour

/-! ## Simulated Annealing (`src/algorithms/sa.py`)

Oracle parameters: `pairs i j` is the move's position pair and `accs i j`
the outcome of the Metropolis draw `random.random() < exp(-diff / t)` at
outer iteration `i`, inner iteration `j`.  The draw outcome is a `Bool`
oracle because no property proved here depends on the acceptance
probability, only on when the branch may run (`t > 0`).  `logQ` embeds
`math.log` for the `"logarithmic"` schedule (uninterpreted). -/

structure SaState where
  route : List ℕ
  dist : ℚ
  bestR : List ℕ
  bestD : ℚ
  temp : ℚ

/-- `_reduce_temperature` (`src/algorithms/sa.py` lines 109-123). -/
def _reduce_temperature (tc initial_temp alpha : ℚ) (iteration max_iterations : ℕ)
    (method : String) (logQ : ℚ → ℚ) : ℚ :=
  if method = "geometric" then tc * alpha
  else if method = "linear" then
    initial_temp * (1 - (iteration : ℚ) / (max_iterations : ℚ))
  else if method = "logarithmic" then initial_temp / logQ ((iteration : ℚ) + 2)
  else tc * alpha

/-- One Metropolis step (`src/algorithms/sa.py` lines 73-96). -/
def sa_metropolis (t : TSP) (move_f : List ℕ → ℕ → ℕ → List ℕ)
    (pair : ℕ × ℕ) (acc : Bool) (st : SaState) : SaState :=
  let neighbor := move_f st.route pair.1 pair.2
  let neighbor_dist := route_length t neighbor
  let diff := neighbor_dist - st.dist
  if diff < 0 then
    if neighbor_dist < st.bestD then
      ⟨neighbor, neighbor_dist, neighbor, neighbor_dist, st.temp⟩
    else
      ⟨neighbor, neighbor_dist, st.bestR, st.bestD, st.temp⟩
  else if st.temp > 0 then
    if acc then ⟨neighbor, neighbor_dist, st.bestR, st.bestD, st.temp⟩ else st
  else st

/-- The outer cooling loop (`for i in range(iterations)`), with the early
break once the temperature falls below `1e-10`. -/
def sa_outer (t : TSP) (move_f : List ℕ → ℕ → ℕ → List ℕ)
    (iterations_per_temp : ℕ) (initial_temp alpha : ℚ) (method : String)
    (logQ : ℚ → ℚ) (max_iterations : ℕ) (pairs : ℕ → ℕ → ℕ × ℕ)
    (accs : ℕ → ℕ → Bool) : ℕ → ℕ → SaState → SaState
  | 0, _, st => st
  | k + 1, i, st =>
    let st1 := (List.range iterations_per_temp).foldl
      (fun s j => sa_metropolis t move_f (pairs i j) (accs i j) s) st
    let tnew := _reduce_temperature st1.temp initial_temp alpha i max_iterations
      method logQ
    let st2 : SaState := ⟨st1.route, st1.dist, st1.bestR, st1.bestD, tnew⟩
    if tnew < 1 / 10 ^ 10 then st2
    else sa_outer t move_f iterations_per_temp initial_temp alpha method logQ
      max_iterations pairs accs k (i + 1) st2

/-- `simulated_annealing` (`src/algorithms/sa.py` lines 19-106). -/
def simulated_annealing (t : TSP) (temp alpha : ℚ) (iterations : ℕ)
    (neighborhood : String) (cooling_method : String)
    (iterations_per_temp : ℕ) (use_nn_start : Bool) (init : List ℕ)
    (nn_start : ℕ) (pairs : ℕ → ℕ → ℕ × ℕ) (accs : ℕ → ℕ → Bool)
    (logQ : ℚ → ℚ) : List ℕ × ℚ :=
  let start := if use_nn_start then nearest_neighbor t nn_start
    else (init, route_length t init)
  let fin := sa_outer t (NEIGHBORHOODS neighborhood) iterations_per_temp temp
    alpha cooling_method logQ iterations pairs accs iterations 0
    ⟨start.1, start.2, start.1, start.2, temp⟩
  (fin.bestR, fin.bestD)

/-! ### Generic fold preservation helpers -/

theorem foldl_pres {a b : Type} (P : a → Prop) (f : a → b → a)
    (hf : ∀ st x, P st → P (f st x)) :
    ∀ (L : List b) (init : a), P init → P (L.foldl f init) := by
  intro L
  induction L with
  | nil => intro init h; exact h
  | cons x L ih => intro init h; exact ih (f init x) (hf init x h)

theorem foldl_mono {a b : Type} (m : a → ℚ) (f : a → b → a)
    (hm : ∀ st x, m (f st x) ≤ m st) :
    ∀ (L : List b) (init : a), m (L.foldl f init) ≤ m init := by
  intro L
  induction L with
  | nil => intro init; exact le_refl _
  | cons x L ih =>
    intro init
    exact le_trans (ih (f init x)) (hm init x)

/-! ### Simulated annealing invariants -/

def SaInv (t : TSP) (st : SaState) : Prop :=
  IsTour t.n st.route ∧ st.dist = route_length t st.route
  ∧ IsTour t.n st.bestR ∧ st.bestD = route_length t st.bestR

theorem sa_metropolis_inv (t : TSP) (name : String) (pair : ℕ × ℕ)
    (hp : PairOk t.n pair) (acc : Bool) (st : SaState) (h : SaInv t st) :
    SaInv t (sa_metropolis t (NEIGHBORHOODS name) pair acc st) := by
  obtain ⟨h1, h2, h3, h4⟩ := h
  have hnb : IsTour t.n (NEIGHBORHOODS name st.route pair.1 pair.2) :=
    NEIGHBORHOODS_tour name t st.route h1 pair.1 pair.2 (by
      obtain ⟨p1, p2⟩ := pair; exact hp)
  rw [sa_metropolis]
  split_ifs <;> exact ⟨by first | exact hnb | exact h1, by first | rfl | exact h2,
    by first | exact hnb | exact h3, by first | rfl | exact h4⟩

theorem sa_metropolis_best_mono (t : TSP) (mf : List ℕ → ℕ → ℕ → List ℕ)
    (pair : ℕ × ℕ) (acc : Bool) (st : SaState) :
    (sa_metropolis t mf pair acc st).bestD ≤ st.bestD := by
  rw [sa_metropolis]
  split_ifs with h1 h2 <;> first | exact le_of_lt h2 | exact le_refl _

theorem sa_metropolis_temp (t : TSP) (mf : List ℕ → ℕ → ℕ → List ℕ)
    (pair : ℕ × ℕ) (acc : Bool) (st : SaState) :
    (sa_metropolis t mf pair acc st).temp = st.temp := by
  rw [sa_metropolis]
  split_ifs <;> rfl

/-- At zero temperature the cooling schedules all return zero (for every
method string, including the fallback). -/
theorem reduce_temperature_zero (alpha : ℚ) (i m : ℕ) (method : String)
    (logQ : ℚ → ℚ) : _reduce_temperature 0 0 alpha i m method logQ = 0 := by
  rw [_reduce_temperature]
  split_ifs <;> simp

/-- Defined following the spec's words ("SA with `T=0` at all times
degenerates to strict-improvement hill climbing (never accepts `diff≥0`)"):
a hill-climbing step that accepts the drawn neighbor exactly when its cost
strictly improves on the current cost, with the same best-tracking. -/
def spec_hill_climb_step (t : TSP) (move_f : List ℕ → ℕ → ℕ → List ℕ)
    (pair : ℕ × ℕ) (st : SaState) : SaState :=
  let neighbor := move_f st.route pair.1 pair.2
  let neighbor_dist := route_length t neighbor
  if neighbor_dist - st.dist < 0 then
    if neighbor_dist < st.bestD then
      ⟨neighbor, neighbor_dist, neighbor, neighbor_dist, st.temp⟩
    else
      ⟨neighbor, neighbor_dist, st.bestR, st.bestD, st.temp⟩
  else st

theorem sa_metropolis_zero_temp_eq (t : TSP)
    (mf : List ℕ → ℕ → ℕ → List ℕ) (pair : ℕ × ℕ) (acc : Bool)
    (st : SaState) (h : st.temp = 0) :
    sa_metropolis t mf pair acc st = spec_hill_climb_step t mf pair st := by
  have h3 : ¬ st.temp > 0 := by rw [h]; exact lt_irrefl 0
  simp only [sa_metropolis, spec_hill_climb_step]
  rw [if_neg h3]

theorem sa_metropolis_zero_temp_dist (t : TSP)
    (mf : List ℕ → ℕ → ℕ → List ℕ) (pair : ℕ × ℕ) (acc : Bool)
    (st : SaState) (h : st.temp = 0) :
    (sa_metropolis t mf pair acc st).dist ≤ st.dist := by
  have h3 : ¬ st.temp > 0 := by rw [h]; exact lt_irrefl 0
  simp only [sa_metropolis]
  rw [if_neg h3]
  split_ifs with h1 h2
  · exact le_of_lt (by linarith)
  · exact le_of_lt (by linarith)
  · exact le_refl _

theorem sa_outer_inv (t : TSP) (name : String) (ipt : ℕ)
    (temp0 alpha : ℚ) (method : String) (logQ : ℚ → ℚ) (mi : ℕ)
    (pairs : ℕ → ℕ → ℕ × ℕ) (accs : ℕ → ℕ → Bool)
    (hpairs : ∀ i j, PairOk t.n (pairs i j)) :
    ∀ (k i : ℕ) (st : SaState), SaInv t st →
      SaInv t (sa_outer t (NEIGHBORHOODS name) ipt temp0 alpha method logQ mi
        pairs accs k i st) := by
  intro k
  induction k with
  | zero => intro i st h; exact h
  | succ k ih =>
    intro i st h
    rw [sa_outer]
    have h1 : SaInv t ((List.range ipt).foldl
        (fun s j => sa_metropolis t (NEIGHBORHOODS name) (pairs i j) (accs i j) s) st) :=
      foldl_pres (SaInv t) _ (fun s j hs => sa_metropolis_inv t name (pairs i j)
        (hpairs i j) (accs i j) s hs) (List.range ipt) st h
    split_ifs
    · exact ⟨h1.1, h1.2.1, h1.2.2.1, h1.2.2.2⟩
    · exact ih (i + 1) _ ⟨h1.1, h1.2.1, h1.2.2.1, h1.2.2.2⟩

theorem sa_outer_best_mono (t : TSP) (mf : List ℕ → ℕ → ℕ → List ℕ)
    (ipt : ℕ) (temp0 alpha : ℚ) (method : String) (logQ : ℚ → ℚ) (mi : ℕ)
    (pairs : ℕ → ℕ → ℕ × ℕ) (accs : ℕ → ℕ → Bool) :
    ∀ (k i : ℕ) (st : SaState),
      (sa_outer t mf ipt temp0 alpha method logQ mi pairs accs k i st).bestD
        ≤ st.bestD := by
  intro k
  induction k with
  | zero => intro i st; exact le_refl _
  | succ k ih =>
    intro i st
    rw [sa_outer]
    have h1 : ((List.range ipt).foldl
        (fun s j => sa_metropolis t mf (pairs i j) (accs i j) s) st).bestD
        ≤ st.bestD :=
      foldl_mono SaState.bestD _ (fun s j => sa_metropolis_best_mono t mf
        (pairs i j) (accs i j) s) (List.range ipt) st
    split_ifs
    · exact h1
    · exact le_trans (ih (i + 1) _) h1

/-- With a zero initial temperature the current cost never increases across
the whole outer loop (the temperature stays zero under every schedule). -/
theorem sa_outer_zero_temp_dist (t : TSP) (mf : List ℕ → ℕ → ℕ → List ℕ)
    (ipt : ℕ) (alpha : ℚ) (method : String) (logQ : ℚ → ℚ) (mi : ℕ)
    (pairs : ℕ → ℕ → ℕ × ℕ) (accs : ℕ → ℕ → Bool) :
    ∀ (k i : ℕ) (st : SaState), st.temp = 0 →
      (sa_outer t mf ipt 0 alpha method logQ mi pairs accs k i st).dist
        ≤ st.dist := by
  intro k
  induction k with
  | zero => intro i st _; exact le_refl _
  | succ k ih =>
    intro i st htemp
    rw [sa_outer]
    have hz : ∀ (L : List ℕ) (s : SaState), s.temp = 0 →
        ((L.foldl (fun s j => sa_metropolis t mf (pairs i j) (accs i j) s) s).dist
          ≤ s.dist
        ∧ (L.foldl (fun s j => sa_metropolis t mf (pairs i j) (accs i j) s) s).temp
          = 0) := by
      intro L
      induction L with
      | nil => intro s hs; exact ⟨le_refl _, hs⟩
      | cons x L ihL =>
        intro s hs
        rw [List.foldl_cons]
        have hstep := sa_metropolis_zero_temp_dist t mf (pairs i x) (accs i x) s hs
        have htmp : (sa_metropolis t mf (pairs i x) (accs i x) s).temp = 0 := by
          rw [sa_metropolis_temp]; exact hs
        obtain ⟨hd, ht2⟩ := ihL _ htmp
        exact ⟨le_trans hd hstep, ht2⟩
    obtain ⟨hd, ht2⟩ := hz (List.range ipt) st htemp
    rw [ht2, reduce_temperature_zero]
    split_ifs
    · exact hd
    · exact le_trans (ih (i + 1) _ rfl) hd

/-! ### `sa_with_reheating` (`src/algorithms/sa.py` lines 126-195) -/

structure SaRhState where
  route : List ℕ
  dist : ℚ
  bestR : List ℕ
  bestD : ℚ
  temp : ℚ
  cnt : ℕ

/-- One iteration of the reheating loop; `acc` is the Metropolis draw
outcome (only consulted when `diff ≥ 0` and `t > 0`, short-circuit as in
`diff < 0 or (t > 0 and random.random() < ...)`). -/
def sa_reheat_iter (t : TSP) (mf : List ℕ → ℕ → ℕ → List ℕ)
    (initial_temp reheat_factor alpha : ℚ) (reheat_threshold : ℕ)
    (pair : ℕ × ℕ) (acc : Bool) (st : SaRhState) : SaRhState :=
  let neighbor := mf st.route pair.1 pair.2
  let neighbor_dist := route_length t neighbor
  let diff := neighbor_dist - st.dist
  let st1 : SaRhState :=
    if diff < 0 ∨ (st.temp > 0 ∧ acc = true) then
      if neighbor_dist < st.bestD then
        ⟨neighbor, neighbor_dist, neighbor, neighbor_dist, st.temp, 0⟩
      else
        ⟨neighbor, neighbor_dist, st.bestR, st.bestD, st.temp, st.cnt + 1⟩
    else
      ⟨st.route, st.dist, st.bestR, st.bestD, st.temp, st.cnt + 1⟩
  if reheat_threshold ≤ st1.cnt then
    ⟨st1.bestR, st1.bestD, st1.bestR, st1.bestD, initial_temp * reheat_factor, 0⟩
  else
    ⟨st1.route, st1.dist, st1.bestR, st1.bestD, st1.temp * alpha, st1.cnt⟩

/-- `sa_with_reheating`. -/
def sa_with_reheating (t : TSP) (temp alpha : ℚ) (iterations : ℕ)
    (neighborhood : String) (reheat_threshold : ℕ) (reheat_factor : ℚ)
    (init : List ℕ) (pairs : ℕ → ℕ × ℕ) (accs : ℕ → Bool) : List ℕ × ℚ :=
  let fin := (List.range iterations).foldl
    (fun st i => sa_reheat_iter t (NEIGHBORHOODS neighborhood) temp
      reheat_factor alpha reheat_threshold (pairs i) (accs i) st)
    ⟨init, route_length t init, init, route_length t init, temp, 0⟩
  (fin.bestR, fin.bestD)

def SaRhInv (t : TSP) (st : SaRhState) : Prop :=
  IsTour t.n st.route ∧ st.dist = route_length t st.route
  ∧ IsTour t.n st.bestR ∧ st.bestD = route_length t st.bestR

theorem sa_reheat_iter_inv (t : TSP) (name : String)
    (temp0 rf alpha : ℚ) (thr : ℕ) (pair : ℕ × ℕ) (hp : PairOk t.n pair)
    (acc : Bool) (st : SaRhState) (h : SaRhInv t st) :
    SaRhInv t (sa_reheat_iter t (NEIGHBORHOODS name) temp0 rf alpha thr
      pair acc st) := by
  obtain ⟨h1, h2, h3, h4⟩ := h
  have hnb : IsTour t.n (NEIGHBORHOODS name st.route pair.1 pair.2) :=
    NEIGHBORHOODS_tour name t st.route h1 pair.1 pair.2 (by
      obtain ⟨p1, p2⟩ := pair; exact hp)
  rw [sa_reheat_iter]
  split_ifs <;>
    exact ⟨by first | exact hnb | exact h1 | exact h3,
      by first | rfl | exact h2 | exact h4,
      by first | exact hnb | exact h3,
      by first | rfl | exact h4⟩

theorem sa_reheat_iter_best_mono (t : TSP) (mf : List ℕ → ℕ → ℕ → List ℕ)
    (temp0 rf alpha : ℚ) (thr : ℕ) (pair : ℕ × ℕ) (acc : Bool)
    (st : SaRhState) :
    (sa_reheat_iter t mf temp0 rf alpha thr pair acc st).bestD ≤ st.bestD := by
  rw [sa_reheat_iter]
  split_ifs with h1 h2 <;>
    first
      | exact le_refl _
      | exact le_of_lt (by assumption)

/-! ## Tabu Search (`src/algorithms/ts.py`)

Oracle parameters: `cpicks i j` is the pair drawn for candidate `j` of
iteration `i`. -/

/-- `deque(maxlen=tabu_size)` append: keep the most recent `maxlen`
entries, evicting from the front. -/
def tabuPush (maxlen : ℕ) (x : List ℕ) (q : List (List ℕ)) : List (List ℕ) :=
  let q2 := q ++ [x]
  q2.drop (q2.length - maxlen)

structure TsState where
  route : List ℕ
  dist : ℚ
  bestR : List ℕ
  bestD : ℚ
  tabu : List (List ℕ)
  cnt : ℕ

/-- The candidate-generation loop (`src/algorithms/ts.py` lines 77-91); the
`Option` result stands for `best_candidate = None` /
`best_candidate_dist = inf`.  The third component records
`best_candidate_tabu` (tracked but unused by the caller, as in the code). -/
def ts_candidates (t : TSP) (mf : List ℕ → ℕ → ℕ → List ℕ)
    (aspiration : Bool) (bestD : ℚ) (cur : List ℕ) (tabu : List (List ℕ))
    (cpick : ℕ → ℕ × ℕ) (cands : ℕ) : Option (List ℕ × ℚ × Bool) :=
  (List.range cands).foldl
    (fun bc j =>
      let candidate := mf cur (cpick j).1 (cpick j).2
      let is_tabu := candidate ∈ tabu
      let candidate_dist := route_length t candidate
      match bc with
      | none =>
        if ¬is_tabu ∨ (aspiration = true ∧ candidate_dist < bestD) then
          some (candidate, candidate_dist, decide is_tabu)
        else none
      | some p =>
        if candidate_dist < p.2.1 then
          if ¬is_tabu ∨ (aspiration = true ∧ candidate_dist < bestD) then
            some (candidate, candidate_dist, decide is_tabu)
          else some p
        else some p)
    none

/-- One iteration of the tabu-search main loop (lines 71-108). -/
def ts_step (t : TSP) (mf : List ℕ → ℕ → ℕ → List ℕ) (tabu_size : ℕ)
    (aspiration : Bool) (cands : ℕ) (cpick : ℕ → ℕ × ℕ) (st : TsState) :
    TsState :=
  match ts_candidates t mf aspiration st.bestD st.route st.tabu cpick cands with
  | some (cand, cd, _) =>
    let tabu2 := tabuPush tabu_size cand st.tabu
    if cd < st.bestD then ⟨cand, cd, cand, cd, tabu2, 0⟩
    else ⟨cand, cd, st.bestR, st.bestD, tabu2, st.cnt + 1⟩
  | none => ⟨st.route, st.dist, st.bestR, st.bestD, st.tabu, st.cnt + 1⟩

/-- The main loop with the no-improvement break (same Python truthiness as
in IHC: a limit of `0` never breaks). -/
def ts_loop (t : TSP) (mf : List ℕ → ℕ → ℕ → List ℕ) (tabu_size : ℕ)
    (aspiration : Bool) (cands : ℕ) (limit : Option ℕ)
    (cpicks : ℕ → ℕ → ℕ × ℕ) : ℕ → ℕ → TsState → TsState
  | 0, _, st => st
  | k + 1, i, st =>
    let st2 := ts_step t mf tabu_size aspiration cands (cpicks i) st
    if ihc_break limit st2.cnt then st2
    else ts_loop t mf tabu_size aspiration cands limit cpicks k (i + 1) st2

/-- `tabu_search` (`src/algorithms/ts.py` lines 18-114). -/
def tabu_search (t : TSP) (iterations tabu_size : ℕ) (neighborhood : String)
    (aspiration : Bool) (candidates_per_iter : ℕ)
    (no_improve_limit : Option ℕ) (use_nn_start : Bool) (init : List ℕ)
    (nn_start : ℕ) (cpicks : ℕ → ℕ → ℕ × ℕ) : List ℕ × ℚ :=
  let start := if use_nn_start then nearest_neighbor t nn_start
    else (init, route_length t init)
  let fin := ts_loop t (NEIGHBORHOODS neighborhood) tabu_size aspiration
    candidates_per_iter no_improve_limit cpicks iterations 0
    ⟨start.1, start.2, start.1, start.2, [], 0⟩
  (fin.bestR, fin.bestD)

/-! ### Tabu list size and FIFO behaviour -/

theorem tabuPush_length (maxlen : ℕ) (x : List ℕ) (q : List (List ℕ)) :
    (tabuPush maxlen x q).length ≤ max maxlen q.length := by
  simp only [tabuPush, List.length_drop, List.length_append,
    List.length_singleton]
  omega

/-- Starting from a list within capacity, a push stays within capacity. -/
theorem tabuPush_length_le (maxlen : ℕ) (x : List ℕ) (q : List (List ℕ))
    (h : q.length ≤ maxlen) : (tabuPush maxlen x q).length ≤ maxlen := by
  simp only [tabuPush, List.length_drop, List.length_append,
    List.length_singleton]
  omega

/-- When the deque is full, the oldest entry is evicted: the new list is the
tail of the old one with the new entry appended. -/
theorem tabuPush_full (maxlen : ℕ) (x : List ℕ) (q : List (List ℕ))
    (hm : 1 ≤ maxlen) (h : q.length = maxlen) :
    tabuPush maxlen x q = q.drop 1 ++ [x] := by
  have hlen : (q ++ [x]).length - maxlen = 1 := by
    rw [List.length_append, List.length_singleton]
    omega
  simp only [tabuPush]
  rw [hlen, List.drop_append_of_le_length (by omega)]

/-- When the deque is not yet full, nothing is evicted. -/
theorem tabuPush_not_full (maxlen : ℕ) (x : List ℕ) (q : List (List ℕ))
    (h : q.length < maxlen) : tabuPush maxlen x q = q ++ [x] := by
  have hlen : (q ++ [x]).length - maxlen = 0 := by
    rw [List.length_append, List.length_singleton]
    omega
  simp only [tabuPush]
  rw [hlen, List.drop_zero]

theorem tabuPush_zero (x : List ℕ) (q : List (List ℕ)) :
    tabuPush 0 x q = [] := by
  simp [tabuPush]

/-! ### Tabu search invariants -/

def TsInv (t : TSP) (st : TsState) : Prop :=
  IsTour t.n st.route ∧ st.dist = route_length t st.route
  ∧ IsTour t.n st.bestR ∧ st.bestD = route_length t st.bestR

theorem ts_candidates_sound (t : TSP) (name : String) (aspiration : Bool)
    (bestD : ℚ) (cur : List ℕ) (hcur : IsTour t.n cur)
    (tabu : List (List ℕ)) (cpick : ℕ → ℕ × ℕ)
    (hpick : ∀ j, PairOk t.n (cpick j)) (cands : ℕ) :
    ∀ p, ts_candidates t (NEIGHBORHOODS name) aspiration bestD cur tabu
        cpick cands = some p →
      IsTour t.n p.1 ∧ p.2.1 = route_length t p.1 := by
  rw [ts_candidates]
  have key : ∀ (L : List ℕ) (init : Option (List ℕ × ℚ × Bool)),
      (∀ p, init = some p → IsTour t.n p.1 ∧ p.2.1 = route_length t p.1) →
      ∀ p, L.foldl (fun bc j =>
          let candidate := NEIGHBORHOODS name cur (cpick j).1 (cpick j).2
          let is_tabu := candidate ∈ tabu
          let candidate_dist := route_length t candidate
          match bc with
          | none =>
            if ¬is_tabu ∨ (aspiration = true ∧ candidate_dist < bestD) then
              some (candidate, candidate_dist, decide is_tabu)
            else none
          | some p =>
            if candidate_dist < p.2.1 then
              if ¬is_tabu ∨ (aspiration = true ∧ candidate_dist < bestD) then
                some (candidate, candidate_dist, decide is_tabu)
              else some p
            else some p) init = some p →
        IsTour t.n p.1 ∧ p.2.1 = route_length t p.1 := by
    intro L
    induction L with
    | nil => intro init h p hp; exact h p hp
    | cons j L ih =>
      intro init h p hp
      rw [List.foldl_cons] at hp
      refine ih _ ?_ p hp
      intro q hq
      have htc : IsTour t.n (NEIGHBORHOODS name cur (cpick j).1 (cpick j).2) :=
        NEIGHBORHOODS_tour name t cur hcur (cpick j).1 (cpick j).2 (by
          have := hpick j
          rcases this with h2 | h2
          · exact Or.inl h2
          · exact Or.inr h2)
      cases init with
      | none =>
        dsimp only at hq
        split_ifs at hq
        · cases hq
          exact ⟨htc, rfl⟩
      | some pp =>
        dsimp only at hq
        split_ifs at hq
        · cases hq
          exact ⟨htc, rfl⟩
        · exact h q hq
        · exact h q hq
  exact key (List.range cands) none (fun p hp => by cases hp)

theorem ts_step_inv (t : TSP) (name : String) (tabu_size : ℕ)
    (aspiration : Bool) (cands : ℕ) (cpick : ℕ → ℕ × ℕ)
    (hpick : ∀ j, PairOk t.n (cpick j)) (st : TsState) (h : TsInv t st) :
    TsInv t (ts_step t (NEIGHBORHOODS name) tabu_size aspiration cands cpick st) := by
  obtain ⟨h1, h2, h3, h4⟩ := h
  rw [ts_step]
  rcases hcand : ts_candidates t (NEIGHBORHOODS name) aspiration st.bestD
      st.route st.tabu cpick cands with _ | ⟨cand, cd, bb⟩
  · exact ⟨h1, h2, h3, h4⟩
  · obtain ⟨hc1, hc2⟩ := ts_candidates_sound t name aspiration st.bestD
      st.route h1 st.tabu cpick hpick cands (cand, cd, bb) hcand
    dsimp only
    split_ifs
    · exact ⟨hc1, hc2, hc1, hc2⟩
    · exact ⟨hc1, hc2, h3, h4⟩

theorem ts_step_best_mono (t : TSP) (mf : List ℕ → ℕ → ℕ → List ℕ)
    (tabu_size : ℕ) (aspiration : Bool) (cands : ℕ) (cpick : ℕ → ℕ × ℕ)
    (st : TsState) :
    (ts_step t mf tabu_size aspiration cands cpick st).bestD ≤ st.bestD := by
  rw [ts_step]
  rcases ts_candidates t mf aspiration st.bestD st.route st.tabu cpick cands
    with _ | ⟨cand, cd, bb⟩
  · exact le_refl _
  · dsimp only
    split_ifs with hlt
    · exact le_of_lt hlt
    · exact le_refl _

theorem ts_step_tabu_le (t : TSP) (mf : List ℕ → ℕ → ℕ → List ℕ)
    (tabu_size : ℕ) (aspiration : Bool) (cands : ℕ) (cpick : ℕ → ℕ × ℕ)
    (st : TsState) (h : st.tabu.length ≤ tabu_size) :
    (ts_step t mf tabu_size aspiration cands cpick st).tabu.length
      ≤ tabu_size := by
  rw [ts_step]
  rcases ts_candidates t mf aspiration st.bestD st.route st.tabu cpick cands
    with _ | ⟨cand, cd, bb⟩
  · exact h
  · dsimp only
    split_ifs <;> exact tabuPush_length_le tabu_size _ _ h

theorem ts_loop_inv (t : TSP) (name : String) (tabu_size : ℕ)
    (aspiration : Bool) (cands : ℕ) (limit : Option ℕ)
    (cpicks : ℕ → ℕ → ℕ × ℕ) (hpicks : ∀ i j, PairOk t.n (cpicks i j)) :
    ∀ (k i : ℕ) (st : TsState), TsInv t st →
      TsInv t (ts_loop t (NEIGHBORHOODS name) tabu_size aspiration cands
        limit cpicks k i st) := by
  intro k
  induction k with
  | zero => intro i st h; exact h
  | succ k ih =>
    intro i st h
    rw [ts_loop]
    have h2 := ts_step_inv t name tabu_size aspiration cands (cpicks i)
      (hpicks i) st h
    split_ifs
    · exact h2
    · exact ih (i + 1) _ h2

theorem ts_loop_best_mono (t : TSP) (mf : List ℕ → ℕ → ℕ → List ℕ)
    (tabu_size : ℕ) (aspiration : Bool) (cands : ℕ) (limit : Option ℕ)
    (cpicks : ℕ → ℕ → ℕ × ℕ) :
    ∀ (k i : ℕ) (st : TsState),
      (ts_loop t mf tabu_size aspiration cands limit cpicks k i st).bestD
        ≤ st.bestD := by
  intro k
  induction k with
  | zero => intro i st; exact le_refl _
  | succ k ih =>
    intro i st
    rw [ts_loop]
    have h2 := ts_step_best_mono t mf tabu_size aspiration cands (cpicks i) st
    split_ifs
    · exact h2
    · exact le_trans (ih (i + 1) _) h2

theorem ts_loop_tabu_le (t : TSP) (mf : List ℕ → ℕ → ℕ → List ℕ)
    (tabu_size : ℕ) (aspiration : Bool) (cands : ℕ) (limit : Option ℕ)
    (cpicks : ℕ → ℕ → ℕ × ℕ) :
    ∀ (k i : ℕ) (st : TsState), st.tabu.length ≤ tabu_size →
      (ts_loop t mf tabu_size aspiration cands limit cpicks k i st).tabu.length
        ≤ tabu_size := by
  intro k
  induction k with
  | zero => intro i st h; exact h
  | succ k ih =>
    intro i st h
    rw [ts_loop]
    have h2 := ts_step_tabu_le t mf tabu_size aspiration cands (cpicks i) st h
    split_ifs
    · exact h2
    · exact ih (i + 1) _ h2

/-! ### Tabu size zero: the list stays empty and aspiration is irrelevant -/

theorem ts_candidates_empty_asp (t : TSP) (mf : List ℕ → ℕ → ℕ → List ℕ)
    (a1 a2 : Bool) (bestD : ℚ) (cur : List ℕ) (cpick : ℕ → ℕ × ℕ)
    (cands : ℕ) :
    ts_candidates t mf a1 bestD cur [] cpick cands
      = ts_candidates t mf a2 bestD cur [] cpick cands := by
  rw [ts_candidates, ts_candidates]
  have key : ∀ (bc : Option (List ℕ × ℚ × Bool)) (j : ℕ), (fun bc j =>
          let candidate := mf cur (cpick j).1 (cpick j).2
          let is_tabu := candidate ∈ ([] : List (List ℕ))
          let candidate_dist := route_length t candidate
          match bc with
          | none =>
            if ¬is_tabu ∨ (a1 = true ∧ candidate_dist < bestD) then
              some (candidate, candidate_dist, decide is_tabu)
            else none
          | some p =>
            if candidate_dist < p.2.1 then
              if ¬is_tabu ∨ (a1 = true ∧ candidate_dist < bestD) then
                some (candidate, candidate_dist, decide is_tabu)
              else some p
            else some p) bc j = (fun bc j =>
          let candidate := mf cur (cpick j).1 (cpick j).2
          let is_tabu := candidate ∈ ([] : List (List ℕ))
          let candidate_dist := route_length t candidate
          match bc with
          | none =>
            if ¬is_tabu ∨ (a2 = true ∧ candidate_dist < bestD) then
              some (candidate, candidate_dist, decide is_tabu)
            else none
          | some p =>
            if candidate_dist < p.2.1 then
              if ¬is_tabu ∨ (a2 = true ∧ candidate_dist < bestD) then
                some (candidate, candidate_dist, decide is_tabu)
              else some p
            else some p) bc j := by
    intro bc j
    cases bc with
    | none =>
      dsimp only
      rw [if_pos (Or.inl (List.not_mem_nil _)),
        if_pos (Or.inl (List.not_mem_nil _))]
    | some p =>
      dsimp only
      by_cases hlt : route_length t (mf cur (cpick j).1 (cpick j).2) < p.2.1
      · rw [if_pos hlt, if_pos hlt,
          if_pos (Or.inl (List.not_mem_nil _)),
          if_pos (Or.inl (List.not_mem_nil _))]
      · rw [if_neg hlt, if_neg hlt]
  exact congrArg (fun f => List.foldl f none (List.range cands))
    (funext fun bc => funext fun j => key bc j)

theorem ts_candidates_empty_flag (t : TSP) (mf : List ℕ → ℕ → ℕ → List ℕ)
    (asp : Bool) (bestD : ℚ) (cur : List ℕ) (cpick : ℕ → ℕ × ℕ) (cands : ℕ) :
    ∀ p, ts_candidates t mf asp bestD cur [] cpick cands = some p →
      p.2.2 = false := by
  rw [ts_candidates]
  have key : ∀ (L : List ℕ) (init : Option (List ℕ × ℚ × Bool)),
      (∀ p, init = some p → p.2.2 = false) →
      ∀ p, L.foldl (fun bc j =>
          let candidate := mf cur (cpick j).1 (cpick j).2
          let is_tabu := candidate ∈ ([] : List (List ℕ))
          let candidate_dist := route_length t candidate
          match bc with
          | none =>
            if ¬is_tabu ∨ (asp = true ∧ candidate_dist < bestD) then
              some (candidate, candidate_dist, decide is_tabu)
            else none
          | some p =>
            if candidate_dist < p.2.1 then
              if ¬is_tabu ∨ (asp = true ∧ candidate_dist < bestD) then
                some (candidate, candidate_dist, decide is_tabu)
              else some p
            else some p) init = some p →
        p.2.2 = false := by
    intro L
    induction L with
    | nil => intro init h p hp; exact h p hp
    | cons j L ih =>
      intro init h p hp
      rw [List.foldl_cons] at hp
      refine ih _ ?_ p hp
      intro q hq
      cases init with
      | none =>
        dsimp only at hq
        split_ifs at hq
        · cases hq
          simp
      | some pp =>
        dsimp only at hq
        split_ifs at hq
        · cases hq
          simp
        · exact h q hq
        · exact h q hq
  exact key (List.range cands) none (fun p hp => by cases hp)

theorem ts_step_zero_asp (t : TSP) (mf : List ℕ → ℕ → ℕ → List ℕ)
    (a1 a2 : Bool) (cands : ℕ) (cpick : ℕ → ℕ × ℕ) (st : TsState)
    (h : st.tabu = []) :
    ts_step t mf 0 a1 cands cpick st = ts_step t mf 0 a2 cands cpick st
      ∧ (ts_step t mf 0 a1 cands cpick st).tabu = [] := by
  rw [ts_step, ts_step, h,
    ts_candidates_empty_asp t mf a1 a2 st.bestD st.route cpick cands]
  rcases ts_candidates t mf a2 st.bestD st.route [] cpick cands with _ | ⟨c, cd, bb⟩
  · exact ⟨rfl, rfl⟩
  · dsimp only
    rw [tabuPush_zero]
    split_ifs <;> exact ⟨rfl, rfl⟩

theorem ts_loop_zero_asp (t : TSP) (mf : List ℕ → ℕ → ℕ → List ℕ)
    (a1 a2 : Bool) (cands : ℕ) (limit : Option ℕ) (cpicks : ℕ → ℕ → ℕ × ℕ) :
    ∀ (k i : ℕ) (st : TsState), st.tabu = [] →
      ts_loop t mf 0 a1 cands limit cpicks k i st
        = ts_loop t mf 0 a2 cands limit cpicks k i st
      ∧ (ts_loop t mf 0 a1 cands limit cpicks k i st).tabu = [] := by
  intro k
  induction k with
  | zero => intro i st h; exact ⟨rfl, h⟩
  | succ k ih =>
    intro i st h
    obtain ⟨heq, hemp⟩ := ts_step_zero_asp t mf a1 a2 cands (cpicks i) st h
    rw [ts_loop, ts_loop, heq]
    obtain ⟨heq2, hemp2⟩ := ih (i + 1) (ts_step t mf 0 a2 cands (cpicks i) st)
      (heq ▸ hemp)
    split_ifs
    · exact ⟨rfl, heq ▸ hemp⟩
    · exact ⟨heq2, hemp2⟩

/-- With `tabu_size = 0`, enabling or disabling aspiration leaves the run of
`tabu_search` unchanged. -/
theorem tabu_search_zero_asp (t : TSP) (iterations : ℕ) (name : String)
    (a1 a2 : Bool) (cands : ℕ) (limit : Option ℕ) (use_nn : Bool)
    (init : List ℕ) (nn_start : ℕ) (cpicks : ℕ → ℕ → ℕ × ℕ) :
    tabu_search t iterations 0 name a1 cands limit use_nn init nn_start cpicks
      = tabu_search t iterations 0 name a2 cands limit use_nn init nn_start
        cpicks := by
  rw [tabu_search, tabu_search]
  rw [(ts_loop_zero_asp t (NEIGHBORHOODS name) a1 a2 cands limit cpicks
    iterations 0 _ rfl).1]

/-! ### `tabu_search_diversification` (`src/algorithms/ts.py` lines 117-194)

The diversification phase calls `random.sample(range(n), 2)` without any
guard, which raises `ValueError` when `n < 2`; the embedding is therefore in
`Except String`.  `dpicks i j` is the pair drawn by perturbation swap `j` of
iteration `i`. -/

/-- The candidate loop of the diversification variant (lines 160-166): tabu
candidates are skipped entirely, there is no aspiration. -/
def tsd_candidates (t : TSP) (mf : List ℕ → ℕ → ℕ → List ℕ)
    (cur : List ℕ) (tabu : List (List ℕ)) (cpick : ℕ → ℕ × ℕ) :
    Option (List ℕ × ℚ) :=
  (List.range 20).foldl
    (fun bc j =>
      let candidate := mf cur (cpick j).1 (cpick j).2
      if candidate ∉ tabu then
        let d := route_length t candidate
        match bc with
        | none => some (candidate, d)
        | some p => if d < p.2 then some (candidate, d) else some p
      else bc)
    none

/-- `for _ in range(max(1, num_swaps)): a, b = random.sample(range(n), 2);
swap` — the unguarded sample raises when `n < 2`. -/
def tsd_perturb (n : ℕ) (dpick : ℕ → ℕ × ℕ) (count : ℕ) (route : List ℕ) :
    Except String (List ℕ) :=
  (List.range count).foldlM
    (fun r j =>
      if n < 2 then Except.error "ValueError: sample larger than population"
      else Except.ok
        ((r.set (dpick j).1 (r.getD (dpick j).2 0)).set (dpick j).2
          (r.getD (dpick j).1 0)))
    route

/-- One candidate-selection/acceptance step of the diversification variant.
Python's `if best_candidate:` is false both for `None` and for an empty
list, hence the explicit emptiness test. -/
def tsd_step (t : TSP) (mf : List ℕ → ℕ → ℕ → List ℕ) (tabu_size : ℕ)
    (cpick : ℕ → ℕ × ℕ) (st : TsState) : TsState :=
  match tsd_candidates t mf st.route st.tabu cpick with
  | some (cand, cd) =>
    if cand ≠ [] then
      let tabu2 := tabuPush tabu_size cand st.tabu
      if cd < st.bestD then ⟨cand, cd, cand, cd, tabu2, 0⟩
      else ⟨cand, cd, st.bestR, st.bestD, tabu2, st.cnt + 1⟩
    else ⟨st.route, st.dist, st.bestR, st.bestD, st.tabu, st.cnt + 1⟩
  | none => ⟨st.route, st.dist, st.bestR, st.bestD, st.tabu, st.cnt + 1⟩

/-- The main loop of `tabu_search_diversification`. -/
def tsd_loop (t : TSP) (mf : List ℕ → ℕ → ℕ → List ℕ) (tabu_size : ℕ)
    (thr : ℕ) (strength : ℚ) (cpicks : ℕ → ℕ → ℕ × ℕ)
    (dpicks : ℕ → ℕ → ℕ × ℕ) : ℕ → ℕ → TsState → Except String TsState
  | 0, _, st => Except.ok st
  | k + 1, i, st =>
    let st1 := tsd_step t mf tabu_size (cpicks i) st
    if thr ≤ st1.cnt then
      let num_swaps := (⌊(t.n : ℚ) * strength⌋).toNat
      match tsd_perturb t.n (dpicks i) (max 1 num_swaps) st1.route with
      | Except.error e => Except.error e
      | Except.ok rte =>
        tsd_loop t mf tabu_size thr strength cpicks dpicks k (i + 1)
          ⟨rte, route_length t rte, st1.bestR, st1.bestD, [], 0⟩
    else
      tsd_loop t mf tabu_size thr strength cpicks dpicks k (i + 1) st1

/-- `tabu_search_diversification`. -/
def tabu_search_diversification (t : TSP) (iterations tabu_size : ℕ)
    (neighborhood : String) (thr : ℕ) (strength : ℚ) (init : List ℕ)
    (cpicks dpicks : ℕ → ℕ → ℕ × ℕ) : Except String (List ℕ × ℚ) :=
  match tsd_loop t (NEIGHBORHOODS neighborhood) tabu_size thr strength cpicks
    dpicks iterations 0
    ⟨init, route_length t init, init, route_length t init, [], 0⟩ with
  | Except.error e => Except.error e
  | Except.ok fin => Except.ok (fin.bestR, fin.bestD)

theorem tsd_perturb_small (n : ℕ) (hn : n < 2) (dpick : ℕ → ℕ × ℕ)
    (count : ℕ) (hc : 1 ≤ count) (route : List ℕ) :
    tsd_perturb n dpick count route
      = Except.error "ValueError: sample larger than population" := by
  obtain ⟨c, rfl⟩ : ∃ c, count = c + 1 := ⟨count - 1, by omega⟩
  rw [tsd_perturb, List.range_succ_eq_map, List.foldlM_cons, if_pos hn]
  rfl

theorem tsd_candidates_n1 (t : TSP) (name : String) (st : TsState)
    (cpick : ℕ → ℕ × ℕ) (hroute : st.route = [0]) :
    ∀ p, tsd_candidates t (NEIGHBORHOODS name) st.route st.tabu cpick
        = some p →
      p = ([0], route_length t [0]) := by
  rw [tsd_candidates]
  have hmf : ∀ j, NEIGHBORHOODS name st.route (cpick j).1 (cpick j).2
      = [0] := by
    intro j
    rw [hroute, NEIGHBORHOODS_small name [0] _ _ (by simp)]
  have key : ∀ (L : List ℕ) (init : Option (List ℕ × ℚ)),
      (∀ p, init = some p → p = ([0], route_length t [0])) →
      ∀ p, L.foldl (fun bc j =>
          let candidate := NEIGHBORHOODS name st.route (cpick j).1 (cpick j).2
          if candidate ∉ st.tabu then
            let d := route_length t candidate
            match bc with
            | none => some (candidate, d)
            | some p => if d < p.2 then some (candidate, d) else some p
          else bc) init = some p →
        p = ([0], route_length t [0]) := by
    intro L
    induction L with
    | nil => intro init h p hp; exact h p hp
    | cons j L ihL =>
      intro init h p hp
      rw [List.foldl_cons] at hp
      refine ihL _ ?_ p hp
      intro q hq
      rw [hmf j] at hq
      cases init with
      | none =>
        dsimp only at hq
        split_ifs at hq
        all_goals first
          | exact Option.noConfusion hq
          | (cases hq; rfl)
      | some pp =>
        dsimp only at hq
        split_ifs at hq
        all_goals first
          | (cases hq; rfl)
          | exact h q hq
  exact key (List.range 20) none (fun p hp => by cases hp)

theorem tsd_step_n1 (t : TSP) (name : String) (tabu_size : ℕ)
    (cpick : ℕ → ℕ × ℕ) (st : TsState) (hroute : st.route = [0])
    (hbest : st.bestD = route_length t [0]) :
    (tsd_step t (NEIGHBORHOODS name) tabu_size cpick st).route = [0]
      ∧ (tsd_step t (NEIGHBORHOODS name) tabu_size cpick st).bestD
          = route_length t [0]
      ∧ (tsd_step t (NEIGHBORHOODS name) tabu_size cpick st).cnt
          = st.cnt + 1 := by
  rw [tsd_step]
  rcases hcand : tsd_candidates t (NEIGHBORHOODS name) st.route st.tabu cpick
    with _ | ⟨cand, cd⟩
  · exact ⟨hroute, hbest, rfl⟩
  · have heq := tsd_candidates_n1 t name st cpick hroute (cand, cd) hcand
    rw [Prod.mk.injEq] at heq
    obtain ⟨rfl, rfl⟩ := heq
    dsimp only
    rw [if_pos (by simp), if_neg (by rw [hbest]; exact lt_irrefl _)]
    exact ⟨rfl, hbest, rfl⟩

/-- On a single-city instance the diversification loop raises `ValueError`
once the stagnation threshold is reached. -/
theorem tsd_loop_error_n1 (t : TSP) (name : String) (tabu_size : ℕ)
    (thr : ℕ) (strength : ℚ) (cpicks dpicks : ℕ → ℕ → ℕ × ℕ)
    (hn : t.n = 1) :
    ∀ (k i : ℕ) (st : TsState), st.route = [0]
      → st.bestD = route_length t [0] → thr ≤ st.cnt + k → 1 ≤ k →
      tsd_loop t (NEIGHBORHOODS name) tabu_size thr strength cpicks dpicks
          k i st
        = Except.error "ValueError: sample larger than population" := by
  intro k
  induction k with
  | zero => intro i st _ _ _ h; omega
  | succ k ih =>
    intro i st hroute hbest hthr _
    obtain ⟨h1, h2, h3⟩ := tsd_step_n1 t name tabu_size (cpicks i) st hroute
      hbest
    rw [tsd_loop]
    by_cases hbr : thr
        ≤ (tsd_step t (NEIGHBORHOODS name) tabu_size (cpicks i) st).cnt
    · rw [if_pos hbr, h1]
      dsimp only
      rw [tsd_perturb_small t.n (by omega) (dpicks i) _ (le_max_left 1 _) [0]]
    · rw [if_neg hbr]
      rw [h3] at hbr
      exact ih (i + 1) _ h1 h2 (by omega) (by omega)

/-- The bare position-swap (`route[a], route[b] = route[b], route[a]`)
yields a permutation for in-range positions. -/
theorem set_swap_perm (r : List ℕ) (a b : ℕ) (ha : a < r.length)
    (hb : b < r.length) :
    ((r.set a (r.getD b 0)).set b (r.getD a 0)).Perm r := by
  rcases Nat.lt_trichotomy a b with h | h | h
  · exact swap_perm_lt r a b h hb
  · subst h
    rw [List.set_set, List.getD_eq_getElem r 0 ha, set_self_eq r a ha]
  · rw [List.set_comm _ _ r (Nat.ne_of_gt h)]
    exact swap_perm_lt r b a h ha

theorem tsd_perturb_perm (n : ℕ) (dpick : ℕ → ℕ × ℕ)
    (hd : ∀ j, n < 2 ∨ ((dpick j).1 < n ∧ (dpick j).2 < n)) :
    ∀ (count : ℕ) (r : List ℕ), r.length = n →
      ∀ r2, tsd_perturb n dpick count r = Except.ok r2 → r2.Perm r := by
  have step : ∀ (L : List ℕ) (r : List ℕ), r.length = n →
      ∀ r2, L.foldlM (fun r j =>
          if n < 2 then Except.error "ValueError: sample larger than population"
          else Except.ok
            ((r.set (dpick j).1 (r.getD (dpick j).2 0)).set (dpick j).2
              (r.getD (dpick j).1 0))) r = Except.ok r2 → r2.Perm r := by
    intro L
    induction L with
    | nil => intro r _ r2 h; cases h; exact List.Perm.refl r
    | cons j L ih =>
      intro r hlen r2 h
      rw [List.foldlM_cons] at h
      by_cases h2 : n < 2
      · rw [if_pos h2] at h
        exact Except.noConfusion h
      · rw [if_neg h2] at h
        have hdj := (hd j).resolve_left h2
        have hperm : ((r.set (dpick j).1 (r.getD (dpick j).2 0)).set (dpick j).2
            (r.getD (dpick j).1 0)).Perm r :=
          set_swap_perm r (dpick j).1 (dpick j).2 (by omega) (by omega)
        have hlen2 : ((r.set (dpick j).1 (r.getD (dpick j).2 0)).set (dpick j).2
            (r.getD (dpick j).1 0)).length = n := by
          rw [hperm.length_eq, hlen]
        exact (ih _ hlen2 r2 h).trans hperm
  intro count r hlen r2 h
  exact step (List.range count) r hlen r2 h

theorem tsd_candidates_sound (t : TSP) (name : String) (cur : List ℕ)
    (hcur : IsTour t.n cur) (tabu : List (List ℕ)) (cpick : ℕ → ℕ × ℕ)
    (hpick : ∀ j, PairOk t.n (cpick j)) :
    ∀ p, tsd_candidates t (NEIGHBORHOODS name) cur tabu cpick = some p →
      IsTour t.n p.1 ∧ p.2 = route_length t p.1 := by
  rw [tsd_candidates]
  have key : ∀ (L : List ℕ) (init : Option (List ℕ × ℚ)),
      (∀ p, init = some p → IsTour t.n p.1 ∧ p.2 = route_length t p.1) →
      ∀ p, L.foldl (fun bc j =>
          let candidate := NEIGHBORHOODS name cur (cpick j).1 (cpick j).2
          if candidate ∉ tabu then
            let d := route_length t candidate
            match bc with
            | none => some (candidate, d)
            | some p => if d < p.2 then some (candidate, d) else some p
          else bc) init = some p →
        IsTour t.n p.1 ∧ p.2 = route_length t p.1 := by
    intro L
    induction L with
    | nil => intro init h p hp; exact h p hp
    | cons j L ihL =>
      intro init h p hp
      rw [List.foldl_cons] at hp
      refine ihL _ ?_ p hp
      intro q hq
      have htc : IsTour t.n (NEIGHBORHOODS name cur (cpick j).1 (cpick j).2) :=
        NEIGHBORHOODS_tour name t cur hcur (cpick j).1 (cpick j).2 (hpick j)
      cases init with
      | none =>
        dsimp only at hq
        split_ifs at hq
        all_goals first
          | exact Option.noConfusion hq
          | (cases hq; exact ⟨htc, rfl⟩)
      | some pp =>
        dsimp only at hq
        split_ifs at hq
        all_goals first
          | (cases hq; exact ⟨htc, rfl⟩)
          | exact h q hq
  exact key (List.range 20) none (fun p hp => by cases hp)

theorem tsd_step_inv (t : TSP) (name : String) (tabu_size : ℕ)
    (cpick : ℕ → ℕ × ℕ) (hpick : ∀ j, PairOk t.n (cpick j)) (st : TsState)
    (h : TsInv t st) :
    TsInv t (tsd_step t (NEIGHBORHOODS name) tabu_size cpick st) := by
  obtain ⟨h1, h2, h3, h4⟩ := h
  rw [tsd_step]
  rcases hcand : tsd_candidates t (NEIGHBORHOODS name) st.route st.tabu cpick
    with _ | ⟨cand, cd⟩
  · exact ⟨h1, h2, h3, h4⟩
  · obtain ⟨hc1, hc2⟩ := tsd_candidates_sound t name st.route h1 st.tabu cpick
      hpick (cand, cd) hcand
    dsimp only
    split_ifs
    · exact ⟨hc1, hc2, hc1, hc2⟩
    · exact ⟨hc1, hc2, h3, h4⟩
    · exact ⟨h1, h2, h3, h4⟩

theorem tsd_step_best_mono (t : TSP) (mf : List ℕ → ℕ → ℕ → List ℕ)
    (tabu_size : ℕ) (cpick : ℕ → ℕ × ℕ) (st : TsState) :
    (tsd_step t mf tabu_size cpick st).bestD ≤ st.bestD := by
  rw [tsd_step]
  rcases tsd_candidates t mf st.route st.tabu cpick with _ | ⟨cand, cd⟩
  · exact le_refl _
  · dsimp only
    split_ifs with h1 h2
    · exact le_of_lt h2
    · exact le_refl _
    · exact le_refl _

theorem tsd_loop_inv (t : TSP) (name : String) (tabu_size thr : ℕ)
    (strength : ℚ) (cpicks dpicks : ℕ → ℕ → ℕ × ℕ)
    (hcp : ∀ i j, PairOk t.n (cpicks i j))
    (hdp : ∀ i j, t.n < 2 ∨ ((dpicks i j).1 < t.n ∧ (dpicks i j).2 < t.n)) :
    ∀ (k i : ℕ) (st : TsState), TsInv t st →
      ∀ fin, tsd_loop t (NEIGHBORHOODS name) tabu_size thr strength cpicks
          dpicks k i st = Except.ok fin →
        TsInv t fin ∧ fin.bestD ≤ st.bestD := by
  intro k
  induction k with
  | zero =>
    intro i st h fin hfin
    cases hfin
    exact ⟨h, le_refl _⟩
  | succ k ih =>
    intro i st h fin hfin
    rw [tsd_loop] at hfin
    have hst1 := tsd_step_inv t name tabu_size (cpicks i) (hcp i) st h
    have hmono := tsd_step_best_mono t (NEIGHBORHOODS name) tabu_size
      (cpicks i) st
    split_ifs at hfin
    · dsimp only at hfin
      rcases hpert : tsd_perturb t.n (dpicks i)
          (max 1 (⌊(t.n : ℚ) * strength⌋).toNat)
          (tsd_step t (NEIGHBORHOODS name) tabu_size (cpicks i) st).route
        with e | rte
      · rw [hpert] at hfin
        exact Except.noConfusion hfin
      · rw [hpert] at hfin
        have hlen : (tsd_step t (NEIGHBORHOODS name) tabu_size (cpicks i)
            st).route.length = t.n := by
          rw [hst1.1.length_eq, List.length_range]
        have hperm := tsd_perturb_perm t.n (dpicks i) (hdp i) _ _ hlen rte hpert
        have hinv2 : TsInv t ⟨rte, route_length t rte,
            (tsd_step t (NEIGHBORHOODS name) tabu_size (cpicks i) st).bestR,
            (tsd_step t (NEIGHBORHOODS name) tabu_size (cpicks i) st).bestD,
            [], 0⟩ :=
          ⟨hperm.trans hst1.1, rfl, hst1.2.2.1, hst1.2.2.2⟩
        obtain ⟨hf1, hf2⟩ := ih (i + 1) _ hinv2 fin hfin
        exact ⟨hf1, le_trans hf2 hmono⟩
    · obtain ⟨hf1, hf2⟩ := ih (i + 1) _ hst1 fin hfin
      exact ⟨hf1, le_trans hf2 hmono⟩

/-! ## Genetic Algorithm (`src/algorithms/ga.py`)

The probabilistic draws `random.random() < p_cross` / `< p_mut` and the
selection draws become `Bool` / index oracles (the probabilities only shape
the distribution, which no claim depends on). -/

/-- `tournament_selection` (lines 259-263).  `idxs` is the index list drawn
by `random.sample(range(len(pop)), min(k, len(pop)))`; `min` on an empty
sequence raises. -/
def tournament_selection (pop : List (List ℕ)) (costs : List ℚ)
    (idxs : List ℕ) : Except String (List ℕ) :=
  match idxs with
  | [] => Except.error "ValueError: min() arg is an empty sequence"
  | i0 :: rest =>
    let winner := rest.foldl
      (fun w i => if costs.getD i 0 < costs.getD w 0 then i else w) i0
    Except.ok (pop.getD winner [])

/-- `roulette_selection` (lines 266-273).  Every fitness weight
`max_c - c + 1` is at least 1, so `random.choices` can return any index;
the draw is the oracle `ri` reduced mod the population size.  `max` on an
empty sequence raises. -/
def roulette_selection (pop : List (List ℕ)) (_costs : List ℚ) (ri : ℕ) :
    Except String (List ℕ) :=
  match pop with
  | [] => Except.error "ValueError: max() arg is an empty sequence"
  | _ :: _ => Except.ok (pop.getD (ri % pop.length) [])

/-- `ranking_selection` (lines 276-286).  Every rank weight is positive, so
any index can be drawn; `random.choices` on an empty population raises. -/
def ranking_selection (pop : List (List ℕ)) (_costs : List ℚ) (ri : ℕ) :
    Except String (List ℕ) :=
  match pop with
  | [] => Except.error "ValueError: empty population"
  | _ :: _ => Except.ok (pop.getD (ri % pop.length) [])

/-- `order_crossover` (lines 291-312).  `child[a:b] = p1[a:b]` and the
remaining positions are filled, in order, from `p2_remaining`; filling the
`None` prefix `[0,a)` and suffix `[b,size)` left to right yields exactly
`rem.take a ++ seg ++ rem.drop a`. -/
def order_crossover (p1 p2 : List ℕ) (a0 b0 : ℕ) : List ℕ :=
  if p1.length < 2 then p1
  else
    let a := min a0 b0
    let b := max a0 b0
    let seg := (p1.drop a).take (b - a)
    let rem := p2.filter (fun x => ¬ x ∈ seg)
    rem.take a ++ seg ++ rem.drop a

/-- The PMX mapping chain: starting from `idx = p2.index(p1[i])`, repeat
`idx ← p2.index(p1[idx])` while `idx` lies in the copied segment `[a, b)`.
The fuel `size + 1` suffices for permutation parents (`pmx_chase_exits`);
Python loops forever where the fuel would run out. -/
def pmx_chase (p1 p2 : List ℕ) (a b : ℕ) : ℕ → ℕ → ℕ
  | 0, idx => idx
  | fuel + 1, idx =>
    if a ≤ idx ∧ idx < b then
      pmx_chase p1 p2 a b fuel (p2.indexOf (p1.getD idx 0))
    else idx

/-- `pmx_crossover` (lines 315-342), on an explicit `Option`-valued child
array; `some x ∈ slice` is Python's `x in child[a:b]` (no entry equals
`None`). -/
def pmx_crossover (p1 p2 : List ℕ) (a0 b0 : ℕ) : List ℕ :=
  let size := p1.length
  if size < 2 then p1
  else
    let a := min a0 b0
    let b := max a0 b0
    let seg := (p1.drop a).take (b - a)
    let child0 : List (Option ℕ) :=
      List.replicate a none ++ seg.map some ++ List.replicate (size - b) none
    let child1 := (List.range (b - a)).foldl
      (fun c j =>
        let i := a + j
        if some (p2.getD i 0) ∈ (c.drop a).take (b - a) then c
        else
          let idx := pmx_chase p1 p2 a b (size + 1)
            (p2.indexOf (p1.getD i 0))
          c.set idx (some (p2.getD i 0)))
      child0
    let child2 := (List.range size).foldl
      (fun c i => if c.getD i none = none then c.set i (some (p2.getD i 0))
        else c)
      child1
    child2.map (fun o => o.getD 0)

/-- The inner cycle-following loop of `cycle_crossover`: fill `child[idx]`
while it is `None`, then follow `p1.index(p2[idx])`; each pass fills one
position, so fuel `size + 1` always suffices. -/
def cx_inner (p1 p2 : List ℕ) (cycle : ℕ) : ℕ → ℕ → List (Option ℕ) →
    List (Option ℕ)
  | 0, _, c => c
  | fuel + 1, idx, c =>
    if c.getD idx none = none then
      let c2 := c.set idx
        (some (if cycle % 2 = 0 then p1.getD idx 0 else p2.getD idx 0))
      let v := p2.getD idx 0
      if v ∈ p1 then cx_inner p1 p2 cycle fuel (p1.indexOf v) c2 else c2
    else c

/-- The outer `while None in child` loop; each iteration fills at least the
first `None` position, so fuel `size + 1` always suffices. -/
def cx_outer (p1 p2 : List ℕ) : ℕ → ℕ → List (Option ℕ) → List (Option ℕ)
  | 0, _, c => c
  | fuel + 1, cycle, c =>
    if none ∈ c then
      let c2 := cx_inner p1 p2 cycle (p1.length + 1) (c.indexOf none) c
      cx_outer p1 p2 fuel (cycle + 1) c2
    else c

/-- `cycle_crossover` (lines 345-373). -/
def cycle_crossover (p1 p2 : List ℕ) : List ℕ :=
  (cx_outer p1 p2 (p1.length + 1) 0 (List.replicate p1.length none)).map
    (fun o => o.getD 0)

/-- Crossover dispatch (`crossover_funcs.get(..., order_crossover)`); the
pair oracle is unused by `"cx"`. -/
def crossover_f (crossover_type : String) (p1 p2 : List ℕ) (pair : ℕ × ℕ) :
    List ℕ :=
  if crossover_type = "pmx" then pmx_crossover p1 p2 pair.1 pair.2
  else if crossover_type = "cx" then cycle_crossover p1 p2
  else order_crossover p1 p2 pair.1 pair.2

/-- Mutation dispatch (`mutation_funcs.get(..., swap)`; `"inversion"` is
`two_opt`). -/
def mutation_f (mutation_type : String) (r : List ℕ) (pair : ℕ × ℕ) :
    List ℕ :=
  if mutation_type = "insert" then insert r pair.1 pair.2
  else if mutation_type = "inversion" then two_opt r pair.1 pair.2
  else swap r pair.1 pair.2

/-- Selection dispatch (`selection_funcs.get(..., tournament)`). -/
def select_f (selection_type : String) (pop : List (List ℕ))
    (costs : List ℚ) (tsel : List ℕ) (ri : ℕ) : Except String (List ℕ) :=
  if selection_type = "roulette" then roulette_selection pop costs ri
  else if selection_type = "ranking" then ranking_selection pop costs ri
  else tournament_selection pop costs tsel

/-- The random draws consumed by one `genetic_algorithm` run. -/
structure GaRand where
  inits : ℕ → List ℕ
  crossB : ℕ → ℕ → Bool
  crossP : ℕ → ℕ → ℕ × ℕ
  mutB : ℕ → ℕ → Bool
  mutP : ℕ → ℕ → ℕ × ℕ
  tsel : ℕ → ℕ → ℕ → List ℕ
  rsel : ℕ → ℕ → ℕ → ℕ

/-- Producing one child (selection, crossover with probability `p_cross`,
mutation with probability `p_mut`) at generation `gen`, child index `c`. -/
def ga_child (selection_type crossover_type mutation_type : String)
    (R : GaRand) (pop : List (List ℕ)) (costs : List ℚ) (gen c : ℕ) :
    Except String (List ℕ) := do
  let p1 ← select_f selection_type pop costs (R.tsel gen c 0) (R.rsel gen c 0)
  let p2 ← select_f selection_type pop costs (R.tsel gen c 1) (R.rsel gen c 1)
  let child := if R.crossB gen c then
      crossover_f crossover_type p1 p2 (R.crossP gen c)
    else p1
  let child := if R.mutB gen c then mutation_f mutation_type child (R.mutP gen c)
    else child
  return child

/-- One generation (`src/algorithms/ga.py` lines 103-140): evaluate, update
the global best, carry the elite, then fill with children. -/
def ga_generation (t : TSP) (pop_size elitism : ℕ)
    (selection_type crossover_type mutation_type : String) (R : GaRand)
    (st : List (List ℕ) × Option (List ℕ × ℚ)) (gen : ℕ) :
    Except String (List (List ℕ) × Option (List ℕ × ℚ)) := do
  let population := st.1
  let costs := population.map (route_length t)
  let best2 := (population.zip costs).foldl (fun b pc => updBest pc b) st.2
  let elite_indices := ((List.range costs.length).mergeSort
    (fun i j => costs.getD i 0 ≤ costs.getD j 0)).take elitism
  let elite := elite_indices.map (fun i => population.getD i [])
  let children ← (List.range (pop_size - elite.length)).mapM
    (fun c => ga_child selection_type crossover_type mutation_type R
      population costs gen c)
  return ((elite ++ children).take pop_size, best2)

/-- `genetic_algorithm` (lines 26-142).  The population is seeded with
`min(5, n)` nearest-neighbor tours when `use_nn_start`, then filled with
shuffled permutations (`R.inits`). -/
def genetic_algorithm (t : TSP) (pop_size generations : ℕ)
    (selection_type crossover_type mutation_type : String)
    (elitism : ℕ) (use_nn_start : Bool) (R : GaRand) :
    Except String (Option (List ℕ × ℚ)) := do
  let nnpart := if use_nn_start then
      (List.range (min 5 t.n)).map (fun s => (nearest_neighbor t s).1)
    else []
  let pop0 := nnpart ++ (List.range (pop_size - nnpart.length)).map R.inits
  let fin ← (List.range generations).foldlM
    (fun st gen => ga_generation t pop_size elitism selection_type
      crossover_type mutation_type R st gen)
    (pop0, (none : Option (List ℕ × ℚ)))
  return fin.2

/-- One child of `ga_adaptive_mutation` (lines 208-229): the selection
falls back to ranking, the crossover to CX, crossover is applied
unconditionally and the mutation is always `swap`. -/
def ga_adaptive_child (selection_type crossover_type : String) (R : GaRand)
    (pop : List (List ℕ)) (costs : List ℚ) (gen c : ℕ) :
    Except String (List ℕ) := do
  let sel := fun k =>
    if selection_type = "tournament" then
      tournament_selection pop costs (R.tsel gen c k)
    else if selection_type = "roulette" then
      roulette_selection pop costs (R.rsel gen c k)
    else ranking_selection pop costs (R.rsel gen c k)
  let p1 ← sel 0
  let p2 ← sel 1
  let child :=
    if crossover_type = "ox" then order_crossover p1 p2 (R.crossP gen c).1
      (R.crossP gen c).2
    else if crossover_type = "pmx" then pmx_crossover p1 p2 (R.crossP gen c).1
      (R.crossP gen c).2
    else cycle_crossover p1 p2
  let child := if R.mutB gen c then swap child (R.mutP gen c).1 (R.mutP gen c).2
    else child
  return child

/-- `ga_adaptive_mutation` (lines 145-233).  The adaptive `p_mut` only
scales the mutation probability, which the `mutB` oracle absorbs, so the
diversity bookkeeping does not appear in the embedded state. -/
def ga_adaptive_mutation (t : TSP) (pop_size generations : ℕ)
    (selection_type crossover_type : String) (use_nn_start : Bool)
    (R : GaRand) : Except String (Option (List ℕ × ℚ)) := do
  let nnpart := if use_nn_start then
      (List.range (min 5 t.n)).map (fun s => (nearest_neighbor t s).1)
    else []
  let pop0 := nnpart ++ (List.range (pop_size - nnpart.length)).map R.inits
  let fin ← (List.range generations).foldlM
    (fun st gen => do
      let population := st.1
      let costs := population.map (route_length t)
      let best2 := (population.zip costs).foldl (fun b pc => updBest pc b) st.2
      let elite_indices := ((List.range costs.length).mergeSort
        (fun i j => costs.getD i 0 ≤ costs.getD j 0)).take 2
      let elite := elite_indices.map (fun i => population.getD i [])
      let children ← (List.range (pop_size - elite.length)).mapM
        (fun c => ga_adaptive_child selection_type crossover_type R
          population costs gen c)
      return (((elite ++ children).take pop_size,
        best2) : List (List ℕ) × Option (List ℕ × ℚ)))
    (pop0, (none : Option (List ℕ × ℚ)))
  return fin.2

/-! ### Crossover validity: shared tools -/

/-- `getD` after `set` at a different index. -/
theorem getD_set_ne {α : Type} (c : List α) (i j : ℕ) (v d : α)
    (hne : i ≠ j) : (c.set i v).getD j d = c.getD j d := by
  simp [List.getD_eq_getElem?_getD, List.getElem?_set_ne hne]

/-- `getD` after `set` at the same (in-range) index. -/
theorem getD_set_self {α : Type} (c : List α) (i : ℕ) (v d : α)
    (hi : i < c.length) : (c.set i v).getD i d = v := by
  simp [List.getD_eq_getElem?_getD, List.getElem?_set_self hi]

theorem getD_mem (l : List ℕ) (i : ℕ) (h : i < l.length) : l.getD i 0 ∈ l := by
  rw [List.getD_eq_getElem _ _ h]; exact List.getElem_mem h

theorem getD_indexOf (l : List ℕ) (v : ℕ) (h : v ∈ l) :
    l.getD (l.indexOf v) 0 = v := by
  rw [List.getD_eq_getElem _ _ (List.indexOf_lt_length.mpr h)]
  exact List.getElem_indexOf _

theorem indexOf_getD (l : List ℕ) (h : l.Nodup) (i : ℕ) (hi : i < l.length) :
    l.indexOf (l.getD i 0) = i := by
  rw [List.getD_eq_getElem _ _ hi]
  exact List.indexOf_getElem h i hi

/-- `child.index(None)` finds an in-range position holding `None`. -/
theorem indexOf_none_spec (c : List (Option ℕ)) (h : none ∈ c) :
    c.indexOf none < c.length ∧ c.getD (c.indexOf none) none = none := by
  induction c with
  | nil => cases h
  | cons x c ih =>
    match x with
    | none =>
      exact ⟨by simp [List.indexOf_cons], by simp [List.indexOf_cons]⟩
    | some v =>
      have hm : none ∈ c := by
        rcases List.mem_cons.mp h with h | h
        · exact absurd h (by simp)
        · exact h
      have hi := ih hm
      constructor
      · simpa [List.indexOf_cons, Nat.succ_lt_succ_iff] using hi.1
      · simpa [List.indexOf_cons] using hi.2

/-- Counting argument: a list of the right length whose members are exactly
the members of a duplicate-free list is a permutation of it. -/
theorem perm_of_cover (r base : List ℕ) (hnd : base.Nodup)
    (hlen : r.length = base.length) (hsub : ∀ v ∈ r, v ∈ base)
    (hsup : ∀ v ∈ base, v ∈ r) : r.Perm base := by
  have hfs : r.toFinset = base.toFinset := by
    ext v
    simp only [List.mem_toFinset]
    exact ⟨hsub v, hsup v⟩
  have hcard : r.dedup.length = r.length := by
    have h1 : r.dedup.length = r.toFinset.card := (List.card_toFinset r).symm
    rw [h1, hfs, List.toFinset_card_of_nodup hnd, hlen]
  have hndr : r.Nodup := by
    have h2 := (List.dedup_sublist r).eq_of_length hcard
    rw [← h2]
    exact List.nodup_dedup r
  exact List.perm_of_nodup_nodup_toFinset_eq hndr hnd hfs

/-- Reassembling `rem.take a ++ seg ++ rem.drop a` from the filtered
remainder of `p2` gives a permutation of `p2`. -/
theorem ox_assemble_perm (p2 seg : List ℕ) (a : ℕ) (hseg_nd : seg.Nodup)
    (hsub : ∀ v ∈ seg, v ∈ p2) (hnd2 : p2.Nodup) :
    ((p2.filter (fun x => ¬ x ∈ seg)).take a ++ seg ++
      (p2.filter (fun x => ¬ x ∈ seg)).drop a).Perm p2 := by
  set rem := p2.filter (fun x => ¬ x ∈ seg) with hrem
  have h1 : (rem.take a ++ seg ++ rem.drop a).Perm (rem ++ seg) := by
    have p : (rem.take a ++ (seg ++ rem.drop a)).Perm
        (rem.take a ++ (rem.drop a ++ seg)) :=
      List.Perm.append_left _ List.perm_append_comm
    have e : rem.take a ++ (rem.drop a ++ seg) = rem ++ seg := by
      rw [← List.append_assoc, List.take_append_drop]
    rw [List.append_assoc]
    rw [e] at p
    exact p
  have hrem2 : rem = p2.filter (fun x => !(decide (x ∈ seg))) := by
    rw [hrem]
    simp only [decide_not]
  have h2 : (p2.filter (fun x => x ∈ seg) ++ rem).Perm p2 := by
    rw [hrem2]
    exact List.filter_append_perm _ p2
  have h3 : (p2.filter (fun x => x ∈ seg)).Perm seg := by
    refine List.perm_of_nodup_nodup_toFinset_eq (hnd2.filter _) hseg_nd ?_
    ext v
    simp only [List.mem_toFinset, List.mem_filter, decide_eq_true_eq]
    exact ⟨fun hv => hv.2, fun hv => ⟨hsub v hv, hv⟩⟩
  exact h1.trans (((List.Perm.append_left rem h3.symm).trans
    List.perm_append_comm).trans h2)

/-- `order_crossover` on duplicate-free parents over the same city set
returns a permutation of the first parent. -/
theorem order_crossover_perm (p1 p2 : List ℕ) (hp : p1.Perm p2)
    (hnd : p1.Nodup) (a0 b0 : ℕ) :
    (order_crossover p1 p2 a0 b0).Perm p1 := by
  unfold order_crossover
  by_cases hlen : p1.length < 2
  · simp [hlen]
  · simp only [if_neg hlen]
    have hsl : ((p1.drop (min a0 b0)).take (max a0 b0 - min a0 b0)).Sublist
        p1 := (List.take_sublist _ _).trans (List.drop_sublist _ _)
    exact (ox_assemble_perm p2 _ (min a0 b0) (hsl.nodup hnd)
      (fun v hv => hp.mem_iff.mp (hsl.mem hv)) (hp.nodup hnd)).trans hp.symm

/-! ### Position maps and their orbits

Both the CX cycle-following loop (`idx ← p1.index(p2[idx])`) and the PMX
mapping chain (`idx ← p2.index(p1[idx])`) iterate the map
`j ↦ u.index(v[j])` for a pair of parent permutations `u`, `v`.  On
parents over the same city set this map is an injection of `[0,n)` into
itself, hence every point is periodic, which is what terminates both
loops. -/

/-- `u.index(v[j])`: the position in `u` of the value at position `j` of
`v`. -/
def posMap (u v : List ℕ) (j : ℕ) : ℕ := u.indexOf (v.getD j 0)

theorem posMap_lt (u v : List ℕ) (hp : u.Perm v) (j : ℕ)
    (hj : j < v.length) : posMap u v j < u.length :=
  List.indexOf_lt_length.mpr (hp.mem_iff.mpr (getD_mem v j hj))

theorem posMap_getD (u v : List ℕ) (hp : u.Perm v) (j : ℕ)
    (hj : j < v.length) : u.getD (posMap u v j) 0 = v.getD j 0 :=
  getD_indexOf u _ (hp.mem_iff.mpr (getD_mem v j hj))

theorem posMap_inj (u v : List ℕ) (hp : u.Perm v) (hnd : u.Nodup)
    (j1 j2 : ℕ) (h1 : j1 < v.length) (h2 : j2 < v.length)
    (he : posMap u v j1 = posMap u v j2) : j1 = j2 := by
  have hv : v.Nodup := hp.nodup hnd
  have e1 := posMap_getD u v hp j1 h1
  have e2 := posMap_getD u v hp j2 h2
  rw [he, e2] at e1
  have e3 := indexOf_getD v hv j1 h1
  rw [← e1, indexOf_getD v hv j2 h2] at e3
  exact e3.symm

theorem iterate_lt (g : ℕ → ℕ) (n : ℕ) (hb : ∀ j, j < n → g j < n)
    (i : ℕ) (hi : i < n) (k : ℕ) : g^[k] i < n := by
  induction k with
  | zero => simpa using hi
  | succ k ih =>
    rw [Function.iterate_succ_apply']
    exact hb _ ih

theorem iterate_inj (g : ℕ → ℕ) (n : ℕ) (hb : ∀ j, j < n → g j < n)
    (hinj : ∀ j1 j2, j1 < n → j2 < n → g j1 = g j2 → j1 = j2)
    (k x y : ℕ) (hx : x < n) (hy : y < n) (h : g^[k] x = g^[k] y) :
    x = y := by
  induction k with
  | zero => simpa using h
  | succ k ih =>
    rw [Function.iterate_succ_apply', Function.iterate_succ_apply'] at h
    exact ih (hinj _ _ (iterate_lt g n hb x hx k)
      (iterate_lt g n hb y hy k) h)

/-- Every point below `n` is periodic under an injection of `[0,n)` into
itself, with period at most `n` (pigeonhole). -/
theorem exists_return (g : ℕ → ℕ) (n : ℕ) (hb : ∀ j, j < n → g j < n)
    (hinj : ∀ j1 j2, j1 < n → j2 < n → g j1 = g j2 → j1 = j2)
    (i : ℕ) (hi : i < n) : ∃ m, 1 ≤ m ∧ m ≤ n ∧ g^[m] i = i := by
  have hmap : ∀ k ∈ Finset.range (n + 1), g^[k] i ∈ Finset.range n :=
    fun k _ => Finset.mem_range.mpr (iterate_lt g n hb i hi k)
  have hcard : (Finset.range n).card < (Finset.range (n + 1)).card := by
    simp
  obtain ⟨x, hx, y, hy, hxy, hfe⟩ :=
    Finset.exists_ne_map_eq_of_card_lt_of_maps_to hcard hmap
  rw [Finset.mem_range] at hx hy
  rcases lt_or_gt_of_ne hxy with hlt | hlt
  · have hadd : g^[x + (y - x)] i = g^[x] (g^[y - x] i) :=
      Function.iterate_add_apply g x (y - x) i
    rw [show x + (y - x) = y by omega] at hadd
    have := iterate_inj g n hb hinj x i (g^[y - x] i) hi
      (iterate_lt g n hb i hi _) (by rw [hfe, hadd])
    exact ⟨y - x, by omega, by omega, this.symm⟩
  · have hadd : g^[y + (x - y)] i = g^[y] (g^[x - y] i) :=
      Function.iterate_add_apply g y (x - y) i
    rw [show y + (x - y) = x by omega] at hadd
    have := iterate_inj g n hb hinj y i (g^[x - y] i) hi
      (iterate_lt g n hb i hi _) (by rw [← hfe, hadd])
    exact ⟨x - y, by omega, by omega, this.symm⟩

/-- Distinct iteration exponents below a minimal period reach distinct
positions. -/
theorem orbit_distinct (g : ℕ → ℕ) (n : ℕ) (hb : ∀ j, j < n → g j < n)
    (hinj : ∀ j1 j2, j1 < n → j2 < n → g j1 = g j2 → j1 = j2)
    (i0 : ℕ) (hi0 : i0 < n) (m0 : ℕ) (_hret : g^[m0] i0 = i0)
    (hmin : ∀ l, 1 ≤ l → l < m0 → g^[l] i0 ≠ i0)
    (u v : ℕ) (hu : u < m0) (hv : v < m0) (he : g^[u] i0 = g^[v] i0) :
    u = v := by
  rcases lt_trichotomy u v with hlt | heq | hlt
  · exfalso
    have hadd : g^[u + (v - u)] i0 = g^[u] (g^[v - u] i0) :=
      Function.iterate_add_apply g u (v - u) i0
    rw [show u + (v - u) = v by omega] at hadd
    have := iterate_inj g n hb hinj u i0 (g^[v - u] i0) hi0
      (iterate_lt g n hb i0 hi0 _) (by rw [he, hadd])
    exact hmin (v - u) (by omega) (by omega) this.symm
  · exact heq
  · exfalso
    have hadd : g^[v + (u - v)] i0 = g^[v] (g^[u - v] i0) :=
      Function.iterate_add_apply g v (u - v) i0
    rw [show v + (u - v) = u by omega] at hadd
    have := iterate_inj g n hb hinj v i0 (g^[u - v] i0) hi0
      (iterate_lt g n hb i0 hi0 _) (by rw [← he, hadd])
    exact hmin (u - v) (by omega) (by omega) this.symm

theorem iterate_period (g : ℕ → ℕ) (i0 m0 : ℕ) (hret : g^[m0] i0 = i0)
    (q : ℕ) : g^[q * m0] i0 = i0 := by
  induction q with
  | zero => simp
  | succ q ih =>
    have : g^[q * m0 + m0] i0 = g^[q * m0] (g^[m0] i0) :=
      Function.iterate_add_apply g (q * m0) m0 i0
    rw [show (q + 1) * m0 = q * m0 + m0 by ring, this, hret, ih]

/-- If the filled positions of `c` are closed under `g` and `i0` is
unfilled, then the whole (periodic) orbit of `i0` is unfilled. -/
theorem orbit_unfilled (g : ℕ → ℕ) (n : ℕ) (hb : ∀ j, j < n → g j < n)
    (c : List (Option ℕ))
    (hcl : ∀ j, j < n → c.getD j none ≠ none → c.getD (g j) none ≠ none)
    (i0 : ℕ) (hi0 : i0 < n) (m0 : ℕ) (hm0 : 1 ≤ m0)
    (hret : g^[m0] i0 = i0) (hun : c.getD i0 none = none) (l : ℕ) :
    c.getD (g^[l] i0) none = none := by
  by_contra hne
  have hstep : ∀ s, c.getD (g^[l + s] i0) none ≠ none := by
    intro s
    induction s with
    | zero => simpa using hne
    | succ s ih =>
      have : g^[l + (s + 1)] i0 = g (g^[l + s] i0) := by
        rw [show l + (s + 1) = (l + s) + 1 by omega,
          Function.iterate_succ_apply']
      rw [this]
      exact hcl _ (iterate_lt g n hb i0 hi0 _) ih
  have hcover : l + (l * m0 - l) = l * m0 := by
    have : l ≤ l * m0 := Nat.le_mul_of_pos_right l hm0
    omega
  have := hstep (l * m0 - l)
  rw [hcover, iterate_period g i0 m0 hret l] at this
  exact this hun

/-! ### Cycle crossover: the inner walk fills one complete cycle -/

/-- The value `cycle_crossover` writes at a position: `p1[idx]` on even
cycles, `p2[idx]` on odd ones. -/
def cxVal (p1 p2 : List ℕ) (cycle : ℕ) (j : ℕ) : Option ℕ :=
  some (if cycle % 2 = 0 then p1.getD j 0 else p2.getD j 0)

/-- The state of `c` after the walk from `i0` has filled its first `k`
positions `i0, g i0, …, g^[k-1] i0`. -/
def walkFill (g : ℕ → ℕ) (val : ℕ → Option ℕ) (i0 : ℕ)
    (c : List (Option ℕ)) : ℕ → List (Option ℕ)
  | 0 => c
  | k + 1 => (walkFill g val i0 c k).set (g^[k] i0) (val (g^[k] i0))

theorem walkFill_length (g : ℕ → ℕ) (val : ℕ → Option ℕ) (i0 : ℕ)
    (c : List (Option ℕ)) (k : ℕ) :
    (walkFill g val i0 c k).length = c.length := by
  induction k with
  | zero => rfl
  | succ k ih => rw [walkFill, List.length_set, ih]

theorem walkFill_getD_notin (g : ℕ → ℕ) (val : ℕ → Option ℕ) (i0 : ℕ)
    (c : List (Option ℕ)) (k j : ℕ) (hj : ∀ l, l < k → g^[l] i0 ≠ j) :
    (walkFill g val i0 c k).getD j none = c.getD j none := by
  induction k with
  | zero => rfl
  | succ k ih =>
    rw [walkFill, getD_set_ne _ _ _ _ _ (hj k (Nat.lt_succ_self k))]
    exact ih (fun l hl => hj l (hl.trans (Nat.lt_succ_self k)))

theorem walkFill_getD_in (g : ℕ → ℕ) (val : ℕ → Option ℕ) (i0 : ℕ)
    (c : List (Option ℕ)) (k l : ℕ) (hl : l < k)
    (hdist : ∀ u v, u < k → v < k → g^[u] i0 = g^[v] i0 → u = v)
    (hbound : g^[l] i0 < c.length) :
    (walkFill g val i0 c k).getD (g^[l] i0) none = val (g^[l] i0) := by
  induction k with
  | zero => omega
  | succ k ih =>
    by_cases hlk : l = k
    · subst hlk
      rw [walkFill, getD_set_self]
      rw [walkFill_length]
      exact hbound
    · have hlk' : l < k := by omega
      have hne : g^[k] i0 ≠ g^[l] i0 := fun he => by
        have := hdist k l (Nat.lt_succ_self k)
          (hlk'.trans (Nat.lt_succ_self k)) he
        omega
      rw [walkFill, getD_set_ne _ _ _ _ _ hne]
      exact ih hlk' (fun u v hu hv he =>
        hdist u v (hu.trans (Nat.lt_succ_self k))
          (hv.trans (Nat.lt_succ_self k)) he)

/-- The number of unfilled (`None`) positions of the child array. -/
def noneCount (c : List (Option ℕ)) : ℕ :=
  ((Finset.range c.length).filter (fun j => c.getD j none = none)).card

theorem noneCount_pos (c : List (Option ℕ)) (h : none ∈ c) :
    0 < noneCount c := by
  obtain ⟨h1, h2⟩ := indexOf_none_spec c h
  exact Finset.card_pos.mpr ⟨c.indexOf none,
    Finset.mem_filter.mpr ⟨Finset.mem_range.mpr h1, by simpa using h2⟩⟩

theorem noneCount_lt (c c2 : List (Option ℕ)) (hlen : c2.length = c.length)
    (hmono : ∀ j, j < c.length → c2.getD j none = none →
      c.getD j none = none)
    (j0 : ℕ) (hj0 : j0 < c.length) (hc : c.getD j0 none = none)
    (hc2 : c2.getD j0 none ≠ none) :
    noneCount c2 < noneCount c := by
  apply Finset.card_lt_card
  rw [Finset.ssubset_def]
  constructor
  · intro j hj
    rw [Finset.mem_filter, Finset.mem_range, hlen] at hj
    rw [Finset.mem_filter, Finset.mem_range]
    exact ⟨hj.1, hmono j hj.1 hj.2⟩
  · intro hsub
    have hin : j0 ∈ (Finset.range c2.length).filter
        (fun j => c2.getD j none = none) := by
      apply hsub
      exact Finset.mem_filter.mpr
        ⟨Finset.mem_range.mpr hj0, by simpa using hc⟩
    rw [Finset.mem_filter] at hin
    exact hc2 hin.2

/-- Running the CX inner loop from the `k`-th position of the walk
completes the cycle: with the first `k` walk positions already filled it
reaches the state where the whole cycle of `i0` is filled, stopping upon
returning to `i0`. -/
theorem cx_inner_run (p1 p2 : List ℕ) (hp : p1.Perm p2) (hnd : p1.Nodup)
    (cycle : ℕ) (c : List (Option ℕ)) (hclen : c.length = p1.length)
    (i0 : ℕ) (hi0 : i0 < p1.length) (m0 : ℕ) (hm0 : 1 ≤ m0)
    (hret : (posMap p1 p2)^[m0] i0 = i0)
    (hmin : ∀ l, 1 ≤ l → l < m0 → (posMap p1 p2)^[l] i0 ≠ i0)
    (horb : ∀ l, c.getD ((posMap p1 p2)^[l] i0) none = none) :
    ∀ fuel k, k ≤ m0 → m0 - k ≤ fuel →
      cx_inner p1 p2 cycle fuel ((posMap p1 p2)^[k] i0)
        (walkFill (posMap p1 p2) (cxVal p1 p2 cycle) i0 c k) =
      walkFill (posMap p1 p2) (cxVal p1 p2 cycle) i0 c m0 := by
  have hb : ∀ j, j < p1.length → posMap p1 p2 j < p1.length := fun j hj =>
    posMap_lt p1 p2 hp j (by rw [← hp.length_eq]; exact hj)
  have hinj : ∀ j1 j2, j1 < p1.length → j2 < p1.length →
      posMap p1 p2 j1 = posMap p1 p2 j2 → j1 = j2 := fun j1 j2 h1 h2 he =>
    posMap_inj p1 p2 hp hnd j1 j2 (by rw [← hp.length_eq]; exact h1)
      (by rw [← hp.length_eq]; exact h2) he
  have hdist := orbit_distinct (posMap p1 p2) p1.length hb hinj i0 hi0 m0
    hret hmin
  have hfill : (walkFill (posMap p1 p2) (cxVal p1 p2 cycle) i0 c m0).getD
      i0 none = cxVal p1 p2 cycle i0 := by
    have h0 := walkFill_getD_in (posMap p1 p2) (cxVal p1 p2 cycle) i0 c m0
      0 hm0 hdist (by simpa [hclen] using hi0)
    simpa using h0
  intro fuel
  induction fuel with
  | zero =>
    intro k hk hfuel
    have hkm : k = m0 := by omega
    subst hkm
    rfl
  | succ fuel ih =>
    intro k hk hfuel
    by_cases hkm : k = m0
    · subst hkm
      rw [hret, cx_inner]
      rw [if_neg (by rw [hfill]; simp [cxVal])]
    · have hklt : k < m0 := by omega
      have hbound : (posMap p1 p2)^[k] i0 < p1.length :=
        iterate_lt _ _ hb i0 hi0 k
      have hnone : (walkFill (posMap p1 p2) (cxVal p1 p2 cycle) i0
          c k).getD ((posMap p1 p2)^[k] i0) none = none := by
        rw [walkFill_getD_notin _ _ _ _ _ _ (fun l hl he => by
          have := hdist l k (hl.trans hklt) hklt he
          omega)]
        exact horb k
      rw [cx_inner]
      rw [if_pos hnone]
      dsimp only
      have hv : p2.getD ((posMap p1 p2)^[k] i0) 0 ∈ p1 :=
        hp.mem_iff.mpr (getD_mem p2 _ (by rw [← hp.length_eq]; exact hbound))
      rw [if_pos hv]
      have e1 : p1.indexOf (p2.getD ((posMap p1 p2)^[k] i0) 0) =
          (posMap p1 p2)^[k + 1] i0 := by
        rw [Function.iterate_succ_apply']
        rfl
      rw [e1]
      exact ih (k + 1) (by omega) (by omega)

/-- The invariant `cycle_crossover` maintains between outer-loop passes:
the child has the parents' size, every filled value is the first parent's
value at some filled position, every filled position's first-parent value
appears somewhere, and the filled set is closed under the cycle map. -/
def CxInv (p1 p2 : List ℕ) (c : List (Option ℕ)) : Prop :=
  c.length = p1.length
  ∧ (∀ j, j < p1.length → c.getD j none ≠ none →
      ∃ q, q < p1.length ∧ c.getD q none ≠ none ∧
        c.getD j none = some (p1.getD q 0))
  ∧ (∀ q, q < p1.length → c.getD q none ≠ none →
      ∃ j, j < p1.length ∧ c.getD j none = some (p1.getD q 0))
  ∧ (∀ j, j < p1.length → c.getD j none ≠ none →
      c.getD (posMap p1 p2 j) none ≠ none)

/-- Filling one complete cycle preserves the `cycle_crossover` invariant,
never unfills a position, and fills the starting position. -/
theorem cx_walk_all (p1 p2 : List ℕ) (hp : p1.Perm p2) (hnd : p1.Nodup)
    (cycle : ℕ) (c : List (Option ℕ)) (hinv : CxInv p1 p2 c)
    (i0 : ℕ) (hi0 : i0 < p1.length) (m0 : ℕ) (hm0 : 1 ≤ m0)
    (hret : (posMap p1 p2)^[m0] i0 = i0)
    (hmin : ∀ l, 1 ≤ l → l < m0 → (posMap p1 p2)^[l] i0 ≠ i0)
    (horb : ∀ l, c.getD ((posMap p1 p2)^[l] i0) none = none) :
    CxInv p1 p2 (walkFill (posMap p1 p2) (cxVal p1 p2 cycle) i0 c m0) ∧
    (∀ j, (walkFill (posMap p1 p2) (cxVal p1 p2 cycle) i0 c m0).getD j
      none = none → c.getD j none = none) ∧
    (walkFill (posMap p1 p2) (cxVal p1 p2 cycle) i0 c m0).getD i0 none ≠
      none := by
  have hb : ∀ j, j < p1.length → posMap p1 p2 j < p1.length := fun j hj =>
    posMap_lt p1 p2 hp j (by rw [← hp.length_eq]; exact hj)
  have hinj : ∀ j1 j2, j1 < p1.length → j2 < p1.length →
      posMap p1 p2 j1 = posMap p1 p2 j2 → j1 = j2 := fun j1 j2 h1 h2 he =>
    posMap_inj p1 p2 hp hnd j1 j2 (by rw [← hp.length_eq]; exact h1)
      (by rw [← hp.length_eq]; exact h2) he
  have hdist := orbit_distinct (posMap p1 p2) p1.length hb hinj i0 hi0 m0
    hret hmin
  have hitlt : ∀ l, (posMap p1 p2)^[l] i0 < p1.length := fun l =>
    iterate_lt _ _ hb i0 hi0 l
  have R1 : ∀ l, l < m0 →
      (walkFill (posMap p1 p2) (cxVal p1 p2 cycle) i0 c m0).getD
        ((posMap p1 p2)^[l] i0) none =
      cxVal p1 p2 cycle ((posMap p1 p2)^[l] i0) := fun l hl =>
    walkFill_getD_in _ _ i0 c m0 l hl hdist
      (by rw [hinv.1]; exact hitlt l)
  have R2 : ∀ j, (∀ l, l < m0 → (posMap p1 p2)^[l] i0 ≠ j) →
      (walkFill (posMap p1 p2) (cxVal p1 p2 cycle) i0 c m0).getD j none =
      c.getD j none := fun j hj =>
    walkFill_getD_notin _ _ i0 c m0 j hj
  have hkeep : ∀ q, c.getD q none ≠ none →
      (walkFill (posMap p1 p2) (cxVal p1 p2 cycle) i0 c m0).getD q none =
      c.getD q none := fun q hq =>
    R2 q (fun l _ he => hq (he ▸ horb l))
  have horbW : ∀ l, l < m0 →
      (walkFill (posMap p1 p2) (cxVal p1 p2 cycle) i0 c m0).getD
        ((posMap p1 p2)^[l] i0) none ≠ none := fun l hl => by
    rw [R1 l hl]
    simp [cxVal]
  have hsucc : ∀ l, posMap p1 p2 ((posMap p1 p2)^[l] i0) =
      (posMap p1 p2)^[l + 1] i0 := fun l =>
    (Function.iterate_succ_apply' (posMap p1 p2) l i0).symm
  have hwrap : ∀ l, l < m0 → ∃ l2, l2 < m0 ∧
      (posMap p1 p2)^[l2] i0 = (posMap p1 p2)^[l + 1] i0 := by
    intro l hl
    rcases Nat.lt_or_ge (l + 1) m0 with h | h
    · exact ⟨l + 1, h, rfl⟩
    · have he : l + 1 = m0 := by omega
      refine ⟨0, hm0, ?_⟩
      rw [he, hret]
      simp
  have hvodd : ∀ l, cycle % 2 ≠ 0 →
      cxVal p1 p2 cycle ((posMap p1 p2)^[l] i0) =
      some (p1.getD ((posMap p1 p2)^[l + 1] i0) 0) := by
    intro l hpar
    rw [← hsucc l,
      posMap_getD p1 p2 hp _ (by rw [← hp.length_eq]; exact hitlt l)]
    simp [cxVal, hpar]
  refine ⟨⟨?_, ?_, ?_, ?_⟩, ?_, ?_⟩
  · rw [walkFill_length, hinv.1]
  · -- every filled value is p1 at a filled position
    intro j hj hjf
    by_cases horbj : ∃ l, l < m0 ∧ (posMap p1 p2)^[l] i0 = j
    · obtain ⟨l, hl, rfl⟩ := horbj
      by_cases hpar : cycle % 2 = 0
      · exact ⟨(posMap p1 p2)^[l] i0, hj, horbW l hl, by
          rw [R1 l hl]; simp [cxVal, hpar]⟩
      · obtain ⟨l2, hl2, he2⟩ := hwrap l hl
        refine ⟨(posMap p1 p2)^[l2] i0, hitlt l2, horbW l2 hl2, ?_⟩
        rw [R1 l hl, hvodd l hpar, he2]
    · push_neg at horbj
      rw [R2 j horbj] at hjf ⊢
      obtain ⟨q, hq, hqf, hv⟩ := hinv.2.1 j hj hjf
      exact ⟨q, hq, by rw [hkeep q hqf]; exact hqf, hv⟩
  · -- every filled position's p1-value appears
    intro q hq hqf
    by_cases horbq : ∃ l, l < m0 ∧ (posMap p1 p2)^[l] i0 = q
    · obtain ⟨l, hl, rfl⟩ := horbq
      by_cases hpar : cycle % 2 = 0
      · exact ⟨(posMap p1 p2)^[l] i0, hq, by
          rw [R1 l hl]; simp [cxVal, hpar]⟩
      · have hpred : ∃ lp, lp < m0 ∧
            (posMap p1 p2)^[lp + 1] i0 = (posMap p1 p2)^[l] i0 := by
          rcases Nat.eq_zero_or_pos l with h0 | h0
          · refine ⟨m0 - 1, by omega, ?_⟩
            rw [show m0 - 1 + 1 = m0 by omega, hret, h0]
            simp
          · exact ⟨l - 1, by omega, by
              rw [show l - 1 + 1 = l by omega]⟩
        obtain ⟨lp, hlp, hpe⟩ := hpred
        refine ⟨(posMap p1 p2)^[lp] i0, hitlt lp, ?_⟩
        rw [R1 lp hlp, hvodd lp hpar, hpe]
    · push_neg at horbq
      rw [R2 q horbq] at hqf
      obtain ⟨j, hjlt, hv⟩ := hinv.2.2.1 q hq hqf
      exact ⟨j, hjlt, by rw [hkeep j (by rw [hv]; simp)]; exact hv⟩
  · -- filled positions stay closed under the cycle map
    intro j hj hjf
    by_cases horbj : ∃ l, l < m0 ∧ (posMap p1 p2)^[l] i0 = j
    · obtain ⟨l, hl, rfl⟩ := horbj
      obtain ⟨l2, hl2, he2⟩ := hwrap l hl
      rw [hsucc l, ← he2]
      exact horbW l2 hl2
    · push_neg at horbj
      rw [R2 j horbj] at hjf
      have hcf := hinv.2.2.2 j hj hjf
      rw [hkeep _ hcf]
      exact hcf
  · -- no position is unfilled by the walk
    intro j hjn
    by_cases horbj : ∃ l, l < m0 ∧ (posMap p1 p2)^[l] i0 = j
    · obtain ⟨l, hl, rfl⟩ := horbj
      exact absurd hjn (horbW l hl)
    · push_neg at horbj
      rw [R2 j horbj] at hjn
      exact hjn
  · -- the walk fills its starting position
    have h0 := horbW 0 hm0
    simpa using h0

/-- The outer `while None in child` loop preserves the invariant and,
given fuel at least the number of unfilled positions, fills every
position. -/
theorem cx_outer_inv (p1 p2 : List ℕ) (hp : p1.Perm p2) (hnd : p1.Nodup) :
    ∀ fuel cycle c, CxInv p1 p2 c → noneCount c ≤ fuel →
      CxInv p1 p2 (cx_outer p1 p2 fuel cycle c) ∧
      ¬ none ∈ cx_outer p1 p2 fuel cycle c := by
  have hb : ∀ j, j < p1.length → posMap p1 p2 j < p1.length := fun j hj =>
    posMap_lt p1 p2 hp j (by rw [← hp.length_eq]; exact hj)
  have hinj : ∀ j1 j2, j1 < p1.length → j2 < p1.length →
      posMap p1 p2 j1 = posMap p1 p2 j2 → j1 = j2 := fun j1 j2 h1 h2 he =>
    posMap_inj p1 p2 hp hnd j1 j2 (by rw [← hp.length_eq]; exact h1)
      (by rw [← hp.length_eq]; exact h2) he
  intro fuel
  induction fuel with
  | zero =>
    intro cycle c hinv hcnt
    refine ⟨hinv, fun hmem => ?_⟩
    have := noneCount_pos c hmem
    omega
  | succ fuel ih =>
    intro cycle c hinv hcnt
    rw [cx_outer]
    by_cases hmem : none ∈ c
    · rw [if_pos hmem]
      obtain ⟨hi0lt, hi0none⟩ := indexOf_none_spec c hmem
      have hi0 : c.indexOf none < p1.length := by
        rw [← hinv.1]
        exact hi0lt
      have hPex : ∃ m, 1 ≤ m ∧
          (posMap p1 p2)^[m] (c.indexOf none) = c.indexOf none := by
        obtain ⟨m, hm1, _, hm3⟩ :=
          exists_return (posMap p1 p2) p1.length hb hinj (c.indexOf none)
            hi0
        exact ⟨m, hm1, hm3⟩
      have hm0spec := Nat.find_spec hPex
      have hm0le : Nat.find hPex ≤ p1.length := by
        obtain ⟨m, hm1, hm2, hm3⟩ :=
          exists_return (posMap p1 p2) p1.length hb hinj (c.indexOf none)
            hi0
        exact le_trans (Nat.find_min' hPex ⟨hm1, hm3⟩) hm2
      have hmin : ∀ l, 1 ≤ l → l < Nat.find hPex →
          (posMap p1 p2)^[l] (c.indexOf none) ≠ c.indexOf none :=
        fun l h1 hl he => Nat.find_min hPex hl ⟨h1, he⟩
      have horb : ∀ l, c.getD ((posMap p1 p2)^[l] (c.indexOf none)) none =
          none :=
        orbit_unfilled (posMap p1 p2) p1.length hb c hinv.2.2.2
          (c.indexOf none) hi0 (Nat.find hPex) hm0spec.1 hm0spec.2 hi0none
      have hrun := cx_inner_run p1 p2 hp hnd cycle c hinv.1
        (c.indexOf none) hi0 (Nat.find hPex) hm0spec.1 hm0spec.2 hmin horb
        (p1.length + 1) 0 (Nat.zero_le _) (by omega)
      simp only [Function.iterate_zero_apply] at hrun
      rw [show walkFill (posMap p1 p2) (cxVal p1 p2 cycle) (c.indexOf none)
        c 0 = c from rfl] at hrun
      rw [hrun]
      obtain ⟨hinv2, hmono, hfilled⟩ := cx_walk_all p1 p2 hp hnd cycle c
        hinv (c.indexOf none) hi0 (Nat.find hPex) hm0spec.1 hm0spec.2 hmin
        horb
      apply ih (cycle + 1) _ hinv2
      have hlt := noneCount_lt c _
        (by rw [walkFill_length])
        (fun j _ hj => hmono j hj)
        (c.indexOf none) hi0lt hi0none hfilled
      omega
    · rw [if_neg hmem]
      exact ⟨hinv, hmem⟩

/-- `cycle_crossover` on duplicate-free parents over the same city set
returns a permutation of the first parent. -/
theorem cycle_crossover_perm (p1 p2 : List ℕ) (hp : p1.Perm p2)
    (hnd : p1.Nodup) : (cycle_crossover p1 p2).Perm p1 := by
  unfold cycle_crossover
  have hrep : ∀ j, (List.replicate p1.length (none : Option ℕ)).getD j
      none = none := by
    intro j
    rw [List.getD_eq_getElem?_getD, List.getElem?_replicate]
    split <;> rfl
  have hinv0 : CxInv p1 p2 (List.replicate p1.length none) := by
    refine ⟨List.length_replicate _ _, ?_, ?_, ?_⟩
    · intro j _ hjf
      exact absurd (hrep j) hjf
    · intro q _ hqf
      exact absurd (hrep q) hqf
    · intro j _ hjf
      exact absurd (hrep j) hjf
  have hcnt : noneCount (List.replicate p1.length none) ≤ p1.length + 1 := by
    have h1 : noneCount (List.replicate p1.length (none : Option ℕ)) ≤
        (List.replicate p1.length (none : Option ℕ)).length := by
      unfold noneCount
      calc ((Finset.range (List.replicate p1.length
            (none : Option ℕ)).length).filter
            (fun j => (List.replicate p1.length (none : Option ℕ)).getD j
              none = none)).card
          ≤ (Finset.range (List.replicate p1.length
            (none : Option ℕ)).length).card := Finset.card_filter_le _ _
        _ = _ := Finset.card_range _
    rw [List.length_replicate] at h1
    omega
  obtain ⟨hinvF, hnoneF⟩ := cx_outer_inv p1 p2 hp hnd (p1.length + 1) 0 _
    hinv0 hcnt
  apply perm_of_cover _ p1 hnd
  · rw [List.length_map, hinvF.1]
  · intro v hv
    obtain ⟨o, ho, rfl⟩ := List.mem_map.mp hv
    obtain ⟨j, hjlt, hje⟩ := List.getElem_of_mem ho
    have hjlt2 : j < p1.length := by rw [← hinvF.1]; exact hjlt
    have hfill : (cx_outer p1 p2 (p1.length + 1) 0
        (List.replicate p1.length none)).getD j none ≠ none := by
      rw [List.getD_eq_getElem _ _ hjlt, hje]
      intro ho2
      rw [ho2] at ho
      exact hnoneF ho
    obtain ⟨q, hq, _, hval⟩ := hinvF.2.1 j hjlt2 hfill
    rw [List.getD_eq_getElem _ _ hjlt, hje] at hval
    rw [hval]
    exact getD_mem p1 q hq
  · intro v hv
    have hq : p1.indexOf v < p1.length := List.indexOf_lt_length.mpr hv
    have hfill : (cx_outer p1 p2 (p1.length + 1) 0
        (List.replicate p1.length none)).getD (p1.indexOf v) none ≠
        none := by
      have hlt : p1.indexOf v < (cx_outer p1 p2 (p1.length + 1) 0
          (List.replicate p1.length none)).length := by
        rw [hinvF.1]
        exact hq
      rw [List.getD_eq_getElem _ _ hlt]
      intro ho2
      apply hnoneF
      nth_rewrite 2 [← ho2]
      exact List.getElem_mem hlt
    obtain ⟨j, hjlt, hval⟩ := hinvF.2.2.1 (p1.indexOf v) hq hfill
    rw [getD_indexOf p1 v hv] at hval
    apply List.mem_map.mpr
    have hjlt2 : j < (cx_outer p1 p2 (p1.length + 1) 0
        (List.replicate p1.length none)).length := by
      rw [hinvF.1]
      exact hjlt
    refine ⟨some v, ?_, rfl⟩
    rw [← hval, List.getD_eq_getElem _ _ hjlt2]
    exact List.getElem_mem hjlt2

/-! ### PMX crossover -/

/-- Reading a contiguous slice `c[a:a+t]` at offset `j`. -/
theorem getD_take_drop {α : Type} (c : List α) (d : α) (a t j : ℕ)
    (hj : j < t) (hbound : a + j < c.length) :
    ((c.drop a).take t).getD j d = c.getD (a + j) d := by
  have h1 : j < ((c.drop a).take t).length := by
    rw [List.length_take, List.length_drop]
    exact lt_inf_iff.mpr ⟨hj, by omega⟩
  rw [List.getD_eq_getElem _ _ h1, List.getElem_take, List.getElem_drop,
    List.getD_eq_getElem _ _ hbound]

/-- Membership in a contiguous slice `c[a:b]`, position-wise. -/
theorem mem_take_drop_iff {α : Type} (c : List α) (d : α) (a b : ℕ)
    (hble : b ≤ c.length) (v : α) :
    v ∈ (c.drop a).take (b - a) ↔
    ∃ l, a ≤ l ∧ l < b ∧ c.getD l d = v := by
  constructor
  · intro hv
    obtain ⟨j, hj, he⟩ := List.mem_iff_getElem.mp hv
    have hjlen : j < b - a := by
      rw [List.length_take, List.length_drop] at hj
      exact lt_of_lt_of_le hj inf_le_left
    refine ⟨a + j, by omega, by omega, ?_⟩
    rw [← List.getD_eq_getElem _ d hj] at he
    rw [← he, getD_take_drop c d a (b - a) j hjlen (by omega)]
  · rintro ⟨l, hla, hlb, he⟩
    rw [List.mem_iff_getElem]
    have hlen : l - a < ((c.drop a).take (b - a)).length := by
      rw [List.length_take, List.length_drop]
      exact lt_inf_iff.mpr ⟨by omega, by omega⟩
    refine ⟨l - a, hlen, ?_⟩
    rw [← List.getD_eq_getElem _ d hlen,
      getD_take_drop c d a (b - a) (l - a) (by omega) (by omega),
      show a + (l - a) = l by omega]
    exact he

theorem seg_length (p1 : List ℕ) (a b : ℕ) (hab : a ≤ b)
    (hble : b ≤ p1.length) :
    ((p1.drop a).take (b - a)).length = b - a := by
  rw [List.length_take, List.length_drop, inf_eq_left.mpr (by omega)]

theorem seg_getD (p1 : List ℕ) (a b : ℕ) (hble : b ≤ p1.length) (l : ℕ)
    (hla : a ≤ l) (hlb : l < b) :
    ((p1.drop a).take (b - a)).getD (l - a) 0 = p1.getD l 0 := by
  rw [getD_take_drop p1 0 a (b - a) (l - a) (by omega) (by omega),
    show a + (l - a) = l by omega]

theorem map_some_getD (s : List ℕ) (j : ℕ) (hj : j < s.length) :
    (s.map some).getD j none = some (s.getD j 0) := by
  rw [List.getD_eq_getElem _ _ (by simpa using hj), List.getElem_map,
    List.getD_eq_getElem _ _ hj]

theorem child0_getD_left (s : List (Option ℕ)) (a r j : ℕ) (hj : j < a) :
    ((List.replicate a (none : Option ℕ) ++ s) ++
      List.replicate r none).getD j none = none := by
  rw [List.getD_eq_getElem?_getD, List.getElem?_append_left
    (by rw [List.length_append, List.length_replicate]; omega),
    List.getElem?_append_left (by rw [List.length_replicate]; exact hj),
    List.getElem?_replicate, if_pos hj]
  rfl

theorem child0_getD_mid (s : List (Option ℕ)) (a r j : ℕ) (hja : a ≤ j)
    (hjs : j - a < s.length) :
    ((List.replicate a (none : Option ℕ) ++ s) ++
      List.replicate r none).getD j none = s.getD (j - a) none := by
  rw [List.getD_eq_getElem?_getD, List.getElem?_append_left
    (by rw [List.length_append, List.length_replicate]; omega),
    List.getElem?_append_right
      (by rw [List.length_replicate]; exact hja),
    List.length_replicate, List.getD_eq_getElem?_getD]

theorem child0_getD_right (s : List (Option ℕ)) (a r j : ℕ)
    (hj : a + s.length ≤ j) :
    ((List.replicate a (none : Option ℕ) ++ s) ++
      List.replicate r none).getD j none = none := by
  rw [List.getD_eq_getElem?_getD, List.getElem?_append_right
    (by rw [List.length_append, List.length_replicate]; omega),
    List.getElem?_replicate]
  split <;> rfl

/-- The `x in child[a:b]` guard reads the intact copied segment. -/
theorem pmx_guard_iff (p1 : List ℕ) (c : List (Option ℕ)) (a b : ℕ)
    (hab : a ≤ b) (hbn : b ≤ p1.length) (hlen : c.length = p1.length)
    (hseg : ∀ l, a ≤ l → l < b → c.getD l none = some (p1.getD l 0))
    (v : ℕ) :
    (some v ∈ (c.drop a).take (b - a)) ↔ v ∈ (p1.drop a).take (b - a) := by
  rw [mem_take_drop_iff c none a b (by omega) (some v),
    mem_take_drop_iff p1 0 a b hbn v]
  constructor
  · rintro ⟨l, h1, h2, he⟩
    refine ⟨l, h1, h2, ?_⟩
    rw [hseg l h1 h2] at he
    exact Option.some.inj he
  · rintro ⟨l, h1, h2, he⟩
    exact ⟨l, h1, h2, by rw [hseg l h1 h2, he]⟩

/-- The PMX mapping chain follows the iterates of `j ↦ p2.index(p1[j])`
and stops at the first iterate outside the copied segment. -/
theorem pmx_chase_spec (p1 p2 : List ℕ) (a b i m : ℕ)
    (hin : ∀ l, 1 ≤ l → l < m →
      a ≤ (posMap p2 p1)^[l] i ∧ (posMap p2 p1)^[l] i < b)
    (hout : ¬(a ≤ (posMap p2 p1)^[m] i ∧ (posMap p2 p1)^[m] i < b)) :
    ∀ fuel k, 1 ≤ k → k ≤ m → m - k ≤ fuel →
      pmx_chase p1 p2 a b fuel ((posMap p2 p1)^[k] i) =
      (posMap p2 p1)^[m] i := by
  intro fuel
  induction fuel with
  | zero =>
    intro k hk1 hkm hfuel
    have : k = m := by omega
    subst this
    rfl
  | succ fuel ih =>
    intro k hk1 hkm hfuel
    by_cases hkm2 : k = m
    · subst hkm2
      rw [pmx_chase, if_neg hout]
    · have hklt : k < m := by omega
      rw [pmx_chase, if_pos (hin k hk1 hklt)]
      have e1 : p2.indexOf (p1.getD ((posMap p2 p1)^[k] i) 0) =
          (posMap p2 p1)^[k + 1] i := by
        rw [Function.iterate_succ_apply']
        rfl
      rw [e1]
      exact ih (k + 1) (by omega) (by omega) (by omega)

/-- For a chase start `i` inside the segment whose `p2` value is not in
the copied slice, some iterate of the mapping chain leaves the segment:
the minimal such exit exists and is reached within `n` steps. -/
theorem pmx_exit (p1 p2 : List ℕ) (hp : p1.Perm p2) (hnd : p1.Nodup)
    (a b : ℕ) (hbn : b ≤ p1.length) (i : ℕ) (hia : a ≤ i) (hib : i < b)
    (hout : ¬ p2.getD i 0 ∈ (p1.drop a).take (b - a)) :
    ∃ m, 1 ≤ m ∧ m ≤ p1.length ∧
      ¬(a ≤ (posMap p2 p1)^[m] i ∧ (posMap p2 p1)^[m] i < b) ∧
      (∀ l, 1 ≤ l → l < m →
        a ≤ (posMap p2 p1)^[l] i ∧ (posMap p2 p1)^[l] i < b) := by
  have hp2 : p2.Perm p1 := hp.symm
  have hnd2 : p2.Nodup := hp.nodup hnd
  have hlen12 : p1.length = p2.length := hp.length_eq
  have hb : ∀ j, j < p2.length → posMap p2 p1 j < p2.length := fun j hj =>
    posMap_lt p2 p1 hp2 j (by omega)
  have hinj : ∀ j1 j2, j1 < p2.length → j2 < p2.length →
      posMap p2 p1 j1 = posMap p2 p1 j2 → j1 = j2 := fun j1 j2 h1 h2 he =>
    posMap_inj p2 p1 hp2 hnd2 j1 j2 (by omega) (by omega) he
  have hi : i < p2.length := by omega
  have hexists : ∃ m, m ≤ p1.length ∧ 1 ≤ m ∧
      ¬(a ≤ (posMap p2 p1)^[m] i ∧ (posMap p2 p1)^[m] i < b) := by
    by_contra hcon
    push_neg at hcon
    obtain ⟨p, hp1le, hpn, hpret⟩ :=
      exists_return (posMap p2 p1) p2.length hb hinj i hi
    obtain ⟨q, rfl⟩ : ∃ q, p = q + 1 := ⟨p - 1, by omega⟩
    have hj2 : a ≤ (posMap p2 p1)^[q] i ∧ (posMap p2 p1)^[q] i < b := by
      rcases Nat.eq_zero_or_pos q with h1 | h1
      · subst h1
        exact ⟨by simpa using hia, by simpa using hib⟩
      · exact hcon q (by omega) (by omega)
    have hgj : posMap p2 p1 ((posMap p2 p1)^[q] i) = i := by
      rw [← Function.iterate_succ_apply' (posMap p2 p1) q i]
      exact hpret
    have hval : p2.getD i 0 = p1.getD ((posMap p2 p1)^[q] i) 0 := by
      have h5 := posMap_getD p2 p1 hp2 ((posMap p2 p1)^[q] i) (by
        have := iterate_lt (posMap p2 p1) p2.length hb i hi q
        omega)
      rw [hgj] at h5
      exact h5
    apply hout
    rw [mem_take_drop_iff p1 0 a b hbn, hval]
    exact ⟨(posMap p2 p1)^[q] i, hj2.1, hj2.2, rfl⟩
  have hQex : ∃ m, 1 ≤ m ∧
      ¬(a ≤ (posMap p2 p1)^[m] i ∧ (posMap p2 p1)^[m] i < b) := by
    obtain ⟨m, _, hm1, hm2⟩ := hexists
    exact ⟨m, hm1, hm2⟩
  refine ⟨Nat.find hQex, (Nat.find_spec hQex).1, ?_,
    (Nat.find_spec hQex).2, ?_⟩
  · obtain ⟨m, hmle, hm1, hm2⟩ := hexists
    exact le_trans (Nat.find_min' hQex ⟨hm1, hm2⟩) hmle
  · intro l hl1 hl2
    have := Nat.find_min hQex hl2
    push_neg at this
    exact this hl1

/-- The final PMX fill loop: it sets every still-`None` position `i` to
`p2[i]` and leaves filled positions alone. -/
theorem pmx_fill_spec (p2 : List ℕ) (c : List (Option ℕ)) (n : ℕ)
    (hlen : c.length = n) :
    ∀ k, k ≤ n →
      ((List.range k).foldl
        (fun c i => if c.getD i none = none then
          c.set i (some (p2.getD i 0)) else c) c).length = n ∧
      (∀ j, j < k → ((List.range k).foldl
        (fun c i => if c.getD i none = none then
          c.set i (some (p2.getD i 0)) else c) c).getD j none =
        (if c.getD j none = none then some (p2.getD j 0)
          else c.getD j none)) ∧
      (∀ j, k ≤ j → ((List.range k).foldl
        (fun c i => if c.getD i none = none then
          c.set i (some (p2.getD i 0)) else c) c).getD j none =
        c.getD j none) := by
  intro k
  induction k with
  | zero =>
    intro _
    exact ⟨by simpa using hlen, fun j hj => by omega, fun j _ => rfl⟩
  | succ k ih =>
    intro hk
    obtain ⟨ih1, ih2, ih3⟩ := ih (by omega)
    rw [List.range_succ, List.foldl_append, List.foldl_cons, List.foldl_nil]
    have hcur := ih3 k le_rfl
    refine ⟨?_, ?_, ?_⟩
    · split
      · rw [List.length_set]
        exact ih1
      · exact ih1
    · intro j hj
      by_cases hjk : j = k
      · subst hjk
        rw [hcur]
        by_cases hsplit : c.getD j none = none
        · simp only [if_pos hsplit]
          rw [getD_set_self _ _ _ _ (by rw [ih1]; omega)]
        · simp only [if_neg hsplit]
          exact hcur
      · have hjk2 : j < k := by omega
        split
        · rw [getD_set_ne _ _ _ _ _ (fun he => hjk he.symm)]
          exact ih2 j hjk2
        · exact ih2 j hjk2
    · intro j hj
      split
      · rw [getD_set_ne _ _ _ _ _ (by omega)]
        exact ih3 j (by omega)
      · exact ih3 j (by omega)

/-- One pass of the PMX mapping loop (body of the `for` over the copied
segment, `src/algorithms/ga.py` lines 325-337). -/
def pmx_step (p1 p2 : List ℕ) (a b : ℕ) (c : List (Option ℕ)) (j : ℕ) :
    List (Option ℕ) :=
  if some (p2.getD (a + j) 0) ∈ (c.drop a).take (b - a) then c
  else c.set (pmx_chase p1 p2 a b (p1.length + 1)
    (p2.indexOf (p1.getD (a + j) 0))) (some (p2.getD (a + j) 0))

/-- The PMX child array after copying the segment from `p1`. -/
def pmx_child0 (p1 : List ℕ) (a b : ℕ) : List (Option ℕ) :=
  (List.replicate a none ++ ((p1.drop a).take (b - a)).map some) ++
    List.replicate (p1.length - b) none

/-- The PMX child array after the first `k` passes of the mapping loop. -/
def pmx_fold (p1 p2 : List ℕ) (a b k : ℕ) : List (Option ℕ) :=
  (List.range k).foldl (pmx_step p1 p2 a b) (pmx_child0 p1 a b)

/-- Invariant of the PMX mapping loop: the copied segment is intact,
every position filled outside it is the chase exit of a processed start
and holds that start's `p2` value, and each processed start's value sits
at its chase exit. -/
theorem pmx_map_inv (p1 p2 : List ℕ) (hp : p1.Perm p2) (hnd : p1.Nodup)
    (a b : ℕ) (hab : a ≤ b) (hbn : b < p1.length) (fin : ℕ → ℕ)
    (hfin : ∀ i, a ≤ i → i < b →
      ¬ p2.getD i 0 ∈ (p1.drop a).take (b - a) →
      (¬(a ≤ fin i ∧ fin i < b)) ∧ fin i < p1.length ∧
      p2.getD (fin i) 0 ∈ (p1.drop a).take (b - a) ∧
      pmx_chase p1 p2 a b (p1.length + 1)
        (p2.indexOf (p1.getD i 0)) = fin i)
    (hfinj : ∀ i1 i2, a ≤ i1 → i1 < b → a ≤ i2 → i2 < b →
      ¬ p2.getD i1 0 ∈ (p1.drop a).take (b - a) →
      ¬ p2.getD i2 0 ∈ (p1.drop a).take (b - a) →
      fin i1 = fin i2 → i1 = i2) :
    ∀ k, k ≤ b - a →
      (pmx_fold p1 p2 a b k).length = p1.length ∧
      (∀ l, a ≤ l → l < b →
        (pmx_fold p1 p2 a b k).getD l none = some (p1.getD l 0)) ∧
      (∀ q, q < p1.length → ¬(a ≤ q ∧ q < b) →
        (pmx_fold p1 p2 a b k).getD q none ≠ none →
        ∃ i, a ≤ i ∧ i < a + k ∧
          ¬ p2.getD i 0 ∈ (p1.drop a).take (b - a) ∧ fin i = q ∧
          (pmx_fold p1 p2 a b k).getD q none = some (p2.getD i 0)) ∧
      (∀ i, a ≤ i → i < a + k →
        ¬ p2.getD i 0 ∈ (p1.drop a).take (b - a) →
        (pmx_fold p1 p2 a b k).getD (fin i) none =
          some (p2.getD i 0)) := by
  have hble : b ≤ p1.length := le_of_lt hbn
  have hsegmap : (((p1.drop a).take (b - a)).map some).length = b - a := by
    rw [List.length_map, seg_length p1 a b hab hble]
  intro k
  induction k with
  | zero =>
    intro _
    refine ⟨?_, ?_, ?_, ?_⟩
    · rw [pmx_fold, List.range_zero, List.foldl_nil, pmx_child0,
        List.length_append, List.length_append, List.length_replicate,
        List.length_replicate, hsegmap]
      omega
    · intro l hla hlb
      rw [pmx_fold, List.range_zero, List.foldl_nil, pmx_child0,
        child0_getD_mid _ a _ l hla (by rw [hsegmap]; omega),
        map_some_getD _ _ (by rw [seg_length p1 a b hab hble]; omega),
        seg_getD p1 a b hble l hla hlb]
    · intro q hq hqo hqf
      exfalso
      apply hqf
      rw [pmx_fold, List.range_zero, List.foldl_nil, pmx_child0]
      rcases (by omega : q < a ∨ b ≤ q) with h | h
      · exact child0_getD_left _ a _ q h
      · exact child0_getD_right _ a _ q (by rw [hsegmap]; omega)
    · intro i h1 h2
      omega
  | succ k ih =>
    intro hk
    obtain ⟨ih1, ih2, ih3, ih4⟩ := ih (by omega)
    have hstep : pmx_fold p1 p2 a b (k + 1) =
        pmx_step p1 p2 a b (pmx_fold p1 p2 a b k) k := by
      rw [pmx_fold, List.range_succ, List.foldl_append, List.foldl_cons,
        List.foldl_nil, pmx_fold]
    have hguard := pmx_guard_iff p1 (pmx_fold p1 p2 a b k) a b hab hble
      ih1 ih2
    by_cases hmem : p2.getD (a + k) 0 ∈ (p1.drop a).take (b - a)
    · have hg2 : some (p2.getD (a + k) 0) ∈
          (((pmx_fold p1 p2 a b k).drop a).take (b - a)) :=
        (hguard _).mpr hmem
      rw [hstep, pmx_step, if_pos hg2]
      refine ⟨ih1, ih2, ?_, ?_⟩
      · intro q hq hqo hqf
        obtain ⟨i, g1, g2, g3, g4, g5⟩ := ih3 q hq hqo hqf
        exact ⟨i, g1, by omega, g3, g4, g5⟩
      · intro i h1 h2 h3
        by_cases hik2 : i = a + k
        · subst hik2
          exact absurd hmem h3
        · exact ih4 i h1 (by omega) h3
    · have hg2 : ¬ some (p2.getD (a + k) 0) ∈
          (((pmx_fold p1 p2 a b k).drop a).take (b - a)) :=
        fun hc => hmem ((hguard _).mp hc)
      obtain ⟨hf1, hf2, hf3, hf4⟩ := hfin (a + k) (by omega) (by omega)
        hmem
      rw [hstep, pmx_step, if_neg hg2, hf4]
      have hqnew : (pmx_fold p1 p2 a b k).getD (fin (a + k)) none =
          none := by
        by_contra hne
        obtain ⟨i0, g1, g2, g3, g4, g5⟩ := ih3 (fin (a + k)) hf2 hf1 hne
        have := hfinj i0 (a + k) g1 (by omega) (by omega) (by omega) g3
          hmem g4
        omega
      refine ⟨?_, ?_, ?_, ?_⟩
      · rw [List.length_set]
        exact ih1
      · intro l hla hlb
        rw [getD_set_ne _ _ _ _ _ (fun he => hf1 (by
          rw [he]; exact ⟨hla, hlb⟩))]
        exact ih2 l hla hlb
      · intro q hq hqo hqf
        by_cases hq2 : fin (a + k) = q
        · subst hq2
          refine ⟨a + k, by omega, by omega, hmem, rfl, ?_⟩
          rw [getD_set_self _ _ _ _ (by rw [ih1]; exact hf2)]
        · rw [getD_set_ne _ _ _ _ _ hq2] at hqf ⊢
          obtain ⟨i, g1, g2, g3, g4, g5⟩ := ih3 q hq hqo hqf
          exact ⟨i, g1, by omega, g3, g4, g5⟩
      · intro i h1 h2 h3
        by_cases hik2 : i = a + k
        · subst hik2
          rw [getD_set_self _ _ _ _ (by rw [ih1]; exact hf2)]
        · have hne : fin (a + k) ≠ fin i := fun he =>
            hik2 (hfinj (a + k) i (by omega) (by omega) h1 (by omega)
              hmem h3 he).symm
          rw [getD_set_ne _ _ _ _ _ hne]
          exact ih4 i h1 (by omega) h3

/-- Chase exits from distinct starts are distinct: merging chains would
force an earlier start's `p2` value into the copied segment. -/
theorem pmx_fin_inj_aux (p1 p2 : List ℕ) (hp : p1.Perm p2)
    (hnd : p1.Nodup) (a b : ℕ) (hbn : b ≤ p1.length) (i1 i2 m1 m2 : ℕ)
    (h1a : a ≤ i1) (h1b : i1 < b) (h2a : a ≤ i2) (h2b : i2 < b)
    (ho1 : ¬ p2.getD i1 0 ∈ (p1.drop a).take (b - a))
    (hm1 : 1 ≤ m1) (hle : m1 ≤ m2)
    (hin2 : ∀ l, 1 ≤ l → l < m2 →
      a ≤ (posMap p2 p1)^[l] i2 ∧ (posMap p2 p1)^[l] i2 < b)
    (he : (posMap p2 p1)^[m1] i1 = (posMap p2 p1)^[m2] i2) : i1 = i2 := by
  have hp2 : p2.Perm p1 := hp.symm
  have hnd2 : p2.Nodup := hp.nodup hnd
  have hlen12 : p1.length = p2.length := hp.length_eq
  have hbG : ∀ j, j < p2.length → posMap p2 p1 j < p2.length := fun j hj =>
    posMap_lt p2 p1 hp2 j (by omega)
  have hinj : ∀ j1 j2, j1 < p2.length → j2 < p2.length →
      posMap p2 p1 j1 = posMap p2 p1 j2 → j1 = j2 := fun j1 j2 h1 h2 h3 =>
    posMap_inj p2 p1 hp2 hnd2 j1 j2 (by omega) (by omega) h3
  have hi1 : i1 < p2.length := by omega
  have hi2 : i2 < p2.length := by omega
  have hsplit : (posMap p2 p1)^[m2] i2 =
      (posMap p2 p1)^[m1] ((posMap p2 p1)^[m2 - m1] i2) := by
    rw [← Function.iterate_add_apply, show m1 + (m2 - m1) = m2 by omega]
  have hcan : i1 = (posMap p2 p1)^[m2 - m1] i2 :=
    iterate_inj (posMap p2 p1) p2.length hbG hinj m1 i1
      ((posMap p2 p1)^[m2 - m1] i2) hi1
      (iterate_lt (posMap p2 p1) p2.length hbG i2 hi2 (m2 - m1))
      (by rw [he, hsplit])
  rcases Nat.eq_zero_or_pos (m2 - m1) with hd | hd
  · rw [hd] at hcan
    simpa using hcan
  · exfalso
    obtain ⟨e, hde⟩ : ∃ e, m2 - m1 = e + 1 := ⟨m2 - m1 - 1, by omega⟩
    have hj2 : a ≤ (posMap p2 p1)^[e] i2 ∧ (posMap p2 p1)^[e] i2 < b := by
      rcases Nat.eq_zero_or_pos e with h0 | h0
      · subst h0
        exact ⟨by simpa using h2a, by simpa using h2b⟩
      · exact hin2 e h0 (by omega)
    have hgi : posMap p2 p1 ((posMap p2 p1)^[e] i2) = i1 := by
      rw [← Function.iterate_succ_apply' (posMap p2 p1) e i2,
        Nat.succ_eq_add_one, ← hde]
      exact hcan.symm
    have hval := posMap_getD p2 p1 hp2 ((posMap p2 p1)^[e] i2) (by
      have := iterate_lt (posMap p2 p1) p2.length hbG i2 hi2 e
      omega)
    rw [hgi] at hval
    apply ho1
    rw [mem_take_drop_iff p1 0 a b hbn, hval]
    exact ⟨(posMap p2 p1)^[e] i2, hj2.1, hj2.2, rfl⟩

/-- Assembled PMX child (segment copy, mapping loop, final fill,
extraction) is a permutation of the first parent. -/
theorem pmx_assemble_perm (p1 p2 : List ℕ) (hp : p1.Perm p2)
    (hnd : p1.Nodup) (a b : ℕ) (hab : a ≤ b) (hbn : b < p1.length) :
    (((List.range p1.length).foldl
      (fun c i => if c.getD i none = none then
        c.set i (some (p2.getD i 0)) else c)
      (pmx_fold p1 p2 a b (b - a))).map (fun o => o.getD 0)).Perm p1 := by
  have hble : b ≤ p1.length := le_of_lt hbn
  have hp2 : p2.Perm p1 := hp.symm
  have hnd2 : p2.Nodup := hp.nodup hnd
  have hlen12 : p1.length = p2.length := hp.length_eq
  have hbG : ∀ j, j < p2.length → posMap p2 p1 j < p2.length := fun j hj =>
    posMap_lt p2 p1 hp2 j (by omega)
  have hex : ∀ i, ∃ q, a ≤ i → i < b →
      ¬ p2.getD i 0 ∈ (p1.drop a).take (b - a) →
      ((¬(a ≤ q ∧ q < b)) ∧ q < p1.length ∧
        p2.getD q 0 ∈ (p1.drop a).take (b - a) ∧
        pmx_chase p1 p2 a b (p1.length + 1)
          (p2.indexOf (p1.getD i 0)) = q ∧
        ∃ m, 1 ≤ m ∧ q = (posMap p2 p1)^[m] i ∧
          (∀ l, 1 ≤ l → l < m →
            a ≤ (posMap p2 p1)^[l] i ∧ (posMap p2 p1)^[l] i < b)) := by
    intro i
    by_cases hcond : a ≤ i ∧ i < b ∧
        ¬ p2.getD i 0 ∈ (p1.drop a).take (b - a)
    · obtain ⟨hia, hib, hio⟩ := hcond
      obtain ⟨m, hm1, hmn, hout, hin⟩ :=
        pmx_exit p1 p2 hp hnd a b hble i hia hib hio
      refine ⟨(posMap p2 p1)^[m] i, fun _ _ _ => ?_⟩
      refine ⟨hout, ?_, ?_, ?_, m, hm1, rfl, hin⟩
      · have := iterate_lt (posMap p2 p1) p2.length hbG i (by omega) m
        omega
      · obtain ⟨e, hde⟩ : ∃ e, m = e + 1 := ⟨m - 1, by omega⟩
        have hj2 : a ≤ (posMap p2 p1)^[e] i ∧
            (posMap p2 p1)^[e] i < b := by
          rcases Nat.eq_zero_or_pos e with h0 | h0
          · subst h0
            exact ⟨by simpa using hia, by simpa using hib⟩
          · exact hin e h0 (by omega)
        have hval := posMap_getD p2 p1 hp2 ((posMap p2 p1)^[e] i) (by
          have := iterate_lt (posMap p2 p1) p2.length hbG i (by omega) e
          omega)
        have hsuc : posMap p2 p1 ((posMap p2 p1)^[e] i) =
            (posMap p2 p1)^[m] i := by
          rw [← Function.iterate_succ_apply' (posMap p2 p1) e i,
            Nat.succ_eq_add_one, ← hde]
        rw [hsuc] at hval
        rw [mem_take_drop_iff p1 0 a b hble, hval]
        exact ⟨(posMap p2 p1)^[e] i, hj2.1, hj2.2, rfl⟩
      · have hcs := pmx_chase_spec p1 p2 a b i m hin hout
          (p1.length + 1) 1 le_rfl hm1 (by omega)
        rw [Function.iterate_one] at hcs
        exact hcs
    · exact ⟨0, fun h1 h2 h3 => absurd ⟨h1, h2, h3⟩ hcond⟩
  choose fin hfin using hex
  have hfin4 : ∀ i, a ≤ i → i < b →
      ¬ p2.getD i 0 ∈ (p1.drop a).take (b - a) →
      (¬(a ≤ fin i ∧ fin i < b)) ∧ fin i < p1.length ∧
      p2.getD (fin i) 0 ∈ (p1.drop a).take (b - a) ∧
      pmx_chase p1 p2 a b (p1.length + 1)
        (p2.indexOf (p1.getD i 0)) = fin i := by
    intro i h1 h2 h3
    obtain ⟨c1, c2, c3, c4, _⟩ := hfin i h1 h2 h3
    exact ⟨c1, c2, c3, c4⟩
  have hfinj : ∀ i1 i2, a ≤ i1 → i1 < b → a ≤ i2 → i2 < b →
      ¬ p2.getD i1 0 ∈ (p1.drop a).take (b - a) →
      ¬ p2.getD i2 0 ∈ (p1.drop a).take (b - a) →
      fin i1 = fin i2 → i1 = i2 := by
    intro i1 i2 h1a h1b h2a h2b ho1 ho2 he
    obtain ⟨_, _, _, _, m1, hm11, hq1, hin1⟩ := hfin i1 h1a h1b ho1
    obtain ⟨_, _, _, _, m2, hm21, hq2, hin2⟩ := hfin i2 h2a h2b ho2
    rcases le_total m1 m2 with hle | hle
    · exact pmx_fin_inj_aux p1 p2 hp hnd a b hble i1 i2 m1 m2 h1a h1b
        h2a h2b ho1 hm11 hle hin2 (by rw [← hq1, ← hq2, he])
    · exact (pmx_fin_inj_aux p1 p2 hp hnd a b hble i2 i1 m2 m1 h2a h2b
        h1a h1b ho2 hm21 hle hin1 (by rw [← hq1, ← hq2, he])).symm
  obtain ⟨hm1, hm2, hm3, hm4⟩ := pmx_map_inv p1 p2 hp hnd a b hab hbn
    fin hfin4 hfinj (b - a) le_rfl
  obtain ⟨hf1, hf2, hf3⟩ := pmx_fill_spec p2 (pmx_fold p1 p2 a b (b - a))
    p1.length hm1 p1.length le_rfl
  have hmem_of : ∀ v t, t < p1.length →
      ((List.range p1.length).foldl
        (fun c i => if c.getD i none = none then
          c.set i (some (p2.getD i 0)) else c)
        (pmx_fold p1 p2 a b (b - a))).getD t none = some v →
      v ∈ ((List.range p1.length).foldl
        (fun c i => if c.getD i none = none then
          c.set i (some (p2.getD i 0)) else c)
        (pmx_fold p1 p2 a b (b - a))).map (fun o => o.getD 0) := by
    intro v t ht htv
    apply List.mem_map.mpr
    have ht2 : t < ((List.range p1.length).foldl
        (fun c i => if c.getD i none = none then
          c.set i (some (p2.getD i 0)) else c)
        (pmx_fold p1 p2 a b (b - a))).length := by
      rw [hf1]
      exact ht
    refine ⟨some v, ?_, rfl⟩
    rw [← htv, List.getD_eq_getElem _ _ ht2]
    exact List.getElem_mem ht2
  apply (perm_of_cover _ p2 hnd2 ?_ ?_ ?_).trans hp.symm
  · rw [List.length_map, hf1]
    exact hlen12
  · intro v hv
    obtain ⟨o, ho, rfl⟩ := List.mem_map.mp hv
    obtain ⟨j, hjlt, hje⟩ := List.getElem_of_mem ho
    have hjn : j < p1.length := by rw [← hf1]; exact hjlt
    have hoe : o = (if (pmx_fold p1 p2 a b (b - a)).getD j none = none
        then some (p2.getD j 0)
        else (pmx_fold p1 p2 a b (b - a)).getD j none) := by
      rw [← hf2 j hjn, List.getD_eq_getElem _ _ hjlt, hje]
    by_cases hjfold : (pmx_fold p1 p2 a b (b - a)).getD j none = none
    · rw [hoe, if_pos hjfold]
      exact getD_mem p2 j (by omega)
    · rw [hoe, if_neg hjfold]
      by_cases hjseg : a ≤ j ∧ j < b
      · rw [hm2 j hjseg.1 hjseg.2]
        exact hp.mem_iff.mp (getD_mem p1 j hjn)
      · obtain ⟨i, g1, g2, g3, g4, g5⟩ := hm3 j hjn hjseg hjfold
        rw [g5]
        exact getD_mem p2 i (by omega)
  · intro v hv
    have hq : p2.indexOf v < p2.length := List.indexOf_lt_length.mpr hv
    have hqv : p2.getD (p2.indexOf v) 0 = v := getD_indexOf p2 v hv
    by_cases hvseg : v ∈ (p1.drop a).take (b - a)
    · obtain ⟨l, hla, hlb, hlv⟩ :=
        (mem_take_drop_iff p1 0 a b hble v).mp hvseg
      apply hmem_of v l (by omega)
      rw [hf2 l (by omega),
        if_neg (by rw [hm2 l hla hlb]; simp), hm2 l hla hlb, hlv]
    · by_cases hqin : a ≤ p2.indexOf v ∧ p2.indexOf v < b
      · have ho : ¬ p2.getD (p2.indexOf v) 0 ∈ (p1.drop a).take (b - a) :=
          by rw [hqv]; exact hvseg
        have h4 := hm4 (p2.indexOf v) hqin.1 (by omega) ho
        have hfq := hfin4 (p2.indexOf v) hqin.1 hqin.2 ho
        apply hmem_of v (fin (p2.indexOf v)) hfq.2.1
        rw [hf2 (fin (p2.indexOf v)) hfq.2.1,
          if_neg (by rw [h4]; simp), h4, hqv]
      · have hqn : (pmx_fold p1 p2 a b (b - a)).getD (p2.indexOf v)
            none = none := by
          by_contra hne
          obtain ⟨i, g1, g2, g3, g4, g5⟩ := hm3 (p2.indexOf v) (by omega)
            hqin hne
          have hseg2 := (hfin4 i g1 (by omega) g3).2.2.1
          rw [g4, hqv] at hseg2
          exact hvseg hseg2
        apply hmem_of v (p2.indexOf v) (by omega)
        rw [hf2 (p2.indexOf v) (by omega), if_pos hqn, hqv]

/-- `pmx_crossover` on duplicate-free parents over the same city set
returns a permutation of the first parent. -/
theorem pmx_crossover_perm (p1 p2 : List ℕ) (hp : p1.Perm p2)
    (hnd : p1.Nodup) (a0 b0 : ℕ) (ha0 : a0 < p1.length)
    (hb0 : b0 < p1.length) : (pmx_crossover p1 p2 a0 b0).Perm p1 := by
  unfold pmx_crossover
  by_cases hlen : p1.length < 2
  · simp [hlen]
  · simp only [if_neg hlen]
    exact pmx_assemble_perm p1 p2 hp hnd (min a0 b0) (max a0 b0)
      (min_le_max) (max_lt ha0 hb0)

/-! ### Genetic algorithm: run-level invariants -/

theorem getD_mem_of_lt {α : Type} (l : List α) (d : α) (i : ℕ)
    (h : i < l.length) : l.getD i d ∈ l := by
  rw [List.getD_eq_getElem _ _ h]
  exact List.getElem_mem h

theorem tour_length_eq (n : ℕ) (r : List ℕ) (h : IsTour n r) :
    r.length = n := by
  rw [h.length_eq, List.length_range]

theorem tour_nodup (n : ℕ) (r : List ℕ) (h : IsTour n r) : r.Nodup :=
  h.symm.nodup (List.nodup_range n)

theorem tours_perm (n : ℕ) (r1 r2 : List ℕ) (h1 : IsTour n r1)
    (h2 : IsTour n r2) : r1.Perm r2 := h1.trans h2.symm

/-- The winner of the tournament fold is one of the sampled indices. -/
theorem foldl_if_mem (cost : ℕ → ℚ) :
    ∀ (L : List ℕ) (x : ℕ),
      L.foldl (fun w i => if cost i < cost w then i else w) x ∈ x :: L := by
  intro L
  induction L with
  | nil => intro x; exact List.mem_singleton.mpr rfl
  | cons i L ih =>
    intro x
    rw [List.foldl_cons]
    rcases List.mem_cons.mp (ih (if cost i < cost x then i else x)) with
      h | h
    · rw [h]
      split
      · exact List.mem_cons_of_mem _ (List.mem_cons_self _ _)
      · exact List.mem_cons_self _ _
    · exact List.mem_cons_of_mem _ (List.mem_cons_of_mem _ h)

theorem tournament_selection_sound (pop : List (List ℕ)) (costs : List ℚ)
    (idxs : List ℕ) (hne : idxs ≠ [])
    (hbound : ∀ i ∈ idxs, i < pop.length) :
    ∃ p, tournament_selection pop costs idxs = Except.ok p ∧ p ∈ pop := by
  match idxs, hne with
  | i0 :: rest, _ =>
    refine ⟨_, rfl, ?_⟩
    have hw := foldl_if_mem (fun i => costs.getD i 0) rest i0
    exact getD_mem_of_lt pop [] _ (hbound _ hw)

theorem roulette_selection_sound (pop : List (List ℕ)) (costs : List ℚ)
    (ri : ℕ) (hne : pop ≠ []) :
    ∃ p, roulette_selection pop costs ri = Except.ok p ∧ p ∈ pop := by
  match pop, hne with
  | q :: pop2, _ =>
    refine ⟨_, rfl, ?_⟩
    exact getD_mem_of_lt (q :: pop2) [] _
      (Nat.mod_lt ri (by simp))

theorem ranking_selection_sound (pop : List (List ℕ)) (costs : List ℚ)
    (ri : ℕ) (hne : pop ≠ []) :
    ∃ p, ranking_selection pop costs ri = Except.ok p ∧ p ∈ pop := by
  match pop, hne with
  | q :: pop2, _ =>
    refine ⟨_, rfl, ?_⟩
    exact getD_mem_of_lt (q :: pop2) [] _
      (Nat.mod_lt ri (by simp))

theorem select_f_sound (selection_type : String) (pop : List (List ℕ))
    (costs : List ℚ) (tsel : List ℕ) (ri : ℕ) (hne : pop ≠ [])
    (htne : tsel ≠ []) (htb : ∀ i ∈ tsel, i < pop.length) :
    ∃ p, select_f selection_type pop costs tsel ri = Except.ok p ∧
      p ∈ pop := by
  rw [select_f]
  split_ifs
  · exact roulette_selection_sound pop costs ri hne
  · exact ranking_selection_sound pop costs ri hne
  · exact tournament_selection_sound pop costs tsel htne htb

/-- Every crossover operator returns a permutation of the first parent,
for bounded cut draws (`random.sample(range(size), 2)`) or degenerate
sizes. -/
theorem crossover_f_perm (crossover_type : String) (p1 p2 : List ℕ)
    (pair : ℕ × ℕ) (hp : p1.Perm p2) (hnd : p1.Nodup)
    (hpair : p1.length < 2 ∨
      (pair.1 < p1.length ∧ pair.2 < p1.length)) :
    (crossover_f crossover_type p1 p2 pair).Perm p1 := by
  rw [crossover_f]
  split_ifs
  · rcases hpair with h | ⟨h1, h2⟩
    · rw [pmx_crossover, if_pos h]
    · exact pmx_crossover_perm p1 p2 hp hnd pair.1 pair.2 h1 h2
  · exact cycle_crossover_perm p1 p2 hp hnd
  · exact order_crossover_perm p1 p2 hp hnd pair.1 pair.2

/-- Every mutation operator maps tours to tours, for valid or degenerate
draws. -/
theorem mutation_f_tour (mutation_type : String) (t : TSP) (r : List ℕ)
    (htour : IsTour t.n r) (pair : ℕ × ℕ) (hp : PairOk t.n pair) :
    IsTour t.n (mutation_f mutation_type r pair) := by
  have hlen : r.length = t.n := tour_length_eq t.n r htour
  rw [mutation_f]
  rcases hp with h | ⟨h1, h2, _⟩
  · split_ifs
    · rw [Tsp.insert, if_pos (by omega)]
      exact htour
    · rw [two_opt, if_pos (by omega)]
      exact htour
    · rw [swap, if_pos (by omega)]
      exact htour
  · split_ifs
    · exact (insert_perm r pair.1 pair.2 (by omega) (by omega)).trans htour
    · exact (two_opt_perm r pair.1 pair.2 (by omega) (by omega)).trans htour
    · exact (swap_perm r pair.1 pair.2 (by omega) (by omega)).trans htour

/-- Mapping a fallible child constructor over a list succeeds when each
call does, and the results inherit the per-child property. -/
theorem mapM_ok {α β : Type} (f : α → Except String β) (P : β → Prop) :
    ∀ L : List α, (∀ x ∈ L, ∃ y, f x = Except.ok y ∧ P y) →
      ∃ ys, L.mapM f = Except.ok ys ∧ (∀ y ∈ ys, P y) ∧
        ys.length = L.length := by
  intro L
  induction L with
  | nil =>
    intro _
    exact ⟨[], by rw [List.mapM_nil]; rfl, fun y hy => absurd hy (by simp),
      rfl⟩
  | cons x L ih =>
    intro h
    obtain ⟨y, hy, hPy⟩ := h x (List.mem_cons_self _ _)
    obtain ⟨ys, hys, hPys, hlys⟩ := ih (fun z hz =>
      h z (List.mem_cons_of_mem _ hz))
    refine ⟨y :: ys, ?_, ?_, by simp [hlys]⟩
    · rw [List.mapM_cons, hy, hys]
      rfl
    · intro z hz
      rcases List.mem_cons.mp hz with h2 | h2
      · rw [h2]
        exact hPy
      · exact hPys z h2

/-- A fallible fold succeeds and preserves an invariant and a transitive
descent relation when each step does. -/
theorem foldlM_sound {σ : Type} (f : σ → ℕ → Except String σ)
    (P : σ → Prop) (R : σ → σ → Prop) (hrefl : ∀ s, R s s)
    (htrans : ∀ s1 s2 s3, R s1 s2 → R s2 s3 → R s1 s3)
    (hf : ∀ st x, P st → ∃ st2, f st x = Except.ok st2 ∧ P st2 ∧
      R st2 st) :
    ∀ (L : List ℕ) (st : σ), P st →
      ∃ fin, L.foldlM f st = Except.ok fin ∧ P fin ∧ R fin st := by
  intro L
  induction L with
  | nil =>
    intro st h
    exact ⟨st, by rw [List.foldlM_nil]; rfl, h, hrefl st⟩
  | cons x L ih =>
    intro st h
    obtain ⟨st2, hst2, hP2, hR2⟩ := hf st x h
    obtain ⟨fin, hfin, hPf, hRf⟩ := ih st2 hP2
    refine ⟨fin, ?_, hPf, htrans fin st2 st hRf hR2⟩
    rw [List.foldlM_cons, hst2]
    exact hfin

/-- Folding `updBest` over candidates satisfying `P` preserves a
`P`-tracker. -/
theorem foldl_updBest_prop (P : List ℕ × ℚ → Prop) :
    ∀ (L : List (List ℕ × ℚ)), (∀ pc ∈ L, P pc) →
      ∀ (b : Option (List ℕ × ℚ)), (∀ p, b = some p → P p) →
      ∀ p, L.foldl (fun b pc => updBest pc b) b = some p → P p := by
  intro L
  induction L with
  | nil => intro _ b hb p hp; exact hb p hp
  | cons x L ih =>
    intro hL b hb p hp
    rw [List.foldl_cons] at hp
    exact ih (fun pc hpc => hL pc (List.mem_cons_of_mem _ hpc)) _
      (updBest_prop P x b (hL x (List.mem_cons_self _ _)) hb) p hp

theorem foldl_updBest_le :
    ∀ (L : List (List ℕ × ℚ)) (b : Option (List ℕ × ℚ)),
      bestLe (L.foldl (fun b pc => updBest pc b) b) b := by
  intro L
  induction L with
  | nil => intro b; exact bestLe_refl b
  | cons x L ih =>
    intro b
    rw [List.foldl_cons]
    exact bestLe_trans (ih (updBest x b)) (updBest_le x b)

theorem zip_map_mem {α β : Type} (f : α → β) :
    ∀ (l : List α) (pc : α × β), pc ∈ l.zip (l.map f) →
      pc.1 ∈ l ∧ pc.2 = f pc.1 := by
  intro l
  induction l with
  | nil => intro pc hpc; cases hpc
  | cons x l ih =>
    intro pc hpc
    rw [List.map_cons, List.zip_cons_cons] at hpc
    rcases List.mem_cons.mp hpc with h | h
    · rw [h]
      exact ⟨List.mem_cons_self _ _, rfl⟩
    · obtain ⟨h1, h2⟩ := ih pc h
      exact ⟨List.mem_cons_of_mem _ h1, h2⟩

/-- One GA child is produced without error and is a tour, for valid
selection and move draws. -/
theorem ga_child_sound (t : TSP) (stype ctype mtype : String) (R : GaRand)
    (pop : List (List ℕ)) (costs : List ℚ) (gen c : ℕ)
    (hpop : ∀ r ∈ pop, IsTour t.n r) (hne : pop ≠ [])
    (ht0 : R.tsel gen c 0 ≠ [])
    (hb0 : ∀ i ∈ R.tsel gen c 0, i < pop.length)
    (ht1 : R.tsel gen c 1 ≠ [])
    (hb1 : ∀ i ∈ R.tsel gen c 1, i < pop.length)
    (hcp : PairOk t.n (R.crossP gen c))
    (hmp : PairOk t.n (R.mutP gen c)) :
    ∃ ch, ga_child stype ctype mtype R pop costs gen c = Except.ok ch ∧
      IsTour t.n ch := by
  obtain ⟨p1v, he1, hm1⟩ := select_f_sound stype pop costs
    (R.tsel gen c 0) (R.rsel gen c 0) hne ht0 hb0
  obtain ⟨p2v, he2, hm2⟩ := select_f_sound stype pop costs
    (R.tsel gen c 1) (R.rsel gen c 1) hne ht1 hb1
  have htour1 := hpop p1v hm1
  have htour2 := hpop p2v hm2
  have hcross : IsTour t.n (if R.crossB gen c then
      crossover_f ctype p1v p2v (R.crossP gen c) else p1v) := by
    split
    · refine (crossover_f_perm ctype p1v p2v (R.crossP gen c)
        (tours_perm t.n p1v p2v htour1 htour2)
        (tour_nodup t.n p1v htour1) ?_).trans htour1
      rcases hcp with h | ⟨h1, h2, _⟩
      · left
        rw [tour_length_eq t.n p1v htour1]
        exact h
      · right
        rw [tour_length_eq t.n p1v htour1]
        exact ⟨h1, h2⟩
    · exact htour1
  have hmut : IsTour t.n (if R.mutB gen c then
      mutation_f mtype (if R.crossB gen c then
        crossover_f ctype p1v p2v (R.crossP gen c) else p1v)
        (R.mutP gen c)
      else (if R.crossB gen c then
        crossover_f ctype p1v p2v (R.crossP gen c) else p1v)) := by
    split
    · exact mutation_f_tour mtype t _ hcross (R.mutP gen c) hmp
    · exact hcross
  refine ⟨_, ?_, hmut⟩
  rw [ga_child, he1, he2]
  rfl

/-- The invariant carried across GA generations: the population holds
`pop_size` tours and the tracked best is an exactly-priced tour. -/
def GaInv (t : TSP) (pop_size : ℕ)
    (st : List (List ℕ) × Option (List ℕ × ℚ)) : Prop :=
  (∀ r ∈ st.1, IsTour t.n r) ∧ st.1.length = pop_size ∧
  (∀ p, st.2 = some p → IsTour t.n p.1 ∧ p.2 = route_length t p.1)

/-- One GA generation succeeds, preserves the invariant, and never
worsens the tracked best. -/
theorem ga_generation_sound (t : TSP) (pop_size elitism : ℕ)
    (stype ctype mtype : String) (R : GaRand) (hps : 0 < pop_size)
    (hR : ∀ gen c k, R.tsel gen c k ≠ [] ∧
      ∀ i ∈ R.tsel gen c k, i < pop_size)
    (hcp : ∀ gen c, PairOk t.n (R.crossP gen c))
    (hmp : ∀ gen c, PairOk t.n (R.mutP gen c))
    (st : List (List ℕ) × Option (List ℕ × ℚ)) (gen : ℕ)
    (hinv : GaInv t pop_size st) :
    ∃ st2, ga_generation t pop_size elitism stype ctype mtype R st gen =
      Except.ok st2 ∧ GaInv t pop_size st2 ∧ bestLe st2.2 st.2 := by
  obtain ⟨hpop, hlen, hbest⟩ := hinv
  have hne : st.1 ≠ [] := by
    intro h
    rw [h] at hlen
    simp at hlen
    omega
  have hbest2 : ∀ p, (st.1.zip (st.1.map (route_length t))).foldl
      (fun b pc => updBest pc b) st.2 = some p →
      IsTour t.n p.1 ∧ p.2 = route_length t p.1 := by
    apply foldl_updBest_prop _ _ ?_ _ hbest
    intro pc hpc
    obtain ⟨h1, h2⟩ := zip_map_mem (route_length t) st.1 pc hpc
    exact ⟨hpop pc.1 h1, by rw [h2]⟩
  have helite_mem : ∀ r ∈ (((List.range (st.1.map
      (route_length t)).length).mergeSort
      (fun i j => (st.1.map (route_length t)).getD i 0 ≤
        (st.1.map (route_length t)).getD j 0)).take elitism).map
      (fun i => st.1.getD i []), IsTour t.n r := by
    intro r hr
    obtain ⟨i, hi, rfl⟩ := List.mem_map.mp hr
    have hi2 : i ∈ List.range (st.1.map (route_length t)).length :=
      List.mem_mergeSort.mp (List.mem_of_mem_take hi)
    have hi3 : i < st.1.length := by
      rw [List.mem_range, List.length_map] at hi2
      exact hi2
    exact hpop _ (getD_mem_of_lt st.1 [] i hi3)
  have helite_len : ((((List.range (st.1.map
      (route_length t)).length).mergeSort
      (fun i j => (st.1.map (route_length t)).getD i 0 ≤
        (st.1.map (route_length t)).getD j 0)).take elitism).map
      (fun i => st.1.getD i [])).length ≤ pop_size := by
    rw [List.length_map, List.length_take, List.length_mergeSort,
      List.length_range, List.length_map, hlen]
    omega
  obtain ⟨children, hch, hchP, hchlen⟩ := mapM_ok
    (fun c => ga_child stype ctype mtype R st.1
      (st.1.map (route_length t)) gen c) (IsTour t.n)
    (List.range (pop_size - ((((List.range (st.1.map
      (route_length t)).length).mergeSort
      (fun i j => (st.1.map (route_length t)).getD i 0 ≤
        (st.1.map (route_length t)).getD j 0)).take elitism).map
      (fun i => st.1.getD i [])).length))
    (fun x _ => ga_child_sound t stype ctype mtype R st.1
      (st.1.map (route_length t)) gen x hpop hne (hR gen x 0).1
      (fun i hi => by rw [hlen]; exact (hR gen x 0).2 i hi)
      (hR gen x 1).1
      (fun i hi => by rw [hlen]; exact (hR gen x 1).2 i hi)
      (hcp gen x) (hmp gen x))
  refine ⟨((((((List.range (st.1.map (route_length t)).length).mergeSort
      (fun i j => (st.1.map (route_length t)).getD i 0 ≤
        (st.1.map (route_length t)).getD j 0)).take elitism).map
      (fun i => st.1.getD i [])) ++ children).take pop_size,
      (st.1.zip (st.1.map (route_length t))).foldl
        (fun b pc => updBest pc b) st.2), ?_, ⟨?_, ?_, hbest2⟩,
    foldl_updBest_le _ _⟩
  · rw [ga_generation]
    rw [hch]
    rfl
  · intro r hr
    rcases List.mem_append.mp (List.mem_of_mem_take hr) with h | h
    · exact helite_mem r h
    · exact hchP r h
  · rw [List.length_take, List.length_append, hchlen, List.length_range]
    omega

/-- `genetic_algorithm` returns without error, and its reported best pair
(when present) is a tour of `[0,n)` priced exactly by `route_length`. -/
theorem genetic_algorithm_inv (t : TSP) (pop_size generations : ℕ)
    (stype ctype mtype : String) (elitism : ℕ) (use_nn_start : Bool)
    (R : GaRand) (hps : 0 < pop_size)
    (hnn : use_nn_start = true → min 5 t.n ≤ pop_size)
    (hinits : ∀ r, (R.inits r).Perm (List.range t.n))
    (hR : ∀ gen c k, R.tsel gen c k ≠ [] ∧
      ∀ i ∈ R.tsel gen c k, i < pop_size)
    (hcp : ∀ gen c, PairOk t.n (R.crossP gen c))
    (hmp : ∀ gen c, PairOk t.n (R.mutP gen c)) :
    ∃ res, genetic_algorithm t pop_size generations stype ctype mtype
      elitism use_nn_start R = Except.ok res ∧
      ∀ p, res = some p → IsTour t.n p.1 ∧
        p.2 = route_length t p.1 := by
  have hnnlen : (if use_nn_start = true then
      (List.range (min 5 t.n)).map (fun s => (nearest_neighbor t s).1)
      else []).length ≤ pop_size := by
    split
  <;> rename_i h
    · rw [List.length_map, List.length_range]
      exact hnn h
    · simp
  have hinv0 : GaInv t pop_size
      ((if use_nn_start = true then
        (List.range (min 5 t.n)).map (fun s => (nearest_neighbor t s).1)
        else []) ++
        (List.range (pop_size - (if use_nn_start = true then
          (List.range (min 5 t.n)).map
            (fun s => (nearest_neighbor t s).1) else []).length)).map
          R.inits, (none : Option (List ℕ × ℚ))) := by
    refine ⟨?_, ?_, fun p hp => by cases hp⟩
    · intro r hr
      rcases List.mem_append.mp hr with h | h
      · split at h
        · obtain ⟨s, hs, rfl⟩ := List.mem_map.mp h
          rw [List.mem_range] at hs
          exact (nearest_neighbor_correct t s (by
            have := Nat.min_le_right 5 t.n
            omega)).1
        · cases h
      · obtain ⟨s, _, rfl⟩ := List.mem_map.mp h
        exact hinits s
    · rw [List.length_append, List.length_map, List.length_range]
      omega
  obtain ⟨fin, hfold, hPfin, _⟩ := foldlM_sound
    (fun st gen => ga_generation t pop_size elitism stype ctype mtype R
      st gen) (GaInv t pop_size) (fun s2 s1 => bestLe s2.2 s1.2)
    (fun s => bestLe_refl s.2) (fun s1 s2 s3 h12 h23 => bestLe_trans h12 h23)
    (fun st gen hst => ga_generation_sound t pop_size elitism stype ctype
      mtype R hps hR hcp hmp st gen hst)
    (List.range generations) _ hinv0
  refine ⟨fin.2, ?_, hPfin.2.2⟩
  rw [genetic_algorithm, hfold]
  rfl

/-! ## Ant Colony Optimization (`src/algorithms/aco.py`)

The pheromone matrix is a `ℕ → ℕ → ℚ` function updated pointwise.  The
probabilistic next-city selection (`random.choices` weighted by
`τ^α · η^β`, with a uniform `random.choice` fallback) always returns some
element of `unvisited`; the embedding draws that element through the
`picks` oracle as `unvisited[pick % len(unvisited)]`, which ranges over
exactly the choices the Python code can make.  The pheromone and
heuristic values therefore only steer the oracle and are carried along
unchanged in the state.  `random.randint(0, n - 1)` start draws are the
`starts` oracle (theorems assume `n ≥ 1`, where the draw is well defined).
Division by a tour length (`deposit = q / dist`) raises
`ZeroDivisionError` in Python exactly when the length is zero, which the
embedding surfaces through `Except`. -/

/-- The draws one ACO run consumes. -/
structure AcoRand where
  starts : ℕ → ℕ → ℕ
  picks : ℕ → ℕ → ℕ → ℕ
  lspicks : ℕ → ℕ → ℕ → ℕ × ℕ
  gb : ℕ → Bool

/-- The `while len(route) < n` loop of `_construct_solution` (lines
135-164): append an unvisited city per pass. -/
def aco_construct (n : ℕ) (pick : ℕ → ℕ) : ℕ → List ℕ → List ℕ
  | 0, route => route
  | fuel + 1, route =>
    if route.length < n then
      let unvisited := (List.range n).filter (fun c => ¬ c ∈ route)
      if unvisited = [] then route
      else
        let next := unvisited.getD (pick route.length % unvisited.length) 0
        aco_construct n pick fuel (route ++ [next])
    else route

/-- `_construct_solution` (lines 119-166). -/
def _construct_solution (n : ℕ) (start : ℕ) (pick : ℕ → ℕ) : List ℕ :=
  aco_construct n pick n [start]

/-- Pheromone evaporation with the `0.0001` floor (lines 91-94). -/
def aco_evaporate (rho : ℚ) (ph : ℕ → ℕ → ℚ) : ℕ → ℕ → ℚ :=
  fun i j => max (ph i j * (1 - rho)) (1 / 10000)

/-- Symmetric pheromone deposit along a route (lines 100-105). -/
def aco_deposit (n : ℕ) (dep : ℚ) (route : List ℕ) (ph : ℕ → ℕ → ℚ) :
    ℕ → ℕ → ℚ :=
  (List.range n).foldl (fun p i =>
    let a := route.getD i 0
    let b := route.getD ((i + 1) % n) 0
    let p1 := fun x y => if x = a ∧ y = b then p x y + dep else p x y
    fun x y => if x = b ∧ y = a then p1 x y + dep else p1 x y) ph

/-- The deposit loop over all ant tours (lines 98-105); `q / dist`
raises `ZeroDivisionError` on a zero-length tour. -/
def aco_deposit_all (n : ℕ) (q : ℚ) :
    List (List ℕ × ℚ) → (ℕ → ℕ → ℚ) → Except String (ℕ → ℕ → ℚ)
  | [], ph => Except.ok ph
  | (r, d) :: rest, ph =>
    if d = 0 then Except.error "ZeroDivisionError: float division by zero"
    else aco_deposit_all n q rest (aco_deposit n (q / d) r ph)

/-- One iteration of `ant_colony_optimization` (lines 72-114):
construction, best update, evaporation, deposits, optional elitist
deposit. -/
def aco_iteration (t : TSP) (n_ants : ℕ) (rho q ew : ℚ) (R : AcoRand)
    (st : (ℕ → ℕ → ℚ) × Option (List ℕ × ℚ)) (it : ℕ) :
    Except String ((ℕ → ℕ → ℚ) × Option (List ℕ × ℚ)) := do
  let pairs := (List.range n_ants).map (fun ant =>
    let r := _construct_solution t.n (R.starts it ant) (R.picks it ant)
    (r, route_length t r))
  let best2 := pairs.foldl (fun b pc => updBest pc b) st.2
  let ph1 := aco_evaporate rho st.1
  let ph2 ← aco_deposit_all t.n q pairs ph1
  let ph3 ← match best2 with
    | some bp =>
      if 0 < ew ∧ bp.1 ≠ [] then
        (if bp.2 = 0 then
          Except.error "ZeroDivisionError: float division by zero"
        else Except.ok (aco_deposit t.n (ew * q / bp.2) bp.1 ph2))
      else Except.ok ph2
    | none => Except.ok ph2
  return (ph3, best2)

/-- `ant_colony_optimization` (lines 23-116). -/
def ant_colony_optimization (t : TSP) (n_ants n_iterations : ℕ)
    (rho q initial_pheromone ew : ℚ) (R : AcoRand) :
    Except String (Option (List ℕ × ℚ)) := do
  let fin ← (List.range n_iterations).foldlM
    (fun st it => aco_iteration t n_ants rho q ew R st it)
    ((fun _ _ => initial_pheromone, none) :
      (ℕ → ℕ → ℚ) × Option (List ℕ × ℚ))
  return fin.2

/-- The 2-opt improvement loop of `aco_with_local_search`
(lines 208-214). -/
def aco_local_search (t : TSP) (iters : ℕ) (lspick : ℕ → ℕ × ℕ)
    (route : List ℕ) (dist : ℚ) : List ℕ × ℚ :=
  (List.range iters).foldl (fun rd k =>
    let nr := two_opt rd.1 (lspick k).1 (lspick k).2
    let nd := route_length t nr
    if nd < rd.2 then (nr, nd) else rd) (route, dist)

/-- One iteration of `aco_with_local_search` (lines 200-235). -/
def aco_ls_iteration (t : TSP) (n_ants ls_iters : ℕ) (rho q : ℚ)
    (R : AcoRand) (st : (ℕ → ℕ → ℚ) × Option (List ℕ × ℚ)) (it : ℕ) :
    Except String ((ℕ → ℕ → ℚ) × Option (List ℕ × ℚ)) := do
  let pairs := (List.range n_ants).map (fun ant =>
    let r := _construct_solution t.n (R.starts it ant) (R.picks it ant)
    aco_local_search t ls_iters (R.lspicks it ant) r (route_length t r))
  let best2 := pairs.foldl (fun b pc => updBest pc b) st.2
  let ph1 := aco_evaporate rho st.1
  let ph2 ← aco_deposit_all t.n q pairs ph1
  return (ph2, best2)

/-- `aco_with_local_search` (lines 169-237). -/
def aco_with_local_search (t : TSP) (n_ants n_iterations ls_iters : ℕ)
    (rho q : ℚ) (R : AcoRand) : Except String (Option (List ℕ × ℚ)) := do
  let fin ← (List.range n_iterations).foldlM
    (fun st it => aco_ls_iteration t n_ants ls_iters rho q R st it)
    ((fun _ _ => (1 : ℚ), none) : (ℕ → ℕ → ℚ) × Option (List ℕ × ℚ))
  return fin.2

/-- One iteration of `max_min_ant_system` (lines 282-323): per-iteration
best, evaporation without floor, guarded single deposit, clamping. -/
def mmas_iteration (t : TSP) (n_ants n_iterations : ℕ)
    (rho q tau_min tau_max : ℚ) (R : AcoRand)
    (st : (ℕ → ℕ → ℚ) × Option (List ℕ × ℚ)) (it : ℕ) :
    (ℕ → ℕ → ℚ) × Option (List ℕ × ℚ) :=
  let pairs := (List.range n_ants).map (fun ant =>
    let r := _construct_solution t.n (R.starts it ant) (R.picks it ant)
    (r, route_length t r))
  let iter_best := pairs.foldl (fun b pc => updBest pc b)
    (none : Option (List ℕ × ℚ))
  let best2 := pairs.foldl (fun b pc => updBest pc b) st.2
  let ph1 := fun i j => st.1 i j * (1 - rho)
  let dep := if R.gb it then best2 else iter_best
  let ph2 := match dep with
    | some bp =>
      if bp.1 ≠ [] ∧ 0 < bp.2 then aco_deposit t.n (q / bp.2) bp.1 ph1
      else ph1
    | none => ph1
  let ph3 := fun i j => max tau_min (min tau_max (ph2 i j))
  (ph3, best2)

/-- `max_min_ant_system` (lines 240-325); `tau_max` comes from a
`nearest_neighbor` run started at city 0 (its default). -/
def max_min_ant_system (t : TSP) (n_ants n_iterations : ℕ) (rho q : ℚ)
    (R : AcoRand) : Option (List ℕ × ℚ) :=
  let nn_dist := (nearest_neighbor t 0).2
  let tau_max := if 0 < nn_dist then 1 / (rho * nn_dist) else 1
  let tau_min := tau_max / (2 * t.n)
  ((List.range n_iterations).foldl
    (fun st it => mmas_iteration t n_ants n_iterations rho q tau_min
      tau_max R st it)
    ((fun _ _ => tau_max, none) : (ℕ → ℕ → ℚ) × Option (List ℕ × ℚ))).2

/-- A duplicate-free list of `n` values below `n` is a permutation of
`[0, n)`. -/
theorem perm_range_of (n : ℕ) (r : List ℕ) (hnd : r.Nodup)
    (hlen : r.length = n) (hlt : ∀ v ∈ r, v < n) :
    r.Perm (List.range n) := by
  refine List.perm_of_nodup_nodup_toFinset_eq hnd (List.nodup_range n) ?_
  refine Finset.eq_of_subset_of_card_le ?_ ?_
  · intro x hx
    rw [List.mem_toFinset] at hx ⊢
    exact List.mem_range.mpr (hlt x hx)
  · rw [List.toFinset_card_of_nodup (List.nodup_range n),
      List.length_range, List.toFinset_card_of_nodup hnd, hlen]

/-- The ant construction loop keeps the partial route duplicate-free and
in range, and enough fuel completes it to length `n`. -/
theorem aco_construct_inv (n : ℕ) (pick : ℕ → ℕ) :
    ∀ fuel (route : List ℕ), route.Nodup → (∀ v ∈ route, v < n) →
      route.length ≤ n → n ≤ route.length + fuel →
      (aco_construct n pick fuel route).Nodup ∧
      (∀ v ∈ aco_construct n pick fuel route, v < n) ∧
      (aco_construct n pick fuel route).length = n := by
  intro fuel
  induction fuel with
  | zero =>
    intro route h1 h2 h3 h4
    rw [aco_construct]
    exact ⟨h1, h2, by omega⟩
  | succ fuel ih =>
    intro route h1 h2 h3 h4
    rw [aco_construct]
    by_cases hlt : route.length < n
    · rw [if_pos hlt]
      have hne : (List.range n).filter (fun c => ¬ c ∈ route) ≠ [] := by
        intro hemp
        have hsub : List.range n ⊆ route := by
          intro c hc
          by_contra hcr
          have hc2 : c ∈ (List.range n).filter (fun c => ¬ c ∈ route) :=
            List.mem_filter.mpr ⟨hc, by simpa using hcr⟩
          rw [hemp] at hc2
          cases hc2
        have := ((List.nodup_range n).subperm hsub).length_le
        rw [List.length_range] at this
        omega
      rw [if_neg hne]
      dsimp only
      have hposlen : 0 <
          ((List.range n).filter (fun c => ¬ c ∈ route)).length :=
        List.length_pos.mpr hne
      have hnextmem := getD_mem_of_lt
        ((List.range n).filter (fun c => ¬ c ∈ route)) 0
        (pick route.length %
          ((List.range n).filter (fun c => ¬ c ∈ route)).length)
        (Nat.mod_lt _ hposlen)
      have hmf := List.mem_filter.mp hnextmem
      have hnr : ¬ ((List.range n).filter
          (fun c => ¬ c ∈ route)).getD (pick route.length %
          ((List.range n).filter (fun c => ¬ c ∈ route)).length) 0 ∈
          route := by simpa using hmf.2
      apply ih
      · rw [List.nodup_append]
        exact ⟨h1, List.nodup_singleton _, fun a ha hb => by
          rw [List.mem_singleton] at hb
          rw [hb] at ha
          exact hnr ha⟩
      · intro v hv
        rcases List.mem_append.mp hv with h | h
        · exact h2 v h
        · rw [List.mem_singleton] at h
          rw [h]
          exact List.mem_range.mp hmf.1
      · rw [List.length_append, List.length_singleton]
        omega
      · rw [List.length_append, List.length_singleton]
        omega
    · rw [if_neg hlt]
      exact ⟨h1, h2, by omega⟩

/-- `_construct_solution` returns a permutation of `[0, n)` for every
valid start draw. -/
theorem construct_solution_tour (n : ℕ) (start : ℕ) (pick : ℕ → ℕ)
    (hs : start < n) :
    (_construct_solution n start pick).Perm (List.range n) := by
  unfold _construct_solution
  obtain ⟨h1, h2, h3⟩ := aco_construct_inv n pick n [start]
    (List.nodup_singleton start)
    (fun v hv => by rw [List.mem_singleton] at hv; omega)
    (by rw [List.length_singleton]; omega)
    (by rw [List.length_singleton]; omega)
  exact perm_range_of n _ h1 h3 h2

theorem route_length_singleton (t : TSP) (s : ℕ) :
    route_length t [s] = t.dm s s := by
  rw [route_length]
  simp

/-- A fallible fold preserves a property along successful runs. -/
theorem foldlM_ok_inv {σ : Type} (f : σ → ℕ → Except String σ)
    (P : σ → Prop)
    (hf : ∀ st x st2, f st x = Except.ok st2 → P st → P st2) :
    ∀ (L : List ℕ) (st fin : σ), L.foldlM f st = Except.ok fin →
      P st → P fin := by
  intro L
  induction L with
  | nil =>
    intro st fin h hP
    rw [List.foldlM_nil] at h
    cases h
    exact hP
  | cons x L ih =>
    intro st fin h hP
    rw [List.foldlM_cons] at h
    rcases hfx : f st x with e | st2
    · rw [hfx] at h
      exact absurd h (by intro h2; cases h2)
    · rw [hfx] at h
      exact ih st2 fin h (hf st x st2 hfx hP)

/-- On a one-city model the first deposit divides by the zero length of
the single-city tour: `aco_iteration` raises. -/
theorem aco_iteration_n1_error (t : TSP) (hn : t.n = 1) (hz : ZeroDiag t)
    (m : ℕ) (rho q ew : ℚ) (R : AcoRand)
    (st : (ℕ → ℕ → ℚ) × Option (List ℕ × ℚ)) (it : ℕ) :
    aco_iteration t (m + 1) rho q ew R st it =
      Except.error "ZeroDivisionError: float division by zero" := by
  have hc : ∀ s p, _construct_solution t.n s p = [s] := by
    intro s p
    rw [hn]
    rfl
  have hr : ∀ s : ℕ, route_length t [s] = 0 := fun s => by
    rw [route_length_singleton, hz s]
  simp only [aco_iteration, List.range_succ_eq_map, List.map_cons]
  rw [hc (R.starts it 0) (R.picks it 0), hr (R.starts it 0), hn]
  rw [aco_deposit_all, if_pos rfl]
  rfl

/-- `ant_colony_optimization` on a one-city model raises
`ZeroDivisionError` as soon as one iteration with at least one ant
runs. -/
theorem ant_colony_optimization_n1_error (t : TSP) (hn : t.n = 1)
    (hz : ZeroDiag t) (n_ants n_iterations : ℕ) (ha : 1 ≤ n_ants)
    (hi : 1 ≤ n_iterations) (rho q ip ew : ℚ) (R : AcoRand) :
    ant_colony_optimization t n_ants n_iterations rho q ip ew R =
      Except.error "ZeroDivisionError: float division by zero" := by
  obtain ⟨m, rfl⟩ : ∃ m, n_ants = m + 1 := ⟨n_ants - 1, by omega⟩
  obtain ⟨k, rfl⟩ : ∃ k, n_iterations = k + 1 := ⟨n_iterations - 1, by omega⟩
  rw [ant_colony_optimization, List.range_succ_eq_map, List.foldlM_cons,
    aco_iteration_n1_error t hn hz m rho q ew R _ 0]
  rfl

theorem two_opt_tour (t : TSP) (r : List ℕ) (htour : IsTour t.n r)
    (pair : ℕ × ℕ) (hp : PairOk t.n pair) :
    IsTour t.n (two_opt r pair.1 pair.2) := by
  have hlen := tour_length_eq t.n r htour
  rcases hp with h | ⟨h1, h2, _⟩
  · rw [two_opt, if_pos (by omega)]
    exact htour
  · exact (two_opt_perm r pair.1 pair.2 (by omega) (by omega)).trans htour

/-- The 2-opt local-search loop keeps an exactly-priced tour. -/
theorem aco_local_search_inv (t : TSP) (iters : ℕ) (lspick : ℕ → ℕ × ℕ)
    (hls : ∀ k, PairOk t.n (lspick k)) (route : List ℕ) (dist : ℚ)
    (h : IsTour t.n route ∧ dist = route_length t route) :
    IsTour t.n (aco_local_search t iters lspick route dist).1 ∧
    (aco_local_search t iters lspick route dist).2 =
      route_length t (aco_local_search t iters lspick route dist).1 := by
  unfold aco_local_search
  refine foldl_pres (fun rd => IsTour t.n rd.1 ∧
    rd.2 = route_length t rd.1) _ ?_ (List.range iters) (route, dist) h
  intro rd k hrd
  dsimp only
  split
  · exact ⟨two_opt_tour t rd.1 hrd.1 (lspick k) (hls k), rfl⟩
  · exact hrd

/-- A successful `aco_iteration` updates the best tracker by folding the
ants through the usual `updBest` pattern: the tracked pair stays an
exactly-priced tour and never worsens. -/
theorem aco_iteration_ok_best (t : TSP) (n_ants : ℕ) (rho q ew : ℚ)
    (R : AcoRand) (hstarts : ∀ it ant, R.starts it ant < t.n)
    (st st2 : (ℕ → ℕ → ℚ) × Option (List ℕ × ℚ)) (it : ℕ)
    (h : aco_iteration t n_ants rho q ew R st it = Except.ok st2)
    (hbest : ∀ p, st.2 = some p → IsTour t.n p.1 ∧
      p.2 = route_length t p.1) :
    (∀ p, st2.2 = some p → IsTour t.n p.1 ∧ p.2 = route_length t p.1) ∧
    bestLe st2.2 st.2 := by
  rw [aco_iteration] at h
  have hsnd : st2.2 = ((List.range n_ants).map (fun ant =>
      let r := _construct_solution t.n (R.starts it ant) (R.picks it ant)
      (r, route_length t r))).foldl (fun b pc => updBest pc b) st.2 := by
    rcases hd : aco_deposit_all t.n q ((List.range n_ants).map (fun ant =>
      let r := _construct_solution t.n (R.starts it ant) (R.picks it ant)
      (r, route_length t r))) (aco_evaporate rho st.1) with e | ph2
    · rw [hd] at h
      exact Except.noConfusion h
    · rw [hd] at h
      rcases hb2 : ((List.range n_ants).map (fun ant =>
        let r := _construct_solution t.n (R.starts it ant)
          (R.picks it ant)
        (r, route_length t r))).foldl (fun b pc => updBest pc b) st.2
        with _ | bp
      · rw [hb2] at h
        cases h
        rfl
      · rw [hb2] at h
        dsimp only at h
        split_ifs at h
        · exact Except.noConfusion h
        · cases h
          rfl
        · cases h
          rfl
  rw [hsnd]
  constructor
  · apply foldl_updBest_prop _ _ ?_ _ hbest
    intro pc hpc
    obtain ⟨ant, _, rfl⟩ := List.mem_map.mp hpc
    exact ⟨construct_solution_tour t.n (R.starts it ant) (R.picks it ant)
      (hstarts it ant), rfl⟩
  · exact foldl_updBest_le _ _

/-- Along a successful run, `ant_colony_optimization` only ever reports
an exactly-priced tour. -/
theorem ant_colony_optimization_inv (t : TSP) (n_ants n_iterations : ℕ)
    (rho q ip ew : ℚ) (R : AcoRand)
    (hstarts : ∀ it ant, R.starts it ant < t.n) :
    ∀ res, ant_colony_optimization t n_ants n_iterations rho q ip ew R =
      Except.ok res →
    ∀ p, res = some p → IsTour t.n p.1 ∧ p.2 = route_length t p.1 := by
  intro res hres
  rw [ant_colony_optimization] at hres
  rcases hf : (List.range n_iterations).foldlM
    (fun st it => aco_iteration t n_ants rho q ew R st it)
    ((fun _ _ => ip, none) : (ℕ → ℕ → ℚ) × Option (List ℕ × ℚ))
    with e | fin
  · rw [hf] at hres
    exact Except.noConfusion hres
  · rw [hf] at hres
    cases hres
    have := foldlM_ok_inv
      (fun st it => aco_iteration t n_ants rho q ew R st it)
      (fun st => ∀ p, st.2 = some p → IsTour t.n p.1 ∧
        p.2 = route_length t p.1)
      (fun st x st3 hok hP =>
        (aco_iteration_ok_best t n_ants rho q ew R hstarts st st3 x hok
          hP).1)
      (List.range n_iterations) _ fin hf (fun p hp => by cases hp)
    exact this

theorem two_opt_small (r : List ℕ) (a b : ℕ) (h : r.length < 3) :
    two_opt r a b = r := by
  rw [two_opt, if_pos h]

/-- Local search on the degenerate one-city tour leaves it unchanged. -/
theorem aco_local_search_n1 (t : TSP) (iters : ℕ) (lspick : ℕ → ℕ × ℕ)
    (s : ℕ) :
    aco_local_search t iters lspick [s] (route_length t [s]) =
      ([s], route_length t [s]) := by
  unfold aco_local_search
  refine foldl_pres (fun rd => rd = ([s], route_length t [s])) _ ?_
    (List.range iters) ([s], route_length t [s]) rfl
  intro rd k hrd
  rw [hrd]
  dsimp only
  rw [two_opt_small [s] _ _ (by rw [List.length_singleton]; omega)]
  rw [if_neg (lt_irrefl _)]

/-- On a one-city model `aco_ls_iteration` raises at the deposit. -/
theorem aco_ls_iteration_n1_error (t : TSP) (hn : t.n = 1)
    (hz : ZeroDiag t) (m ls_iters : ℕ) (rho q : ℚ) (R : AcoRand)
    (st : (ℕ → ℕ → ℚ) × Option (List ℕ × ℚ)) (it : ℕ) :
    aco_ls_iteration t (m + 1) ls_iters rho q R st it =
      Except.error "ZeroDivisionError: float division by zero" := by
  have hc : ∀ s p, _construct_solution t.n s p = [s] := by
    intro s p
    rw [hn]
    rfl
  have hr : ∀ s : ℕ, route_length t [s] = 0 := fun s => by
    rw [route_length_singleton, hz s]
  simp only [aco_ls_iteration, List.range_succ_eq_map, List.map_cons]
  rw [hc (R.starts it 0) (R.picks it 0),
    aco_local_search_n1 t ls_iters (R.lspicks it 0) (R.starts it 0),
    hr (R.starts it 0), hn]
  rw [aco_deposit_all, if_pos rfl]
  rfl

/-- `aco_with_local_search` on a one-city model raises
`ZeroDivisionError` as soon as one iteration with at least one ant
runs. -/
theorem aco_with_local_search_n1_error (t : TSP) (hn : t.n = 1)
    (hz : ZeroDiag t) (n_ants n_iterations ls_iters : ℕ)
    (ha : 1 ≤ n_ants) (hi : 1 ≤ n_iterations) (rho q : ℚ) (R : AcoRand) :
    aco_with_local_search t n_ants n_iterations ls_iters rho q R =
      Except.error "ZeroDivisionError: float division by zero" := by
  obtain ⟨m, rfl⟩ : ∃ m, n_ants = m + 1 := ⟨n_ants - 1, by omega⟩
  obtain ⟨k, rfl⟩ : ∃ k, n_iterations = k + 1 := ⟨n_iterations - 1, by omega⟩
  rw [aco_with_local_search, List.range_succ_eq_map, List.foldlM_cons,
    aco_ls_iteration_n1_error t hn hz m ls_iters rho q R _ 0]
  rfl

/-- A successful `aco_ls_iteration` folds exactly-priced tours into the
best tracker. -/
theorem aco_ls_iteration_ok_best (t : TSP) (n_ants ls_iters : ℕ)
    (rho q : ℚ) (R : AcoRand)
    (hstarts : ∀ it ant, R.starts it ant < t.n)
    (hls : ∀ it ant k, PairOk t.n (R.lspicks it ant k))
    (st st2 : (ℕ → ℕ → ℚ) × Option (List ℕ × ℚ)) (it : ℕ)
    (h : aco_ls_iteration t n_ants ls_iters rho q R st it =
      Except.ok st2)
    (hbest : ∀ p, st.2 = some p → IsTour t.n p.1 ∧
      p.2 = route_length t p.1) :
    (∀ p, st2.2 = some p → IsTour t.n p.1 ∧ p.2 = route_length t p.1) ∧
    bestLe st2.2 st.2 := by
  rw [aco_ls_iteration] at h
  have hsnd : st2.2 = ((List.range n_ants).map (fun ant =>
      let r := _construct_solution t.n (R.starts it ant) (R.picks it ant)
      aco_local_search t ls_iters (R.lspicks it ant) r
        (route_length t r))).foldl (fun b pc => updBest pc b) st.2 := by
    rcases hd : aco_deposit_all t.n q ((List.range n_ants).map (fun ant =>
      let r := _construct_solution t.n (R.starts it ant) (R.picks it ant)
      aco_local_search t ls_iters (R.lspicks it ant) r
        (route_length t r))) (aco_evaporate rho st.1) with e | ph2
    · rw [hd] at h
      exact Except.noConfusion h
    · rw [hd] at h
      cases h
      rfl
  rw [hsnd]
  constructor
  · apply foldl_updBest_prop _ _ ?_ _ hbest
    intro pc hpc
    obtain ⟨ant, _, rfl⟩ := List.mem_map.mp hpc
    have := aco_local_search_inv t ls_iters (R.lspicks it ant)
      (hls it ant)
      (_construct_solution t.n (R.starts it ant) (R.picks it ant))
      (route_length t (_construct_solution t.n (R.starts it ant)
        (R.picks it ant)))
      ⟨construct_solution_tour t.n (R.starts it ant) (R.picks it ant)
        (hstarts it ant), rfl⟩
    exact this
  · exact foldl_updBest_le _ _

/-- Along a successful run, `aco_with_local_search` only ever reports an
exactly-priced tour. -/
theorem aco_with_local_search_inv (t : TSP)
    (n_ants n_iterations ls_iters : ℕ) (rho q : ℚ) (R : AcoRand)
    (hstarts : ∀ it ant, R.starts it ant < t.n)
    (hls : ∀ it ant k, PairOk t.n (R.lspicks it ant k)) :
    ∀ res, aco_with_local_search t n_ants n_iterations ls_iters rho q R =
      Except.ok res →
    ∀ p, res = some p → IsTour t.n p.1 ∧ p.2 = route_length t p.1 := by
  intro res hres
  rw [aco_with_local_search] at hres
  rcases hf : (List.range n_iterations).foldlM
    (fun st it => aco_ls_iteration t n_ants ls_iters rho q R st it)
    ((fun _ _ => (1 : ℚ), none) : (ℕ → ℕ → ℚ) × Option (List ℕ × ℚ))
    with e | fin
  · rw [hf] at hres
    exact Except.noConfusion hres
  · rw [hf] at hres
    cases hres
    exact foldlM_ok_inv
      (fun st it => aco_ls_iteration t n_ants ls_iters rho q R st it)
      (fun st => ∀ p, st.2 = some p → IsTour t.n p.1 ∧
        p.2 = route_length t p.1)
      (fun st x st3 hok hP =>
        (aco_ls_iteration_ok_best t n_ants ls_iters rho q R hstarts hls
          st st3 x hok hP).1)
      (List.range n_iterations) _ fin hf (fun p hp => by cases hp)

theorem updBest_some (pc : List ℕ × ℚ) (b : Option (List ℕ × ℚ)) :
    updBest pc b ≠ none := by
  cases b with
  | none => exact fun h => Option.noConfusion h
  | some p =>
    rw [updBest]
    split <;> exact fun h => Option.noConfusion h

theorem foldl_updBest_some :
    ∀ (L : List (List ℕ × ℚ)) (b : Option (List ℕ × ℚ)),
      (b ≠ none ∨ L ≠ []) →
      L.foldl (fun b pc => updBest pc b) b ≠ none := by
  intro L
  induction L with
  | nil =>
    intro b hb
    rcases hb with h | h
    · exact h
    · exact absurd rfl h
  | cons x L ih =>
    intro b _
    rw [List.foldl_cons]
    exact ih (updBest x b) (Or.inl (updBest_some x b))

/-- When every candidate and the initial tracker carry the same value,
so does the folded tracker. -/
theorem foldl_updBest_cval (c : ℚ) :
    ∀ (L : List (List ℕ × ℚ)), (∀ pc ∈ L, pc.2 = c) →
      ∀ (b : Option (List ℕ × ℚ)),
      (b = none ∨ ∃ p, b = some p ∧ p.2 = c) →
      (L.foldl (fun b pc => updBest pc b) b = none ∨
        ∃ p, L.foldl (fun b pc => updBest pc b) b = some p ∧
          p.2 = c) := by
  intro L
  induction L with
  | nil => intro _ b hb; exact hb
  | cons x L ih =>
    intro hL b hb
    rw [List.foldl_cons]
    apply ih (fun pc hpc => hL pc (List.mem_cons_of_mem _ hpc))
    right
    have hx := hL x (List.mem_cons_self _ _)
    cases b with
    | none => exact ⟨x, rfl, hx⟩
    | some p =>
      rcases hb with h | ⟨p2, hp2, hv2⟩
      · exact Option.noConfusion h
      · rw [updBest]
        split
        · exact ⟨x, rfl, hx⟩
        · injection hp2 with h
          subst h
          exact ⟨p, rfl, hv2⟩

/-- The deposit loop succeeds when no ant tour has zero length. -/
theorem aco_deposit_all_ok (n : ℕ) (q : ℚ) :
    ∀ (pairs : List (List ℕ × ℚ)) (ph : ℕ → ℕ → ℚ),
      (∀ pc ∈ pairs, pc.2 ≠ 0) →
      ∃ ph2, aco_deposit_all n q pairs ph = Except.ok ph2 := by
  intro pairs
  induction pairs with
  | nil => intro ph _; exact ⟨ph, rfl⟩
  | cons x rest ih =>
    intro ph hz
    obtain ⟨r, d⟩ := x
    rw [aco_deposit_all,
      if_neg (hz (r, d) (List.mem_cons_self _ _))]
    exact ih _ (fun pc hpc => hz pc (List.mem_cons_of_mem _ hpc))

/-- `aco_iteration` succeeds whenever no constructed tour (and no tracked
best) has zero length, and then updates the tracker by the `updBest`
fold. -/
theorem aco_iteration_ok_of (t : TSP) (n_ants : ℕ) (rho q ew : ℚ)
    (R : AcoRand) (st : (ℕ → ℕ → ℚ) × Option (List ℕ × ℚ)) (it : ℕ)
    (hpz : ∀ pc ∈ (List.range n_ants).map (fun ant =>
      let r := _construct_solution t.n (R.starts it ant) (R.picks it ant)
      (r, route_length t r)), pc.2 ≠ (0 : ℚ))
    (hbz : ∀ p, ((List.range n_ants).map (fun ant =>
      let r := _construct_solution t.n (R.starts it ant) (R.picks it ant)
      (r, route_length t r))).foldl (fun b pc => updBest pc b) st.2 =
      some p → p.2 ≠ 0) :
    ∃ st2, aco_iteration t n_ants rho q ew R st it = Except.ok st2 ∧
      st2.2 = ((List.range n_ants).map (fun ant =>
        let r := _construct_solution t.n (R.starts it ant)
          (R.picks it ant)
        (r, route_length t r))).foldl (fun b pc => updBest pc b)
        st.2 := by
  obtain ⟨ph2, hdep⟩ := aco_deposit_all_ok t.n q _ (aco_evaporate rho st.1)
    hpz
  simp only [aco_iteration]
  rw [hdep]
  rcases hb : ((List.range n_ants).map (fun ant =>
      let r := _construct_solution t.n (R.starts it ant) (R.picks it ant)
      (r, route_length t r))).foldl (fun b pc => updBest pc b) st.2
    with _ | bp
  · exact ⟨(ph2, none), rfl, rfl⟩
  · dsimp only
    split_ifs with h1 h2
    · exact absurd h2 (hbz bp hb)
    · exact ⟨(aco_deposit t.n (ew * q / bp.2) bp.1 ph2, some bp), rfl, rfl⟩
    · exact ⟨(ph2, some bp), rfl, rfl⟩

/-- On a symmetric two-city model with a nonzero off-diagonal distance,
each ACO iteration succeeds and tracks a best of exactly
`2 * dist[0][1]`. -/
theorem aco_iteration_n2_step (t : TSP) (hn : t.n = 2) (ht : Symm t)
    (hd : t.dm 0 1 ≠ 0) (m : ℕ) (rho q ew : ℚ) (R : AcoRand)
    (hstarts : ∀ it ant, R.starts it ant < t.n)
    (st : (ℕ → ℕ → ℚ) × Option (List ℕ × ℚ)) (it : ℕ)
    (hstP : st.2 = none ∨ ∃ p, st.2 = some p ∧ p.2 = 2 * t.dm 0 1) :
    ∃ st2, aco_iteration t (m + 1) rho q ew R st it = Except.ok st2 ∧
      ∃ p, st2.2 = some p ∧ p.2 = 2 * t.dm 0 1 := by
  have h2d : (2 : ℚ) * t.dm 0 1 ≠ 0 := mul_ne_zero two_ne_zero hd
  have hpair : ∀ pc ∈ (List.range (m + 1)).map (fun ant =>
      let r := _construct_solution t.n (R.starts it ant) (R.picks it ant)
      (r, route_length t r)), pc.2 = 2 * t.dm 0 1 := by
    intro pc hpc
    obtain ⟨ant, _, rfl⟩ := List.mem_map.mp hpc
    dsimp only
    apply rl_two t ht
    have h0 := construct_solution_tour t.n (R.starts it ant)
      (R.picks it ant) (hstarts it ant)
    rw [IsTour, ← hn]
    exact h0
  have hcval := foldl_updBest_cval (2 * t.dm 0 1) _ hpair st.2 hstP
  have hsome := foldl_updBest_some ((List.range (m + 1)).map (fun ant =>
      let r := _construct_solution t.n (R.starts it ant) (R.picks it ant)
      (r, route_length t r))) st.2 (Or.inr (by simp))
  obtain ⟨st2, heq, hsnd⟩ := aco_iteration_ok_of t (m + 1) rho q ew R st
    it (fun pc hpc => by rw [hpair pc hpc]; exact h2d)
    (fun p hp => by
      rcases hcval with h | ⟨p2, hp2, hv2⟩
      · exact absurd h hsome
      · rw [hp] at hp2
        cases hp2
        rw [hv2]
        exact h2d)
  refine ⟨st2, heq, ?_⟩
  rcases hcval with h | ⟨p2, hp2, hv2⟩
  · exact absurd h hsome
  · exact ⟨p2, by rw [hsnd]; exact hp2, hv2⟩

/-- `ant_colony_optimization` on a symmetric two-city model with nonzero
distance returns a best of exactly `2 * dist[0][1]`. -/
theorem ant_colony_optimization_n2 (t : TSP) (hn : t.n = 2) (ht : Symm t)
    (hd : t.dm 0 1 ≠ 0) (n_ants n_iterations : ℕ) (ha : 1 ≤ n_ants)
    (hi : 1 ≤ n_iterations) (rho q ip ew : ℚ) (R : AcoRand)
    (hstarts : ∀ it ant, R.starts it ant < t.n) :
    ∃ p, ant_colony_optimization t n_ants n_iterations rho q ip ew R =
      Except.ok (some p) ∧ p.2 = 2 * t.dm 0 1 := by
  obtain ⟨m, rfl⟩ : ∃ m, n_ants = m + 1 := ⟨n_ants - 1, by omega⟩
  obtain ⟨k, rfl⟩ : ∃ k, n_iterations = k + 1 := ⟨n_iterations - 1, by omega⟩
  obtain ⟨st1, heq1, hP1⟩ := aco_iteration_n2_step t hn ht hd m rho q ew R
    hstarts ((fun _ _ => ip, none) :
      (ℕ → ℕ → ℚ) × Option (List ℕ × ℚ)) 0 (Or.inl rfl)
  obtain ⟨fin, heqf, hPf, _⟩ := foldlM_sound
    (fun st it => aco_iteration t (m + 1) rho q ew R st it)
    (fun st => ∃ p, st.2 = some p ∧ p.2 = 2 * t.dm 0 1)
    (fun _ _ => True) (fun _ => trivial) (fun _ _ _ _ _ => trivial)
    (fun st x hst => by
      obtain ⟨st2, he, hp⟩ := aco_iteration_n2_step t hn ht hd m rho q ew
        R hstarts st x (Or.inr hst)
      exact ⟨st2, he, hp, trivial⟩)
    ((List.range k).map Nat.succ) st1 hP1
  obtain ⟨p, hp, hv⟩ := hPf
  refine ⟨p, ?_, hv⟩
  rw [ant_colony_optimization, List.range_succ_eq_map, List.foldlM_cons,
    heq1]
  show (List.map Nat.succ (List.range k)).foldlM
    (fun st it => aco_iteration t (m + 1) rho q ew R st it) st1 >>=
    (fun fin => pure fin.2) = Except.ok (some p)
  rw [heqf]
  show Except.ok fin.2 = Except.ok (some p)
  rw [hp]

/-! ## The `TSP.__init__` constructor (`src/utils/tsp.py` lines 21-36)

`data` is a Python list whose items are lists (matrix rows, or
coordinate pairs written as 2-element lists) or tuples (coordinate
pairs); `PyItem` mirrors that distinction, which is all
`isinstance(data[0], list)` inspects.  `math.hypot` is real-valued, so
the coordinate branch computes its entries through an uninterpreted
`hypot` parameter absorbing the pair unpacking; every claim under
verification concerns only the dispatch, the stored matrix and `n`,
never those numeric values. -/

/-- A Python list item: a list (`isinstance(x, list)` holds) or a
tuple. -/
inductive PyItem where
  | plist : List ℚ → PyItem
  | ptuple : ℚ × ℚ → PyItem
deriving DecidableEq

/-- `isinstance(x, list)`. -/
def isPyList : PyItem → Bool
  | PyItem.plist _ => true
  | PyItem.ptuple _ => false

/-- The state `TSP.__init__` leaves behind. -/
structure PyTSP where
  n : ℕ
  dist_matrix : List PyItem
  coords : Option (List PyItem)
deriving DecidableEq

/-- `TSP.__init__`: `if data and isinstance(data[0], list)` keeps `data`
as the matrix; otherwise `data` becomes the coordinate list and the
matrix is computed from it (`_compute_dist_matrix`, lines 38-55). -/
def TSP_init (hypot : PyItem → PyItem → ℚ) (data : List PyItem) : PyTSP :=
  if data ≠ [] ∧ isPyList (data.getD 0 (PyItem.ptuple (0, 0))) = true then
    { n := data.length, dist_matrix := data, coords := none }
  else
    { n := data.length,
      dist_matrix := (List.range data.length).map (fun i => PyItem.plist
        ((List.range data.length).map (fun j =>
          hypot (data.getD i (PyItem.ptuple (0, 0)))
            (data.getD j (PyItem.ptuple (0, 0)))))),
      coords := some data }

/-- Matrix-branch dispatch: a non-empty list whose first item is a list
is stored unchanged, with `n` its row count and no validity check. -/
theorem TSP_init_matrix (hypot : PyItem → PyItem → ℚ) (row : List ℚ)
    (rest : List PyItem) :
    TSP_init hypot (PyItem.plist row :: rest) =
      { n := (PyItem.plist row :: rest).length,
        dist_matrix := PyItem.plist row :: rest, coords := none } := by
  rw [TSP_init, if_pos]
  exact ⟨fun h => List.noConfusion h, rfl⟩

/-- The empty list fails the truthiness test and lands in the coordinate
branch: `n = 0`, empty matrix, no error. -/
theorem TSP_init_empty (hypot : PyItem → PyItem → ℚ) :
    TSP_init hypot [] = { n := 0, dist_matrix := [], coords := some [] }
    := by
  rw [TSP_init, if_neg]
  · rfl
  · intro h
    exact h.1 rfl

/-- A non-empty input whose first item is a tuple lands in the
coordinate branch with `n` the number of coordinates. -/
theorem TSP_init_coords (hypot : PyItem → PyItem → ℚ) (xy : ℚ × ℚ)
    (rest : List PyItem) :
    (TSP_init hypot (PyItem.ptuple xy :: rest)).n =
      (PyItem.ptuple xy :: rest).length ∧
    (TSP_init hypot (PyItem.ptuple xy :: rest)).coords =
      some (PyItem.ptuple xy :: rest) := by
  rw [TSP_init, if_neg]
  · exact ⟨rfl, rfl⟩
  · intro h
    rw [List.getD_cons_zero] at h
    exact Bool.noConfusion h.2

/-! ### Entry-level invariants for SA and TS -/

/-- `simulated_annealing` returns a tour priced exactly by
`route_length`. -/
theorem simulated_annealing_inv (t : TSP) (temp alpha : ℚ)
    (iterations : ℕ) (neighborhood cooling_method : String) (ipt : ℕ)
    (use_nn_start : Bool) (init : List ℕ) (nn_start : ℕ)
    (pairs : ℕ → ℕ → ℕ × ℕ) (accs : ℕ → ℕ → Bool) (logQ : ℚ → ℚ)
    (hpairs : ∀ i j, PairOk t.n (pairs i j))
    (hinit : use_nn_start = false → IsTour t.n init)
    (hnn : use_nn_start = true → nn_start < t.n) :
    IsTour t.n (simulated_annealing t temp alpha iterations neighborhood
      cooling_method ipt use_nn_start init nn_start pairs accs logQ).1 ∧
    (simulated_annealing t temp alpha iterations neighborhood
      cooling_method ipt use_nn_start init nn_start pairs accs logQ).2 =
    route_length t (simulated_annealing t temp alpha iterations
      neighborhood cooling_method ipt use_nn_start init nn_start pairs
      accs logQ).1 := by
  have hstart : IsTour t.n (if use_nn_start then
        nearest_neighbor t nn_start
        else (init, route_length t init)).1 ∧
      (if use_nn_start then nearest_neighbor t nn_start
        else (init, route_length t init)).2 =
      route_length t (if use_nn_start then nearest_neighbor t nn_start
        else (init, route_length t init)).1 := by
    split
  <;> rename_i h
    · exact nearest_neighbor_correct t nn_start (hnn h)
    · exact ⟨hinit (Bool.eq_false_iff.mpr h), rfl⟩
  have hfin := sa_outer_inv t neighborhood ipt temp alpha cooling_method
    logQ iterations pairs accs hpairs iterations 0
    ⟨(if use_nn_start then nearest_neighbor t nn_start
        else (init, route_length t init)).1,
      (if use_nn_start then nearest_neighbor t nn_start
        else (init, route_length t init)).2,
      (if use_nn_start then nearest_neighbor t nn_start
        else (init, route_length t init)).1,
      (if use_nn_start then nearest_neighbor t nn_start
        else (init, route_length t init)).2, temp⟩
    ⟨hstart.1, hstart.2, hstart.1, hstart.2⟩
  exact ⟨hfin.2.2.1, hfin.2.2.2⟩

/-- `tabu_search` returns a tour priced exactly by `route_length`. -/
theorem tabu_search_inv (t : TSP) (iterations tabu_size : ℕ)
    (neighborhood : String) (aspiration : Bool) (cpi : ℕ)
    (limit : Option ℕ) (use_nn_start : Bool) (init : List ℕ)
    (nn_start : ℕ) (cpicks : ℕ → ℕ → ℕ × ℕ)
    (hpicks : ∀ i j, PairOk t.n (cpicks i j))
    (hinit : use_nn_start = false → IsTour t.n init)
    (hnn : use_nn_start = true → nn_start < t.n) :
    IsTour t.n (tabu_search t iterations tabu_size neighborhood
      aspiration cpi limit use_nn_start init nn_start cpicks).1 ∧
    (tabu_search t iterations tabu_size neighborhood aspiration cpi
      limit use_nn_start init nn_start cpicks).2 =
    route_length t (tabu_search t iterations tabu_size neighborhood
      aspiration cpi limit use_nn_start init nn_start cpicks).1 := by
  have hstart : IsTour t.n (if use_nn_start then
        nearest_neighbor t nn_start
        else (init, route_length t init)).1 ∧
      (if use_nn_start then nearest_neighbor t nn_start
        else (init, route_length t init)).2 =
      route_length t (if use_nn_start then nearest_neighbor t nn_start
        else (init, route_length t init)).1 := by
    split
  <;> rename_i h
    · exact nearest_neighbor_correct t nn_start (hnn h)
    · exact ⟨hinit (Bool.eq_false_iff.mpr h), rfl⟩
  have hfin := ts_loop_inv t neighborhood tabu_size aspiration cpi limit
    cpicks hpicks iterations 0
    ⟨(if use_nn_start then nearest_neighbor t nn_start
        else (init, route_length t init)).1,
      (if use_nn_start then nearest_neighbor t nn_start
        else (init, route_length t init)).2,
      (if use_nn_start then nearest_neighbor t nn_start
        else (init, route_length t init)).1,
      (if use_nn_start then nearest_neighbor t nn_start
        else (init, route_length t init)).2, [], 0⟩
    ⟨hstart.1, hstart.2, hstart.1, hstart.2⟩
  exact ⟨hfin.2.2.1, hfin.2.2.2⟩

/-! ## Concrete instances for witnesses and counterexamples -/

/-- A one-city model (all distances zero). -/
def exT1 : TSP := ⟨1, fun _ _ => 0⟩

/-- A two-city model with unit off-diagonal distances. -/
def exT2 : TSP := ⟨2, fun i j => if i = j then 0 else 1⟩

/-- A three-city model with unit off-diagonal distances. -/
def exT3 : TSP := ⟨3, fun i j => if i = j then 0 else 1⟩

theorem exT2_symm : Symm exT2 := by
  intro i j
  by_cases h : i = j
  · rw [h]
  · simp only [exT2]
    rw [if_neg h, if_neg (fun hh => h hh.symm)]

theorem exT3_symm : Symm exT3 := by
  intro i j
  by_cases h : i = j
  · rw [h]
  · simp only [exT3]
    rw [if_neg h, if_neg (fun hh => h hh.symm)]

theorem exT2_nonneg : Nonneg exT2 := by
  intro i j
  simp only [exT2]
  split <;> norm_num

theorem exT1_zdiag : ZeroDiag exT1 := fun i => rfl

/-- A fixed draw stream for ACO runs on the examples. -/
def exAcoR : AcoRand :=
  ⟨fun _ _ => 0, fun _ _ _ => 0, fun _ _ _ => (0, 1), fun _ => false⟩

/-- A fixed draw stream for GA runs on the examples. -/
def exGaR : GaRand :=
  ⟨fun _ => [0, 1], fun _ _ => false, fun _ _ => (0, 1), fun _ _ => false,
    fun _ _ => (0, 1), fun _ _ _ => [0], fun _ _ _ => 0⟩

/-! ## The claims -/

/-- C1: delta-evaluation correctness.  Amended: `insert_delta` is exact
everywhere; `two_opt_delta` is exact on symmetric models;
`swap_delta` is exact for every valid draw except on two-city routes,
where its adjacent-positions branch double-counts the two edges
(`claim_C1_counterexample`). -/
theorem claim_C1 (t : TSP) (r : List ℕ) (a0 b0 : ℕ) :
    (a0 < r.length → b0 < r.length → a0 ≠ b0 → r.length ≠ 2 →
      route_length t (swap_delta t r a0 b0).1 =
        route_length t r + (swap_delta t r a0 b0).2) ∧
    (route_length t (insert_delta t r a0 b0).1 =
      route_length t r + (insert_delta t r a0 b0).2) ∧
    (Symm t → a0 < r.length → b0 < r.length →
      route_length t (two_opt_delta t r a0 b0).1 =
        route_length t r + (two_opt_delta t r a0 b0).2) :=
  ⟨fun ha hb hab hn => swap_delta_correct t r a0 b0 ha hb hab hn,
   insert_delta_correct t r a0 b0,
   fun ht ha hb => two_opt_delta_correct t ht r a0 b0 ha hb⟩

theorem claim_C1_witness :
    route_length exT3 (swap_delta exT3 [0, 1, 2] 0 1).1 =
      route_length exT3 [0, 1, 2] + (swap_delta exT3 [0, 1, 2] 0 1).2 ∧
    route_length exT3 (insert_delta exT3 [0, 1, 2] 0 1).1 =
      route_length exT3 [0, 1, 2] + (insert_delta exT3 [0, 1, 2] 0 1).2 ∧
    route_length exT3 (two_opt_delta exT3 [0, 1, 2] 0 1).1 =
      route_length exT3 [0, 1, 2] + (two_opt_delta exT3 [0, 1, 2] 0 1).2
    := by
  obtain ⟨h1, h2, h3⟩ := claim_C1 exT3 [0, 1, 2] 0 1
  exact ⟨h1 (by decide) (by decide) (by decide) (by decide), h2,
    h3 exT3_symm (by decide) (by decide)⟩

/-- On the unit two-city model, `swap_delta` on the adjacent pair
`(0, 1)` reports `-2` while the true length change is `0`. -/
theorem claim_C1_counterexample :
    (swap_delta exT2 [0, 1] 0 1).2 ≠
      route_length exT2 (swap_delta exT2 [0, 1] 0 1).1 -
        route_length exT2 [0, 1] := by
  norm_num [swap_delta, exT2, route_length, Finset.sum_range_succ]

/-- C4: the claimed `InvalidInputError` does not exist.  Amended:
`TSP.__init__` validates nothing — a non-empty list whose first element
is a list (square or not) is stored unchanged as the distance matrix
with `n = len(data)`, and the empty list silently takes the coordinate
branch with `n = 0`. -/
theorem claim_C4 (hypot : PyItem → PyItem → ℚ) (row : List ℚ)
    (rest : List PyItem) :
    TSP_init hypot (PyItem.plist row :: rest) =
      { n := (PyItem.plist row :: rest).length,
        dist_matrix := PyItem.plist row :: rest, coords := none } ∧
    TSP_init hypot [] =
      { n := 0, dist_matrix := [], coords := some [] } :=
  ⟨TSP_init_matrix hypot row rest, TSP_init_empty hypot⟩

/-- Constructing from the non-square matrix `[[0, 1]]` succeeds with
`n = 1` and the row stored unchanged, and from `[]` succeeds with
`n = 0` — no `InvalidInputError` is ever raised. -/
theorem claim_C4_counterexample :
    TSP_init (fun _ _ => 0) [PyItem.plist [0, 1]] =
      { n := 1, dist_matrix := [PyItem.plist [0, 1]], coords := none } ∧
    TSP_init (fun _ _ => 0) [] =
      { n := 0, dist_matrix := [], coords := some [] } :=
  ⟨TSP_init_matrix (fun _ _ => 0) [0, 1] [], TSP_init_empty (fun _ _ => 0)⟩

/-- C10: `TSP.__init__` dispatches solely on `data and
isinstance(data[0], list)`: such input is the stored matrix, unchecked;
the empty list is an empty coordinate list with `n = 0`; coordinate
pairs written as two-element lists are silently taken for a distance
matrix. -/
theorem claim_C10 (hypot : PyItem → PyItem → ℚ) :
    (∀ (row : List ℚ) (rest : List PyItem),
      TSP_init hypot (PyItem.plist row :: rest) =
        { n := (PyItem.plist row :: rest).length,
          dist_matrix := PyItem.plist row :: rest, coords := none }) ∧
    (TSP_init hypot [] =
      { n := 0, dist_matrix := [], coords := some [] }) ∧
    (∀ (xy : ℚ × ℚ) (rest : List PyItem),
      (TSP_init hypot (PyItem.ptuple xy :: rest)).n =
        (PyItem.ptuple xy :: rest).length ∧
      (TSP_init hypot (PyItem.ptuple xy :: rest)).coords =
        some (PyItem.ptuple xy :: rest)) ∧
    (∀ (x y : ℚ) (rest : List PyItem),
      (TSP_init hypot (PyItem.plist [x, y] :: rest)).dist_matrix =
        PyItem.plist [x, y] :: rest ∧
      (TSP_init hypot (PyItem.plist [x, y] :: rest)).coords = none) :=
  ⟨fun row rest => TSP_init_matrix hypot row rest,
   TSP_init_empty hypot,
   fun xy rest => TSP_init_coords hypot xy rest,
   fun x y rest => by rw [TSP_init_matrix hypot [x, y] rest]; exact ⟨rfl, rfl⟩⟩

/-- C7: crossover validity.  OX, PMX and CX each return a permutation of
the parents' shared city set, and the PMX mapping chain always leaves
the copied segment (so its while-loop terminates) for permutation
parents. -/
theorem claim_C7 (p1 p2 : List ℕ) (hp : p1.Perm p2) (hnd : p1.Nodup) :
    (∀ a0 b0, (order_crossover p1 p2 a0 b0).Perm p1) ∧
    ((cycle_crossover p1 p2).Perm p1) ∧
    (∀ a0 b0, a0 < p1.length → b0 < p1.length →
      (pmx_crossover p1 p2 a0 b0).Perm p1) ∧
    (∀ a b i, b ≤ p1.length → a ≤ i → i < b →
      ¬ p2.getD i 0 ∈ (p1.drop a).take (b - a) →
      ¬ (a ≤ pmx_chase p1 p2 a b (p1.length + 1)
          (p2.indexOf (p1.getD i 0)) ∧
        pmx_chase p1 p2 a b (p1.length + 1)
          (p2.indexOf (p1.getD i 0)) < b)) := by
  refine ⟨fun a0 b0 => order_crossover_perm p1 p2 hp hnd a0 b0,
    cycle_crossover_perm p1 p2 hp hnd,
    fun a0 b0 h1 h2 => pmx_crossover_perm p1 p2 hp hnd a0 b0 h1 h2, ?_⟩
  intro a b i hbn hia hib hout
  obtain ⟨m, hm1, hmn, hout2, hin⟩ := pmx_exit p1 p2 hp hnd a b hbn i hia
    hib hout
  have hcs := pmx_chase_spec p1 p2 a b i m hin hout2 (p1.length + 1) 1
    le_rfl hm1 (by omega)
  rw [Function.iterate_one] at hcs
  rw [show p2.indexOf (p1.getD i 0) = posMap p2 p1 i from rfl, hcs]
  exact hout2

theorem claim_C7_witness :
    (order_crossover [0, 1, 2, 3] [2, 0, 3, 1] 1 2).Perm [0, 1, 2, 3] ∧
    (cycle_crossover [0, 1, 2, 3] [2, 0, 3, 1]).Perm [0, 1, 2, 3] ∧
    (pmx_crossover [0, 1, 2, 3] [2, 0, 3, 1] 1 2).Perm [0, 1, 2, 3] := by
  have h := claim_C7 [0, 1, 2, 3] [2, 0, 3, 1] (by decide) (by decide)
  exact ⟨h.1 1 2, h.2.1, h.2.2.1 1 2 (by decide) (by decide)⟩

/-- C8: at zero temperature the Metropolis step is exactly the
strict-improvement hill-climbing step the spec describes, so every
accepted move strictly decreases the current cost and the current
distance never increases across the run. -/
theorem claim_C8 (t : TSP) (mf : List ℕ → ℕ → ℕ → List ℕ) :
    (∀ (pair : ℕ × ℕ) (acc : Bool) (st : SaState), st.temp = 0 →
      sa_metropolis t mf pair acc st = spec_hill_climb_step t mf pair st)
    ∧
    (∀ (pair : ℕ × ℕ) (acc : Bool) (st : SaState), st.temp = 0 →
      (sa_metropolis t mf pair acc st).dist ≤ st.dist) ∧
    (∀ (ipt : ℕ) (alpha : ℚ) (method : String) (logQ : ℚ → ℚ) (mi : ℕ)
      (pairs : ℕ → ℕ → ℕ × ℕ) (accs : ℕ → ℕ → Bool) (k i : ℕ)
      (st : SaState), st.temp = 0 →
      (sa_outer t mf ipt 0 alpha method logQ mi pairs accs k i st).dist ≤
        st.dist) :=
  ⟨fun pair acc st h => sa_metropolis_zero_temp_eq t mf pair acc st h,
   fun pair acc st h => sa_metropolis_zero_temp_dist t mf pair acc st h,
   fun ipt alpha method logQ mi pairs accs k i st h =>
     sa_outer_zero_temp_dist t mf ipt alpha method logQ mi pairs accs k i
       st h⟩

theorem claim_C8_witness :
    sa_metropolis exT2 (NEIGHBORHOODS "swap") (0, 1) false
      ⟨[0, 1], 2, [0, 1], 2, 0⟩ =
      spec_hill_climb_step exT2 (NEIGHBORHOODS "swap") (0, 1)
        ⟨[0, 1], 2, [0, 1], 2, 0⟩ ∧
    (sa_metropolis exT2 (NEIGHBORHOODS "swap") (0, 1) false
      ⟨[0, 1], 2, [0, 1], 2, 0⟩).dist ≤ 2 ∧
    (sa_outer exT2 (NEIGHBORHOODS "swap") 1 0 (1/2) "geometric"
      (fun _ => 0) 3 (fun _ _ => (0, 1)) (fun _ _ => false) 3 0
      ⟨[0, 1], 2, [0, 1], 2, 0⟩).dist ≤ 2 := by
  have h := claim_C8 exT2 (NEIGHBORHOODS "swap")
  exact ⟨h.1 (0, 1) false ⟨[0, 1], 2, [0, 1], 2, 0⟩ rfl,
    h.2.1 (0, 1) false ⟨[0, 1], 2, [0, 1], 2, 0⟩ rfl,
    h.2.2 1 (1/2) "geometric" (fun _ => 0) 3 (fun _ _ => (0, 1))
      (fun _ _ => false) 3 0 ⟨[0, 1], 2, [0, 1], 2, 0⟩ rfl⟩

/-- C9: the tabu list is a bounded FIFO — it never exceeds `tabu_size`,
evicts oldest-first when full, and at `tabu_size = 0` it is empty at
every iteration, making the aspiration flag irrelevant to the whole
run. -/
theorem claim_C9 (t : TSP) (name : String) :
    (∀ (maxlen : ℕ) (x : List ℕ) (q : List (List ℕ)),
      q.length ≤ maxlen → (tabuPush maxlen x q).length ≤ maxlen) ∧
    (∀ (maxlen : ℕ) (x : List ℕ) (q : List (List ℕ)), 1 ≤ maxlen →
      q.length = maxlen → tabuPush maxlen x q = q.drop 1 ++ [x]) ∧
    (∀ (tabu_size : ℕ) (aspiration : Bool) (cands : ℕ) (limit : Option ℕ)
      (cpicks : ℕ → ℕ → ℕ × ℕ) (k i : ℕ) (st : TsState),
      st.tabu.length ≤ tabu_size →
      (ts_loop t (NEIGHBORHOODS name) tabu_size aspiration cands limit
        cpicks k i st).tabu.length ≤ tabu_size) ∧
    (∀ (aspiration : Bool) (cands : ℕ) (limit : Option ℕ)
      (cpicks : ℕ → ℕ → ℕ × ℕ) (k i : ℕ) (st : TsState),
      st.tabu.length ≤ 0 →
      (ts_loop t (NEIGHBORHOODS name) 0 aspiration cands limit cpicks k i
        st).tabu = []) ∧
    (∀ (iterations : ℕ) (a1 a2 : Bool) (cands : ℕ) (limit : Option ℕ)
      (use_nn : Bool) (init : List ℕ) (nn_start : ℕ)
      (cpicks : ℕ → ℕ → ℕ × ℕ),
      tabu_search t iterations 0 name a1 cands limit use_nn init nn_start
        cpicks =
      tabu_search t iterations 0 name a2 cands limit use_nn init nn_start
        cpicks) := by
  refine ⟨fun maxlen x q h => tabuPush_length_le maxlen x q h,
    fun maxlen x q hm h => tabuPush_full maxlen x q hm h,
    fun tabu_size aspiration cands limit cpicks k i st h =>
      ts_loop_tabu_le t (NEIGHBORHOODS name) tabu_size aspiration cands
        limit cpicks k i st h,
    ?_,
    fun iterations a1 a2 cands limit use_nn init nn_start cpicks =>
      tabu_search_zero_asp t iterations name a1 a2 cands limit use_nn
        init nn_start cpicks⟩
  intro aspiration cands limit cpicks k i st h
  have h2 := ts_loop_tabu_le t (NEIGHBORHOODS name) 0 aspiration cands
    limit cpicks k i st h
  exact List.length_eq_zero.mp (by omega)

theorem claim_C9_witness :
    (tabuPush 2 [0, 1] [[1, 0]]).length ≤ 2 ∧
    tabuPush 2 [0, 1] [[1, 0], [0, 1]] = [[0, 1], [0, 1]] ∧
    (ts_loop exT2 (NEIGHBORHOODS "swap") 0 true 1 none (fun _ _ => (0, 1))
      2 0 ⟨[0, 1], 2, [0, 1], 2, [], 0⟩).tabu = [] ∧
    tabu_search exT2 3 0 "swap" true 1 none false [0, 1] 0
      (fun _ _ => (0, 1)) =
    tabu_search exT2 3 0 "swap" false 1 none false [0, 1] 0
      (fun _ _ => (0, 1)) := by
  have h := claim_C9 exT2 "swap"
  exact ⟨h.1 2 [0, 1] [[1, 0]] (by decide),
    h.2.1 2 [0, 1] [[1, 0], [0, 1]] (by decide) (by decide),
    h.2.2.2.1 true 1 none (fun _ _ => (0, 1)) 2 0
      ⟨[0, 1], 2, [0, 1], 2, [], 0⟩ (by decide),
    h.2.2.2.2 3 true false 1 none false [0, 1] 0 (fun _ _ => (0, 1))⟩

/-- C2: degenerate instances.  Amended: on a symmetric two-city model
every total entry point reports a best length of exactly
`2 * dist[0][1]` (IHC so long as its delta operator is not the
two-city-broken `swap`; ACO when `dist[0][1] ≠ 0`, where its deposits
are well defined); but the claim's universal "returns without error"
part is false — on a one-city model the ACO deposit `q / dist` divides
by the zero length of the single-city tour
(`claim_C2_counterexample`). -/
theorem claim_C2 (t : TSP) (hn : t.n = 2) (ht : Symm t) :
    (∀ s, s < 2 → (nearest_neighbor t s).2 = 2 * t.dm 0 1) ∧
    (∀ (iterations restarts : ℕ) (neighborhood : String)
      (limit : Option ℕ) (use_nn : Bool) (inits : ℕ → List ℕ)
      (nn_start : ℕ) (picks : ℕ → ℕ → ℕ × ℕ), neighborhood ≠ "swap" →
      (∀ r, (inits r).Perm (List.range t.n)) →
      (use_nn = true → nn_start < t.n) →
      (∀ r i, PairOk t.n (picks r i)) →
      ∀ p, iterative_hill_climbing t iterations restarts neighborhood
        limit use_nn inits nn_start picks = some p →
        p.2 = 2 * t.dm 0 1) ∧
    (∀ (temp alpha : ℚ) (iterations : ℕ) (nb cm : String) (ipt : ℕ)
      (use_nn : Bool) (init : List ℕ) (nn_start : ℕ)
      (prs : ℕ → ℕ → ℕ × ℕ) (accs : ℕ → ℕ → Bool) (logQ : ℚ → ℚ),
      (∀ i j, PairOk t.n (prs i j)) →
      (use_nn = false → IsTour t.n init) →
      (use_nn = true → nn_start < t.n) →
      (simulated_annealing t temp alpha iterations nb cm ipt use_nn init
        nn_start prs accs logQ).2 = 2 * t.dm 0 1) ∧
    (∀ (iterations tabu_size : ℕ) (nb : String) (aspiration : Bool)
      (cpi : ℕ) (limit : Option ℕ) (use_nn : Bool) (init : List ℕ)
      (nn_start : ℕ) (cpicks : ℕ → ℕ → ℕ × ℕ),
      (∀ i j, PairOk t.n (cpicks i j)) →
      (use_nn = false → IsTour t.n init) →
      (use_nn = true → nn_start < t.n) →
      (tabu_search t iterations tabu_size nb aspiration cpi limit use_nn
        init nn_start cpicks).2 = 2 * t.dm 0 1) ∧
    (∀ (pop_size generations : ℕ) (stype ctype mtype : String)
      (elitism : ℕ) (use_nn : Bool) (R : GaRand), 0 < pop_size →
      (use_nn = true → min 5 t.n ≤ pop_size) →
      (∀ r, (R.inits r).Perm (List.range t.n)) →
      (∀ gen c k, R.tsel gen c k ≠ [] ∧
        ∀ i ∈ R.tsel gen c k, i < pop_size) →
      (∀ gen c, PairOk t.n (R.crossP gen c)) →
      (∀ gen c, PairOk t.n (R.mutP gen c)) →
      ∀ res, genetic_algorithm t pop_size generations stype ctype mtype
        elitism use_nn R = Except.ok res →
      ∀ p, res = some p → p.2 = 2 * t.dm 0 1) ∧
    (t.dm 0 1 ≠ 0 → ∀ (n_ants n_iterations : ℕ), 1 ≤ n_ants →
      1 ≤ n_iterations → ∀ (rho q ip ew : ℚ) (R : AcoRand),
      (∀ it ant, R.starts it ant < t.n) →
      ∀ res, ant_colony_optimization t n_ants n_iterations rho q ip ew R
        = Except.ok res → ∀ p, res = some p → p.2 = 2 * t.dm 0 1) := by
  refine ⟨?_, ?_, ?_, ?_, ?_, ?_⟩
  · intro s hs
    obtain ⟨h1, h2⟩ := nearest_neighbor_correct t s (by omega)
    rw [h2]
    rw [hn] at h1
    exact rl_two t ht _ h1
  · intro iterations restarts neighborhood limit use_nn inits nn_start
      picks hnb hinits hnn hpicks p hp
    obtain ⟨h1, h2⟩ := iterative_hill_climbing_inv t ht iterations
      restarts neighborhood (Or.inr hnb) limit use_nn inits nn_start
      picks hinits hnn hpicks p hp
    rw [h2]
    rw [hn] at h1
    exact rl_two t ht _ h1
  · intro temp alpha iterations nb cm ipt use_nn init nn_start prs accs
      logQ hprs hinit hnn
    obtain ⟨h1, h2⟩ := simulated_annealing_inv t temp alpha iterations nb
      cm ipt use_nn init nn_start prs accs logQ hprs hinit hnn
    rw [h2]
    rw [hn] at h1
    exact rl_two t ht _ h1
  · intro iterations tabu_size nb aspiration cpi limit use_nn init
      nn_start cpicks hpicks hinit hnn
    obtain ⟨h1, h2⟩ := tabu_search_inv t iterations tabu_size nb
      aspiration cpi limit use_nn init nn_start cpicks hpicks hinit hnn
    rw [h2]
    rw [hn] at h1
    exact rl_two t ht _ h1
  · intro pop_size generations stype ctype mtype elitism use_nn R hps
      hnn5 hinits hR hcp hmp res hres p hp
    obtain ⟨res2, heq, hprop⟩ := genetic_algorithm_inv t pop_size
      generations stype ctype mtype elitism use_nn R hps hnn5 hinits hR
      hcp hmp
    rw [heq] at hres
    injection hres with hres2
    subst hres2
    obtain ⟨h1, h2⟩ := hprop p hp
    rw [h2]
    rw [hn] at h1
    exact rl_two t ht _ h1
  · intro hd n_ants n_iterations ha hi rho q ip ew R hstarts res hres p
      hp
    obtain ⟨h1, h2⟩ := ant_colony_optimization_inv t n_ants n_iterations
      rho q ip ew R hstarts res hres p hp
    rw [h2]
    rw [hn] at h1
    exact rl_two t ht _ h1

theorem exT2_pairok01 : PairOk exT2.n (0, 1) :=
  Or.inr ⟨by decide, by decide, by decide⟩

theorem exT2_tour01 : IsTour exT2.n [0, 1] := by
  unfold IsTour
  rw [show List.range exT2.n = [0, 1] by decide]

theorem claim_C2_witness :
    (nearest_neighbor exT2 0).2 = 2 * exT2.dm 0 1 ∧
    (simulated_annealing exT2 10 (1/2) 3 "swap" "geometric" 2 false
      [0, 1] 0 (fun _ _ => (0, 1)) (fun _ _ => false) (fun _ => 0)).2 =
      2 * exT2.dm 0 1 ∧
    (tabu_search exT2 3 2 "swap" true 2 none false [0, 1] 0
      (fun _ _ => (0, 1))).2 = 2 * exT2.dm 0 1 := by
  have h := claim_C2 exT2 rfl exT2_symm
  exact ⟨h.1 0 (by decide),
    h.2.2.1 10 (1/2) 3 "swap" "geometric" 2 false [0, 1] 0
      (fun _ _ => (0, 1)) (fun _ _ => false) (fun _ => 0)
      (fun i j => exT2_pairok01) (fun _ => exT2_tour01)
      (fun hh => by cases hh),
    h.2.2.2.1 3 2 "swap" true 2 none false [0, 1] 0 (fun _ _ => (0, 1))
      (fun i j => exT2_pairok01) (fun _ => exT2_tour01)
      (fun hh => by cases hh)⟩

/-- One city, one ant, one iteration: the very first pheromone deposit
divides by the zero tour length and `ant_colony_optimization` raises
`ZeroDivisionError` instead of returning. -/
theorem claim_C2_counterexample :
    ant_colony_optimization exT1 1 1 (1/2) 100 1 0 exAcoR =
      Except.error "ZeroDivisionError: float division by zero" :=
  ant_colony_optimization_n1_error exT1 rfl exT1_zdiag 1 1 le_rfl le_rfl
    (1/2) 100 1 0 exAcoR

/-- The inner hill-climbing loop keeps the route a tour, for any
neighborhood name — no symmetry or delta exactness is needed. -/
theorem ihc_inner_tour (name : String) (t : TSP) (limit : Option ℕ)
    (pick : ℕ → ℕ × ℕ) (hpick : ∀ i, PairOk t.n (pick i)) :
    ∀ (k i : ℕ) (st : IhcState), IsTour t.n st.route →
      IsTour t.n
        (ihc_inner (NEIGHBORHOODS_DELTA name t) limit pick k i st).route := by
  intro k
  induction k with
  | zero => intro i st h; exact h
  | succ k ih =>
    intro i st h
    rw [ihc_inner]
    have hperm : st.route.Perm (List.range t.n) := h
    have hstep : IsTour t.n
        (NEIGHBORHOODS_DELTA name t st.route (pick i).1 (pick i).2).1 := by
      rcases hpick i with hs | ⟨ha, hb, _⟩
      · have hlen : st.route.length < 2 := by
          have := hperm.length_eq
          rw [List.length_range] at this
          omega
        rw [NEIGHBORHOODS_DELTA_small name t st.route _ _ hlen]
        exact h
      · have hlen : st.route.length = t.n := by
          have := hperm.length_eq
          rw [List.length_range] at this
          exact this
        exact (NEIGHBORHOODS_DELTA_fst_perm name t st.route _ _
          (by omega) (by omega)).trans h
    by_cases hd :
        (NEIGHBORHOODS_DELTA name t st.route (pick i).1 (pick i).2).2 < 0
    · rw [if_pos hd]
      dsimp only
      split_ifs
      · exact hstep
      · exact ih (i + 1) _ hstep
    · rw [if_neg hd]
      dsimp only
      split_ifs
      · exact h
      · exact ih (i + 1) _ h

/-- `iterative_hill_climbing` always returns a tour of `[0, n)`,
whatever the neighborhood name (exactness of the reported length is not
required here). -/
theorem iterative_hill_climbing_tour (t : TSP)
    (iterations restarts : ℕ) (neighborhood : String)
    (no_improve_limit : Option ℕ) (use_nn_start : Bool)
    (inits : ℕ → List ℕ) (nn_start : ℕ) (picks : ℕ → ℕ → ℕ × ℕ)
    (hinits : ∀ r, (inits r).Perm (List.range t.n))
    (hnn : use_nn_start = true → nn_start < t.n)
    (hpicks : ∀ r i, PairOk t.n (picks r i)) :
    ∀ p, iterative_hill_climbing t iterations restarts neighborhood
        no_improve_limit use_nn_start inits nn_start picks = some p →
      IsTour t.n p.1 := by
  rw [iterative_hill_climbing]
  have key : ∀ (L : List ℕ) (init : Option (List ℕ × ℚ)),
      (∀ p, init = some p → IsTour t.n p.1) →
      ∀ p, L.foldl (fun best restart =>
          let start : List ℕ × ℚ :=
            if use_nn_start = true ∧ restart = 0 then
              nearest_neighbor t nn_start
            else
              let rte := inits restart
              (rte, route_length t rte)
          let fin := ihc_inner (NEIGHBORHOODS_DELTA neighborhood t)
            no_improve_limit (picks restart) iterations 0
            ⟨start.1, start.2, 0⟩
          updBest (fin.route, fin.cur) best) init = some p →
        IsTour t.n p.1 := by
    intro L
    induction L with
    | nil => intro init h p hp; exact h p hp
    | cons x L ih =>
      intro init h p hp
      rw [List.foldl_cons] at hp
      refine ih _ ?_ p hp
      intro q hq
      have hstart : IsTour t.n
          (if use_nn_start = true ∧ x = 0 then nearest_neighbor t nn_start
           else (inits x, route_length t (inits x))).1 := by
        split_ifs with hcase
        · exact (nearest_neighbor_correct t nn_start (hnn hcase.1)).1
        · exact hinits x
      have hfin := ihc_inner_tour neighborhood t no_improve_limit
        (picks x) (hpicks x) iterations 0
        ⟨(if use_nn_start = true ∧ x = 0 then nearest_neighbor t nn_start
            else (inits x, route_length t (inits x))).1,
          (if use_nn_start = true ∧ x = 0 then nearest_neighbor t nn_start
            else (inits x, route_length t (inits x))).2, 0⟩ hstart
      exact updBest_prop (fun p => IsTour t.n p.1) _ _ hfin h q hq
  exact key (List.range restarts) none (fun p hp => by cases hp)

/-- C3: every algorithm entry point only returns tours that are
permutations of `[0, n)` — nearest neighbour, hill climbing (for any
neighborhood), simulated annealing, tabu search, the genetic algorithm
and ant colony optimization — and in particular the ant construction
procedure and the PMX crossover operator only produce permutations. -/
theorem claim_C3 (t : TSP) :
    (∀ s, s < t.n → IsTour t.n (nearest_neighbor t s).1) ∧
    (∀ (iterations restarts : ℕ) (neighborhood : String)
      (limit : Option ℕ) (use_nn : Bool) (inits : ℕ → List ℕ)
      (nn_start : ℕ) (picks : ℕ → ℕ → ℕ × ℕ),
      (∀ r, (inits r).Perm (List.range t.n)) →
      (use_nn = true → nn_start < t.n) →
      (∀ r i, PairOk t.n (picks r i)) →
      ∀ p, iterative_hill_climbing t iterations restarts neighborhood
        limit use_nn inits nn_start picks = some p →
        IsTour t.n p.1) ∧
    (∀ (temp alpha : ℚ) (iterations : ℕ) (nb cm : String) (ipt : ℕ)
      (use_nn : Bool) (init : List ℕ) (nn_start : ℕ)
      (prs : ℕ → ℕ → ℕ × ℕ) (accs : ℕ → ℕ → Bool) (logQ : ℚ → ℚ),
      (∀ i j, PairOk t.n (prs i j)) →
      (use_nn = false → IsTour t.n init) →
      (use_nn = true → nn_start < t.n) →
      IsTour t.n (simulated_annealing t temp alpha iterations nb cm ipt
        use_nn init nn_start prs accs logQ).1) ∧
    (∀ (iterations tabu_size : ℕ) (nb : String) (aspiration : Bool)
      (cpi : ℕ) (limit : Option ℕ) (use_nn : Bool) (init : List ℕ)
      (nn_start : ℕ) (cpicks : ℕ → ℕ → ℕ × ℕ),
      (∀ i j, PairOk t.n (cpicks i j)) →
      (use_nn = false → IsTour t.n init) →
      (use_nn = true → nn_start < t.n) →
      IsTour t.n (tabu_search t iterations tabu_size nb aspiration cpi
        limit use_nn init nn_start cpicks).1) ∧
    (∀ (pop_size generations : ℕ) (stype ctype mtype : String)
      (elitism : ℕ) (use_nn : Bool) (R : GaRand), 0 < pop_size →
      (use_nn = true → min 5 t.n ≤ pop_size) →
      (∀ r, (R.inits r).Perm (List.range t.n)) →
      (∀ gen c k, R.tsel gen c k ≠ [] ∧
        ∀ i ∈ R.tsel gen c k, i < pop_size) →
      (∀ gen c, PairOk t.n (R.crossP gen c)) →
      (∀ gen c, PairOk t.n (R.mutP gen c)) →
      ∀ res, genetic_algorithm t pop_size generations stype ctype mtype
        elitism use_nn R = Except.ok res →
      ∀ p, res = some p → IsTour t.n p.1) ∧
    (∀ (n_ants n_iterations : ℕ) (rho q ip ew : ℚ) (R : AcoRand),
      (∀ it ant, R.starts it ant < t.n) →
      ∀ res, ant_colony_optimization t n_ants n_iterations rho q ip ew R
        = Except.ok res → ∀ p, res = some p → IsTour t.n p.1) ∧
    (∀ s, s < t.n → ∀ pick : ℕ → ℕ,
      (_construct_solution t.n s pick).Perm (List.range t.n)) ∧
    (∀ (p1 p2 : List ℕ), p1.Perm p2 → p1.Nodup → ∀ a0 b0 : ℕ,
      a0 < p1.length → b0 < p1.length →
      (pmx_crossover p1 p2 a0 b0).Perm p1) := by
  refine ⟨?_, ?_, ?_, ?_, ?_, ?_, ?_, ?_⟩
  · intro s hs
    exact (nearest_neighbor_correct t s hs).1
  · intro iterations restarts neighborhood limit use_nn inits nn_start
      picks hinits hnn hpicks p hp
    exact iterative_hill_climbing_tour t iterations restarts neighborhood
      limit use_nn inits nn_start picks hinits hnn hpicks p hp
  · intro temp alpha iterations nb cm ipt use_nn init nn_start prs accs
      logQ hprs hinit hnn
    exact (simulated_annealing_inv t temp alpha iterations nb cm ipt
      use_nn init nn_start prs accs logQ hprs hinit hnn).1
  · intro iterations tabu_size nb aspiration cpi limit use_nn init
      nn_start cpicks hpicks hinit hnn
    exact (tabu_search_inv t iterations tabu_size nb aspiration cpi
      limit use_nn init nn_start cpicks hpicks hinit hnn).1
  · intro pop_size generations stype ctype mtype elitism use_nn R hps
      hnn5 hinits hR hcp hmp res hres p hp
    obtain ⟨res2, heq, hprop⟩ := genetic_algorithm_inv t pop_size
      generations stype ctype mtype elitism use_nn R hps hnn5 hinits hR
      hcp hmp
    rw [heq] at hres
    injection hres with hres2
    subst hres2
    exact (hprop p hp).1
  · intro n_ants n_iterations rho q ip ew R hstarts res hres p hp
    exact (ant_colony_optimization_inv t n_ants n_iterations rho q ip ew
      R hstarts res hres p hp).1
  · intro s hs pick
    exact construct_solution_tour t.n s pick hs
  · intro p1 p2 hp hnd a0 b0 ha0 hb0
    exact pmx_crossover_perm p1 p2 hp hnd a0 b0 ha0 hb0

/-- C6: the tracked global best never worsens: a single `updBest`
update, the whole SA outer loop, the whole TS loop, one GA generation
and one ACO iteration each end with a best no larger than the best they
started from. -/
theorem claim_C6 (t : TSP) :
    (∀ (cand : List ℕ × ℚ) (b : Option (List ℕ × ℚ)),
      bestLe (updBest cand b) b) ∧
    (∀ (mf : List ℕ → ℕ → ℕ → List ℕ) (ipt : ℕ) (temp0 alpha : ℚ)
      (method : String) (logQ : ℚ → ℚ) (mi : ℕ)
      (pairs : ℕ → ℕ → ℕ × ℕ) (accs : ℕ → ℕ → Bool) (k i : ℕ)
      (st : SaState),
      (sa_outer t mf ipt temp0 alpha method logQ mi pairs accs k i
        st).bestD ≤ st.bestD) ∧
    (∀ (mf : List ℕ → ℕ → ℕ → List ℕ) (tabu_size : ℕ)
      (aspiration : Bool) (cands : ℕ) (limit : Option ℕ)
      (cpicks : ℕ → ℕ → ℕ × ℕ) (k i : ℕ) (st : TsState),
      (ts_loop t mf tabu_size aspiration cands limit cpicks k i
        st).bestD ≤ st.bestD) ∧
    (∀ (pop_size elitism : ℕ) (stype ctype mtype : String) (R : GaRand),
      0 < pop_size →
      (∀ gen c k, R.tsel gen c k ≠ [] ∧ ∀ i ∈ R.tsel gen c k,
        i < pop_size) →
      (∀ gen c, PairOk t.n (R.crossP gen c)) →
      (∀ gen c, PairOk t.n (R.mutP gen c)) →
      ∀ (st : List (List ℕ) × Option (List ℕ × ℚ)) (gen : ℕ),
      GaInv t pop_size st →
      ∃ st2, ga_generation t pop_size elitism stype ctype mtype R st gen
        = Except.ok st2 ∧ bestLe st2.2 st.2) ∧
    (∀ (n_ants : ℕ) (rho q ew : ℚ) (R : AcoRand),
      (∀ it ant, R.starts it ant < t.n) →
      ∀ (st st2 : (ℕ → ℕ → ℚ) × Option (List ℕ × ℚ)) (it : ℕ),
      aco_iteration t n_ants rho q ew R st it = Except.ok st2 →
      (∀ p, st.2 = some p → IsTour t.n p.1 ∧
        p.2 = route_length t p.1) →
      bestLe st2.2 st.2) := by
  refine ⟨?_, ?_, ?_, ?_, ?_⟩
  · intro cand b
    cases b with
    | none => trivial
    | some p =>
      rw [updBest]
      split_ifs with h
      · exact le_of_lt h
      · exact le_refl p.2
  · intro mf ipt temp0 alpha method logQ mi pairs accs k i st
    exact sa_outer_best_mono t mf ipt temp0 alpha method logQ mi pairs
      accs k i st
  · intro mf tabu_size aspiration cands limit cpicks k i st
    exact ts_loop_best_mono t mf tabu_size aspiration cands limit cpicks
      k i st
  · intro pop_size elitism stype ctype mtype R hps hR hcp hmp st gen
      hinv
    obtain ⟨st2, heq, _, hle⟩ := ga_generation_sound t pop_size elitism
      stype ctype mtype R hps hR hcp hmp st gen hinv
    exact ⟨st2, heq, hle⟩
  · intro n_ants rho q ew R hstarts st st2 it h hbest
    exact (aco_iteration_ok_best t n_ants rho q ew R hstarts st st2 it h
      hbest).2

/-- C5: exactness of the reported best length.  Amended: every entry
point returns `best_length = route_length(best_tour)` (non-negative
whenever the distance matrix is), except `iterative_hill_climbing`,
whose accumulated per-move deltas are exact only where the configured
delta operator is: on symmetric models with any neighborhood other than
the two-city-broken `swap` (`claim_C5_counterexample` shows it
reporting length 0 for a tour of true length 2). -/
theorem claim_C5 (t : TSP) :
    (∀ s, s < t.n → (nearest_neighbor t s).2 =
      route_length t (nearest_neighbor t s).1 ∧
      (Nonneg t → 0 ≤ (nearest_neighbor t s).2)) ∧
    (Symm t → ∀ (iterations restarts : ℕ) (neighborhood : String)
      (limit : Option ℕ) (use_nn : Bool) (inits : ℕ → List ℕ)
      (nn_start : ℕ) (picks : ℕ → ℕ → ℕ × ℕ),
      (t.n ≠ 2 ∨ neighborhood ≠ "swap") →
      (∀ r, (inits r).Perm (List.range t.n)) →
      (use_nn = true → nn_start < t.n) →
      (∀ r i, PairOk t.n (picks r i)) →
      ∀ p, iterative_hill_climbing t iterations restarts neighborhood
        limit use_nn inits nn_start picks = some p →
        p.2 = route_length t p.1 ∧ (Nonneg t → 0 ≤ p.2)) ∧
    (∀ (temp alpha : ℚ) (iterations : ℕ) (nb cm : String) (ipt : ℕ)
      (use_nn : Bool) (init : List ℕ) (nn_start : ℕ)
      (prs : ℕ → ℕ → ℕ × ℕ) (accs : ℕ → ℕ → Bool) (logQ : ℚ → ℚ),
      (∀ i j, PairOk t.n (prs i j)) →
      (use_nn = false → IsTour t.n init) →
      (use_nn = true → nn_start < t.n) →
      (simulated_annealing t temp alpha iterations nb cm ipt use_nn
        init nn_start prs accs logQ).2 =
        route_length t (simulated_annealing t temp alpha iterations nb
          cm ipt use_nn init nn_start prs accs logQ).1 ∧
      (Nonneg t → 0 ≤ (simulated_annealing t temp alpha iterations nb
        cm ipt use_nn init nn_start prs accs logQ).2)) ∧
    (∀ (iterations tabu_size : ℕ) (nb : String) (aspiration : Bool)
      (cpi : ℕ) (limit : Option ℕ) (use_nn : Bool) (init : List ℕ)
      (nn_start : ℕ) (cpicks : ℕ → ℕ → ℕ × ℕ),
      (∀ i j, PairOk t.n (cpicks i j)) →
      (use_nn = false → IsTour t.n init) →
      (use_nn = true → nn_start < t.n) →
      (tabu_search t iterations tabu_size nb aspiration cpi limit
        use_nn init nn_start cpicks).2 =
        route_length t (tabu_search t iterations tabu_size nb aspiration
          cpi limit use_nn init nn_start cpicks).1 ∧
      (Nonneg t → 0 ≤ (tabu_search t iterations tabu_size nb aspiration
        cpi limit use_nn init nn_start cpicks).2)) ∧
    (∀ (pop_size generations : ℕ) (stype ctype mtype : String)
      (elitism : ℕ) (use_nn : Bool) (R : GaRand), 0 < pop_size →
      (use_nn = true → min 5 t.n ≤ pop_size) →
      (∀ r, (R.inits r).Perm (List.range t.n)) →
      (∀ gen c k, R.tsel gen c k ≠ [] ∧
        ∀ i ∈ R.tsel gen c k, i < pop_size) →
      (∀ gen c, PairOk t.n (R.crossP gen c)) →
      (∀ gen c, PairOk t.n (R.mutP gen c)) →
      ∀ res, genetic_algorithm t pop_size generations stype ctype mtype
        elitism use_nn R = Except.ok res →
      ∀ p, res = some p → p.2 = route_length t p.1 ∧
        (Nonneg t → 0 ≤ p.2)) ∧
    (∀ (n_ants n_iterations : ℕ) (rho q ip ew : ℚ) (R : AcoRand),
      (∀ it ant, R.starts it ant < t.n) →
      ∀ res, ant_colony_optimization t n_ants n_iterations rho q ip ew R
        = Except.ok res → ∀ p, res = some p →
        p.2 = route_length t p.1 ∧ (Nonneg t → 0 ≤ p.2)) := by
  refine ⟨?_, ?_, ?_, ?_, ?_, ?_⟩
  · intro s hs
    obtain ⟨_, h2⟩ := nearest_neighbor_correct t s hs
    exact ⟨h2, fun hnn => h2 ▸ route_length_nonneg t hnn _⟩
  · intro ht iterations restarts neighborhood limit use_nn inits
      nn_start picks hswap hinits hnn hpicks p hp
    obtain ⟨_, h2⟩ := iterative_hill_climbing_inv t ht iterations
      restarts neighborhood hswap limit use_nn inits nn_start picks
      hinits hnn hpicks p hp
    exact ⟨h2, fun hnn2 => h2 ▸ route_length_nonneg t hnn2 _⟩
  · intro temp alpha iterations nb cm ipt use_nn init nn_start prs accs
      logQ hprs hinit hnn
    obtain ⟨_, h2⟩ := simulated_annealing_inv t temp alpha iterations nb
      cm ipt use_nn init nn_start prs accs logQ hprs hinit hnn
    exact ⟨h2, fun hnn2 => h2 ▸ route_length_nonneg t hnn2 _⟩
  · intro iterations tabu_size nb aspiration cpi limit use_nn init
      nn_start cpicks hpicks hinit hnn
    obtain ⟨_, h2⟩ := tabu_search_inv t iterations tabu_size nb
      aspiration cpi limit use_nn init nn_start cpicks hpicks hinit hnn
    exact ⟨h2, fun hnn2 => h2 ▸ route_length_nonneg t hnn2 _⟩
  · intro pop_size generations stype ctype mtype elitism use_nn R hps
      hnn5 hinits hR hcp hmp res hres p hp
    obtain ⟨res2, heq, hprop⟩ := genetic_algorithm_inv t pop_size
      generations stype ctype mtype elitism use_nn R hps hnn5 hinits hR
      hcp hmp
    rw [heq] at hres
    injection hres with hres2
    subst hres2
    obtain ⟨_, h2⟩ := hprop p hp
    exact ⟨h2, fun hnn2 => h2 ▸ route_length_nonneg t hnn2 _⟩
  · intro n_ants n_iterations rho q ip ew R hstarts res hres p hp
    obtain ⟨_, h2⟩ := ant_colony_optimization_inv t n_ants n_iterations
      rho q ip ew R hstarts res hres p hp
    exact ⟨h2, fun hnn2 => h2 ▸ route_length_nonneg t hnn2 _⟩

theorem claim_C5_witness :
    ((nearest_neighbor exT2 0).2 =
      route_length exT2 (nearest_neighbor exT2 0).1 ∧
      (Nonneg exT2 → 0 ≤ (nearest_neighbor exT2 0).2)) ∧
    ((tabu_search exT2 3 2 "swap" true 2 none false [0, 1] 0
      (fun _ _ => (0, 1))).2 =
      route_length exT2 (tabu_search exT2 3 2 "swap" true 2 none false
        [0, 1] 0 (fun _ _ => (0, 1))).1 ∧
      (Nonneg exT2 → 0 ≤ (tabu_search exT2 3 2 "swap" true 2 none false
        [0, 1] 0 (fun _ _ => (0, 1))).2)) := by
  have h := claim_C5 exT2
  exact ⟨h.1 0 (by decide),
    h.2.2.2.1 3 2 "swap" true 2 none false [0, 1] 0 (fun _ _ => (0, 1))
      (fun i j => exT2_pairok01) (fun _ => exT2_tour01)
      (fun hh => by cases hh)⟩

/-- Hill climbing with the `swap` operator on a two-city instance
accepts the double-counted delta `-2` and reports a best length of `0`
for the tour `[1, 0]`, whose true length is `2`. -/
theorem claim_C5_counterexample :
    iterative_hill_climbing exT2 1 1 "swap" none false (fun _ => [0, 1])
      0 (fun _ _ => (0, 1)) = some ([1, 0], 0) ∧
    route_length exT2 [1, 0] ≠ 0 := by
  constructor
  · norm_num [iterative_hill_climbing, ihc_inner, ihc_break,
      NEIGHBORHOODS_DELTA, swap_delta, updBest, exT2, route_length,
      Finset.sum_range_succ, List.range_succ]
  · norm_num [route_length, exT2, Finset.sum_range_succ]

theorem exT2_tour10 : IsTour exT2.n [1, 0] := by
  unfold IsTour
  rw [show List.range exT2.n = [0, 1] by decide]
  decide

theorem exT2_rl01 : route_length exT2 [0, 1] = 2 := by
  norm_num [route_length, exT2, Finset.sum_range_succ]

theorem exBest01 : ∀ p : List ℕ × ℚ, some ([0, 1], (2 : ℚ)) = some p →
    IsTour exT2.n p.1 ∧ p.2 = route_length exT2 p.1 := by
  intro p hp
  injection hp with h
  subst h
  exact ⟨exT2_tour01, exT2_rl01.symm⟩

theorem exGaR_tsel (gen c k : ℕ) : exGaR.tsel gen c k ≠ [] ∧
    ∀ i ∈ exGaR.tsel gen c k, i < 2 := by
  show ([0] : List ℕ) ≠ [] ∧ ∀ i ∈ ([0] : List ℕ), i < 2
  decide

theorem exGaR_crossP (gen c : ℕ) : PairOk exT2.n (exGaR.crossP gen c) :=
  exT2_pairok01

theorem exGaR_mutP (gen c : ℕ) : PairOk exT2.n (exGaR.mutP gen c) :=
  exT2_pairok01

theorem exGaInv : GaInv exT2 2 ([[0, 1], [1, 0]], some ([0, 1], 2)) := by
  refine ⟨?_, rfl, exBest01⟩
  intro r hr
  rcases List.mem_cons.mp hr with rfl | hr2
  · exact exT2_tour01
  · rcases List.mem_cons.mp hr2 with rfl | hr3
    · exact exT2_tour10
    · cases hr3

theorem exAcoR_starts (it ant : ℕ) : exAcoR.starts it ant < exT2.n := by
  show (0 : ℕ) < 2
  decide

theorem claim_C6_witness :
    bestLe (updBest ([1, 0], 2) (some ([0, 1], 3))) (some ([0, 1], 3)) ∧
    (∃ st2, ga_generation exT2 2 0 "tournament" "order" "swap" exGaR
      ([[0, 1], [1, 0]], some ([0, 1], 2)) 0 = Except.ok st2 ∧
      bestLe st2.2 (some ([0, 1], 2))) ∧
    (∃ st2, aco_iteration exT2 1 (1/2) 100 0 exAcoR
      (fun _ _ => 1, some ([0, 1], 2)) 0 = Except.ok st2 ∧
      bestLe st2.2 (some ([0, 1], 2))) := by
  have h := claim_C6 exT2
  refine ⟨h.1 ([1, 0], 2) (some ([0, 1], 3)), ?_, ?_⟩
  · exact h.2.2.2.1 2 0 "tournament" "order" "swap" exGaR (by decide)
      exGaR_tsel exGaR_crossP exGaR_mutP ([[0, 1], [1, 0]],
        some ([0, 1], 2)) 0 exGaInv
  · obtain ⟨st2, hok, _⟩ := aco_iteration_n2_step exT2 rfl exT2_symm
      (by norm_num [exT2]) 0 (1/2) 100 0 exAcoR exAcoR_starts
      (fun _ _ => 1, some ([0, 1], 2)) 0
      (Or.inr ⟨([0, 1], 2), rfl, by norm_num [exT2]⟩)
    exact ⟨st2, hok, h.2.2.2.2 1 (1/2) 100 0 exAcoR exAcoR_starts
      (fun _ _ => 1, some ([0, 1], 2)) st2 0 hok exBest01⟩

theorem claim_C3_witness :
    IsTour exT2.n (nearest_neighbor exT2 0).1 ∧
    IsTour exT2.n (simulated_annealing exT2 10 (1/2) 3 "two_opt"
      "linear" 2 false [0, 1] 0 (fun _ _ => (0, 1)) (fun _ _ => true)
      (fun _ => 0)).1 ∧
    (_construct_solution exT2.n 1 (fun _ => 0)).Perm
      (List.range exT2.n) ∧
    (pmx_crossover [0, 1, 2, 3] [2, 0, 3, 1] 1 2).Perm [0, 1, 2, 3] := by
  have h := claim_C3 exT2
  exact ⟨h.1 0 (by decide),
    h.2.2.1 10 (1/2) 3 "two_opt" "linear" 2 false [0, 1] 0
      (fun _ _ => (0, 1)) (fun _ _ => true) (fun _ => 0)
      (fun i j => exT2_pairok01) (fun _ => exT2_tour01)
      (fun hh => by cases hh),
    h.2.2.2.2.2.2.1 1 (by decide) (fun _ => 0),
    h.2.2.2.2.2.2.2 [0, 1, 2, 3] [2, 0, 3, 1] (by decide) (by decide)
      1 2 (by decide) (by decide)⟩

end Tsp
